import Mathlib

/-! Aura-Tokenizer: vocabulary, BPE, WordPiece, Unigram and pipeline.

A shallow embedding of the C++ sources under `src/Aura-Tokenizer`.

Conventions of the embedding
* a `std::string` is a `Str`, a list of `Char`; every element stands for one C++ `char`;
* a `std::unordered_map<K, V>` is an association list with pairwise distinct keys;
  `umFind` is `find`, `umSet` is `operator[]` followed by an assignment.  The C++ standard
  leaves the enumeration order of such a map open; the embedding enumerates in insertion
  order, and statements that depend on the order say so;
* an `int` is a 32-bit value in two's complement. The ids of a vocabulary are computed with
  that wrap-around (`int_wrap`), since `add_token` accepts every explicit id and
  `add_token(t, INT_MAX)` overflows `next_id_` in one call. Ranks and counts are computed on
  `Int`: they reach `INT_MAX` only for a rule list of `2 ^ 31` rules or a corpus of `2 ^ 31`
  `char`s;
* a `while` loop whose termination is not structural carries a fuel argument; the theorems
  about such a loop show that the fuel handed to it suffices.
-/

namespace AuraTokenizer

/-- A `std::string`, one `Char` for each `char`. -/
abbrev Str := List Char

/-- Results of functions that can throw are compared by value. -/
instance instDecidableEqExcept {ε α : Type} [DecidableEq ε] [DecidableEq α] :
    DecidableEq (Except ε α)
  | Except.ok a, Except.ok b =>
    if h : a = b then isTrue (by rw [h]) else isFalse (fun e => h (by cases e; rfl))
  | Except.error a, Except.error b =>
    if h : a = b then isTrue (by rw [h]) else isFalse (fun e => h (by cases e; rfl))
  | Except.ok _, Except.error _ => isFalse (fun e => by cases e)
  | Except.error _, Except.ok _ => isFalse (fun e => by cases e)

/-! ## `std::unordered_map` -/

/-- The map lookup `m.find(k)`: the value stored under `k`, if any. -/
def umFind {K V : Type} [DecidableEq K] : List (K × V) → K → Option V
  | [], _ => none
  | (k', v) :: m, k => if k' = k then some v else umFind m k

/-- The assignment `m[k] = v`: overwrite the value of an existing key, else add the entry. -/
def umSet {K V : Type} [DecidableEq K] : List (K × V) → K → V → List (K × V)
  | [], k, v => [(k, v)]
  | (k', v') :: m, k, v => if k' = k then (k', v) :: m else (k', v') :: umSet m k v

/-- The update `m[k] += d` on a map of counters (a missing key starts at `0`). -/
def umAdd {K : Type} [DecidableEq K] : List (K × Int) → K → Int → List (K × Int)
  | [], k, d => [(k, d)]
  | (k', v') :: m, k, d => if k' = k then (k', v' + d) :: m else (k', v') :: umAdd m k d

/-- The set insertion `s.insert(x)` of a `std::unordered_set`. -/
def usInsert {K : Type} [DecidableEq K] (s : List K) (x : K) : List K :=
  if x ∈ s then s else s ++ [x]

/-! ## `tokenizer_types.h`, `token.h` -/

/-- The roles of special tokens (`enum class SpecialTokenType`). -/
inductive SpecialTokenType where
  | UNK | PAD | BOS | EOS | MASK | SEP | CLS | BLANK | CUSTOM
  deriving DecidableEq, Repr

/-- The `struct OffsetMapping`. -/
structure OffsetMapping where
  start : Int
  stop : Int
  deriving DecidableEq, Repr

/-- The `struct Token`. -/
structure Token where
  id : Int
  text : Str
  is_special : Bool
  offset : OffsetMapping
  deriving DecidableEq, Repr

/-- The constructor `Token(p_id, p_text, p_is_special)` with the default offset `{0, 0}`. -/
def Token.make (p_id : Int) (p_text : Str) (p_is_special : Bool) : Token :=
  { id := p_id, text := p_text, is_special := p_is_special, offset := { start := 0, stop := 0 } }

/-! ## `vocab.cpp` -/

/-- The value that an `int` holds after a computation with the mathematical result `x`: the
result reduced to the 32 bits of an `int` in two's complement, so `INT_MAX + 1` is stored as
`INT_MIN`. -/
def int_wrap (x : Int) : Int := (x + 2147483648) % 4294967296 - 2147483648

/-- The data members of `class Vocab`. -/
structure Vocab where
  token_to_id_ : List (Str × Int)
  id_to_token_ : List (Int × Str)
  special_token_ids_ : List (SpecialTokenType × Int)
  special_ids_set_ : List Int
  next_id_ : Int
  deriving DecidableEq, Repr

namespace Vocab

/-- The constructor `Vocab::Vocab()`. -/
def empty : Vocab :=
  { token_to_id_ := [], id_to_token_ := [], special_token_ids_ := [], special_ids_set_ := [],
    next_id_ := 0 }

/-- The method `Vocab::clear`. -/
def clear (_v : Vocab) : Vocab := empty

/-- The method `Vocab::has_token`. -/
def has_token (v : Vocab) (token : Str) : Bool := (umFind v.token_to_id_ token).isSome

/-- The method `Vocab::has_id`. -/
def has_id (v : Vocab) (id : Int) : Bool := (umFind v.id_to_token_ id).isSome

/-- The method `Vocab::size`. -/
def size (v : Vocab) : Nat := v.token_to_id_.length

/-- The method `Vocab::add_token(token, id)`; the default argument of the source is `id = -1`.
`next1` is `next_id_` after `next_id_++`; both `next_id_++` and `assigned_id + 1` are computed
on `int`. -/
def add_token (v : Vocab) (token : Str) (id : Int) : Vocab :=
  if token = [] ∨ v.has_token token = true then v
  else
    let assigned_id := if id < 0 then v.next_id_ else id
    let next1 := if id < 0 then int_wrap (v.next_id_ + 1) else v.next_id_
    { v with
      token_to_id_ := umSet v.token_to_id_ token assigned_id
      id_to_token_ := umSet v.id_to_token_ assigned_id token
      next_id_ := if assigned_id ≥ next1 then int_wrap (assigned_id + 1) else next1 }

/-- The method `Vocab::add_tokens`. -/
def add_tokens (v : Vocab) (tokens : List Str) : Vocab :=
  tokens.foldl (fun acc t => acc.add_token t (-1)) v

/-- The method `Vocab::get_token_id`. -/
def get_token_id (v : Vocab) (token : Str) : Int :=
  match umFind v.token_to_id_ token with
  | some id => id
  | none => -1

/-- The method `Vocab::get_token`. -/
def get_token (v : Vocab) (id : Int) : Str :=
  match umFind v.id_to_token_ id with
  | some t => t
  | none => []

/-- The method `Vocab::add_special_token`; `next_id_++` is computed on `int`. -/
def add_special_token (v : Vocab) (token : Str) (type : SpecialTokenType) : Vocab :=
  if token = [] ∨ v.has_token token = true then v
  else
    let id := v.next_id_
    { token_to_id_ := umSet v.token_to_id_ token id
      id_to_token_ := umSet v.id_to_token_ id token
      special_token_ids_ := umSet v.special_token_ids_ type id
      special_ids_set_ := usInsert v.special_ids_set_ id
      next_id_ := int_wrap (v.next_id_ + 1) }

/-- The method `Vocab::is_special_token`. -/
def is_special_token (v : Vocab) (token : Str) : Bool :=
  match umFind v.token_to_id_ token with
  | none => false
  | some id => decide (id ∈ v.special_ids_set_)

/-- The method `Vocab::is_special_token_id`. -/
def is_special_token_id (v : Vocab) (id : Int) : Bool := decide (id ∈ v.special_ids_set_)

/-- The method `Vocab::get_special_token_id`. -/
def get_special_token_id (v : Vocab) (type : SpecialTokenType) : Int :=
  match umFind v.special_token_ids_ type with
  | some id => id
  | none => -1

/-- The method `Vocab::get_special_token_text`. -/
def get_special_token_text (v : Vocab) (type : SpecialTokenType) : Str :=
  v.get_token (v.get_special_token_id type)

end Vocab

/-! ## `bpe_tokenizer.cpp` -/

/-- The key `left + " " + right` under which `merge_ranks_` stores a rule. -/
def pair_key (left right : Str) : Str := left ++ ' ' :: right

/-- The loop of `BPETokenizer::build_merge_ranks`, from index `i` on. -/
def build_merge_ranks_from : List (Str × Str) → Nat → List (Str × Int) → List (Str × Int)
  | [], _, m => m
  | rule :: rest, i, m => build_merge_ranks_from rest (i + 1) (umSet m (pair_key rule.1 rule.2) i)

/-- The method `BPETokenizer::build_merge_ranks`: the table starts empty. -/
def build_merge_ranks (merge_rules : List (Str × Str)) : List (Str × Int) :=
  build_merge_ranks_from merge_rules 0 []

/-- The data members of `BPETokenizer` that encoding reads. -/
structure BPETokenizer where
  vocab_ : Vocab
  merge_rules_ : List (Str × Str)
  merge_ranks_ : List (Str × Int)
  deriving DecidableEq, Repr

/-- The method `BPETokenizer::set_merge_rules` on rules that are already split. -/
def BPETokenizer.with_rules (vocab : Vocab) (rules : List (Str × Str)) : BPETokenizer :=
  { vocab_ := vocab, merge_rules_ := rules, merge_ranks_ := build_merge_ranks rules }

/-- The inner `for` loop of `encode_bpe`: `parts` is the part of the symbol list from index
`i` on, the state is `(best_rank, merge_idx)`. -/
def scan_pairs (ranks : List (Str × Int)) : List Str → Nat → Int × Int → Int × Int
  | a :: b :: rest, i, st =>
    let st' :=
      match umFind ranks (pair_key a b) with
      | some r => if st.1 = -1 ∨ r < st.1 then (r, (i : Int)) else st
      | none => st
    scan_pairs ranks (b :: rest) (i + 1) st'
  | _, _, st => st

/-- The two statements `parts[idx] += parts[idx + 1]; parts.erase(parts.begin() + idx + 1)`. -/
def merge_at : List Str → Nat → List Str
  | a :: b :: rest, 0 => (a ++ b) :: rest
  | a :: rest, n + 1 => a :: merge_at rest n
  | l, _ => l

/-- The `while (parts.size() > 1)` loop of `encode_bpe`, with fuel. -/
def merge_loop (ranks : List (Str × Int)) : Nat → List Str → List Str
  | 0, parts => parts
  | fuel + 1, parts =>
    if parts.length > 1 then
      let st := scan_pairs ranks parts 0 (-1, -1)
      if st.2 = -1 then parts else merge_loop ranks fuel (merge_at parts st.2.toNat)
    else parts

/-- The final loop of `encode_bpe`: the token of one symbol. -/
def bpe_token (vocab : Vocab) (p : Str) : Token :=
  let unk_id := vocab.get_special_token_id SpecialTokenType.UNK
  let id := vocab.get_token_id p
  Token.make (if id ≥ 0 then id else unk_id) p (vocab.is_special_token p)

/-- The symbols `encode_bpe` ends with: the single `char`s of the word, merged. -/
def bpe_parts (t : BPETokenizer) (word : Str) : List Str :=
  merge_loop t.merge_ranks_ word.length (word.map fun c => [c])

/-- The method `BPETokenizer::encode_bpe`. -/
def BPETokenizer.encode_bpe (t : BPETokenizer) (word : Str) : List Token :=
  if word = [] then []
  else (bpe_parts t word).map (bpe_token t.vocab_)

/-! ## `tokenizer_config.h` -/

/-- The `enum class NormalizationForm`. -/
inductive NormalizationForm where
  | NONE | NFC | NFD | NFKC | NFKD
  deriving DecidableEq, Repr

/-- The `enum class ModelType`. -/
inductive ModelType where
  | BERT | GPT2 | ROBERTA | XLNET | ALBERT | CUSTOM
  deriving DecidableEq, Repr

/-- The `enum class TruncationStrategy`. -/
inductive TruncationStrategy where
  | LONGEST_FIRST | ONLY_FIRST | ONLY_SECOND
  deriving DecidableEq, Repr

/-- The data members of `class TokenizerConfig`. -/
structure TokenizerConfig where
  vocab_size : Nat
  model_type : Str
  base_model : ModelType
  add_special_tokens : Bool
  add_byte_fallback : Bool
  unk_token : Str
  pad_token : Str
  bos_token : Str
  eos_token : Str
  mask_token : Str
  sep_token : Str
  cls_token : Str
  added_tokens : List (Str × Str)
  chat_template : Str
  pre_tokenizer_patterns : List Str
  lowercase : Bool
  strip_accents : Bool
  normalization : NormalizationForm
  normalize_whitespace : Bool
  remove_control_chars : Bool
  remove_diacritics : Bool
  min_frequency : Nat
  max_tokens : Nat
  use_regex : Bool
  regex_pattern : Str
  max_length : Int
  pad_to_max_length : Bool
  truncation_strategy : TruncationStrategy
  deriving DecidableEq, Repr

/-- The member initialisers of `TokenizerConfig` (`TokenizerConfig() = default`). -/
def TokenizerConfig.default : TokenizerConfig :=
  { vocab_size := 30000, model_type := "bpe".toList, base_model := ModelType.CUSTOM,
    add_special_tokens := true, add_byte_fallback := true,
    unk_token := "[UNK]".toList, pad_token := "[PAD]".toList, bos_token := "[BOS]".toList,
    eos_token := "[EOS]".toList, mask_token := "[MASK]".toList, sep_token := "[SEP]".toList,
    cls_token := "[CLS]".toList, added_tokens := [], chat_template := [],
    pre_tokenizer_patterns := [], lowercase := false, strip_accents := false,
    normalization := NormalizationForm.NFC, normalize_whitespace := true,
    remove_control_chars := true, remove_diacritics := false, min_frequency := 2,
    max_tokens := 1000000, use_regex := false, regex_pattern := [], max_length := 512,
    pad_to_max_length := false, truncation_strategy := TruncationStrategy.LONGEST_FIRST }

/-! ## Strings and streams of the standard library -/

/-- The test `std::isspace` of the classic locale, which ends a word of `stream >> word`. -/
def is_space (c : Char) : Bool :=
  c = ' ' || c = '\t' || c = '\n' || c = '\r' || c.toNat = 11 || c.toNat = 12

/-- The loop `while (stream >> word)`: `cur` is the word read so far. -/
def split_ws_aux : Str → Str → List Str
  | [], cur => if cur = [] then [] else [cur]
  | c :: cs, cur =>
    if is_space c then (if cur = [] then split_ws_aux cs [] else cur :: split_ws_aux cs [])
    else split_ws_aux cs (cur ++ [c])

/-- The words that `while (stream >> word)` reads from a text. -/
def split_ws (text : Str) : List Str := split_ws_aux text []

/-- Whether `s` begins with `needle`. -/
def starts_with : Str → Str → Bool
  | _, [] => true
  | [], _ :: _ => false
  | c :: s, d :: needle => c = d && starts_with s needle

/-- The search of `std::string::find` in the rest `hay` of a string that starts at index `i`. -/
def str_find_from : Str → Str → Nat → Option Nat
  | [], needle, i => if needle = [] then some i else none
  | c :: hay, needle, i =>
    if starts_with (c :: hay) needle then some i else str_find_from hay needle (i + 1)

/-- The method `std::string::find(needle, pos)`; `none` is `npos`. -/
def str_find (s needle : Str) (pos : Nat) : Option Nat :=
  if pos > s.length then none else str_find_from (s.drop pos) needle pos

/-- The method `std::string::replace(pos, len, r)`. -/
def str_replace (s : Str) (pos len : Nat) (r : Str) : Str :=
  s.take pos ++ r ++ s.drop (pos + len)

/-- The method `std::string::substr(pos, len)` for `pos` within the string. -/
def substr (s : Str) (pos len : Nat) : Str := (s.drop pos).take len

/-! ## `bpe_trainer.cpp` -/

/-- The end-of-word marker that `get_word_counts` appends. -/
def end_of_word : Str := "</w>".toList

/-- The data members of `BPETrainer`; `normalizer_` is the function
`UnicodeNormalizer::normalize` of the configured normalizer. -/
structure BPETrainer where
  config_ : TokenizerConfig
  min_frequency_ : Nat
  vocab_size_ : Nat
  normalizer_ : Str → Str
  word_counts_ : List (Str × Int)
  pair_counts_ : List ((Str × Str) × Int)
  merge_rules_ : List (Str × Str)

/-- The constructor `BPETrainer::BPETrainer(config)`. -/
def BPETrainer.make (config : TokenizerConfig) (normalizer : Str → Str) : BPETrainer :=
  { config_ := config, min_frequency_ := config.min_frequency, vocab_size_ := config.vocab_size,
    normalizer_ := normalizer, word_counts_ := [], pair_counts_ := [], merge_rules_ := [] }

/-- The method `BPETrainer::get_word_counts`. -/
def BPETrainer.get_word_counts (t : BPETrainer) (corpus : List Str) : List (Str × Int) :=
  corpus.foldl (fun counts text =>
    let normalized := t.normalizer_ text
    let normalized := if t.config_.lowercase then normalized.map Char.toLower else normalized
    (split_ws normalized).foldl (fun counts word => umAdd counts (word ++ end_of_word) 1) counts)
    []

/-- The inner loop of `get_pair_counts` over the adjacent symbols of one word. -/
def count_word_pairs : List Str → Int → List ((Str × Str) × Int) → List ((Str × Str) × Int)
  | a :: b :: rest, count, counts => count_word_pairs (b :: rest) count (umAdd counts (a, b) count)
  | _, _, counts => counts

/-- The method `BPETrainer::get_pair_counts`: every word is split into single `char`s. The
source reads out of bounds on an empty word; no key of `word_counts_` is empty. -/
def get_pair_counts (word_counts : List (Str × Int)) : List ((Str × Str) × Int) :=
  word_counts.foldl (fun counts wc => count_word_pairs (wc.1.map fun c => [c]) wc.2 counts) []

/-- The selection loop of `train`: the state is `(best_pair, max_freq)`. -/
def best_pair_loop : List ((Str × Str) × Int) → (Str × Str) × Int → (Str × Str) × Int
  | [], st => st
  | (pair, freq) :: rest, st =>
    if freq > st.2 then best_pair_loop rest (pair, freq) else best_pair_loop rest st

/-- The rewriting loop `while ((pos = merged_word.find(key, pos)) != npos) replace(...)`, with
fuel: every replacement shortens the word by one `char`. -/
def rewrite_word (key new_token : Str) : Nat → Str → Nat → Str
  | 0, merged_word, _ => merged_word
  | fuel + 1, merged_word, pos =>
    match str_find merged_word key pos with
    | none => merged_word
    | some p => rewrite_word key new_token fuel (str_replace merged_word p key.length new_token) p

/-- The loop of `train` that fills `next_word_counts`. -/
def rewrite_words (best_pair : Str × Str) (word_counts : List (Str × Int)) : List (Str × Int) :=
  word_counts.foldl (fun next wc =>
    umSet next (rewrite_word (pair_key best_pair.1 best_pair.2) (best_pair.1 ++ best_pair.2)
      wc.1.length wc.1 0) wc.2) []

/-- The method `BPETrainer::initialize_vocab`. -/
def BPETrainer.initialize_vocab (t : BPETrainer) (vocab : Vocab)
    (initial_vocab_counts : List (Str × Int)) : Vocab :=
  let add := fun (v : Vocab) (tok : Str) (ty : SpecialTokenType) =>
    if tok ≠ [] then v.add_special_token tok ty else v
  let v := vocab.clear
  let v := add v t.config_.unk_token SpecialTokenType.UNK
  let v := add v t.config_.pad_token SpecialTokenType.PAD
  let v := add v t.config_.bos_token SpecialTokenType.BOS
  let v := add v t.config_.eos_token SpecialTokenType.EOS
  let v := add v t.config_.mask_token SpecialTokenType.MASK
  let v := add v t.config_.sep_token SpecialTokenType.SEP
  let v := add v t.config_.cls_token SpecialTokenType.CLS
  initial_vocab_counts.foldl (fun v tc =>
    if tc.2.toNat ≥ t.min_frequency_ then v.add_token tc.1 (-1) else v) v

/-- The `for (size_t i = vocab->size(); i < vocab_size; ++i)` loop of `train`; `n` is the
number of values that `i` still takes. -/
def train_loop : Nat → BPETrainer × Vocab → BPETrainer × Vocab
  | 0, s => s
  | n + 1, (t, vocab) =>
    let pair_counts := get_pair_counts t.word_counts_
    let t := { t with pair_counts_ := pair_counts }
    if pair_counts = [] then (t, vocab)
    else
      let best := best_pair_loop pair_counts (([], []), 0)
      if best.2 = 0 then (t, vocab)
      else
        let best_pair := best.1
        let new_token := best_pair.1 ++ best_pair.2
        train_loop n
          ({ t with merge_rules_ := t.merge_rules_ ++ [(best_pair.1, best_pair.2)]
                    word_counts_ := rewrite_words best_pair t.word_counts_ },
            vocab.add_token new_token (-1))

/-- The counts of single `char`s that `train` collects into `initial_vocab_counts`. -/
def initial_vocab_counts (word_counts : List (Str × Int)) : List (Str × Int) :=
  word_counts.foldl (fun counts wc => wc.1.foldl (fun counts c => umAdd counts [c] wc.2) counts) []

/-- The vocabulary that `train` has after the seeding step `initialize_vocab`. -/
def BPETrainer.seed_vocab (t : BPETrainer) (corpus : List Str) (vocab : Vocab) : Vocab :=
  t.initialize_vocab vocab (initial_vocab_counts (t.get_word_counts corpus))

/-- The method `BPETrainer::train`; the exception of the source is the error value. -/
def BPETrainer.train (t : BPETrainer) (corpus : List Str) (vocab : Vocab) (vocab_size : Nat) :
    Except String (BPETrainer × Vocab) :=
  if corpus = [] then Except.error "Empty corpus provided for training"
  else
    let t := { t with word_counts_ := t.get_word_counts corpus }
    let vocab := t.initialize_vocab vocab (initial_vocab_counts t.word_counts_)
    Except.ok (train_loop (vocab_size - vocab.size) (t, vocab))

/-! ## `wordpiece_model.cpp` -/

/-- The data members of `models::WordPieceModel`. -/
structure WordPieceModel where
  vocab_ : List (Str × Int)
  unk_token_ : Str
  max_input_chars_per_word_ : Int
  deriving DecidableEq, Repr

/-- The method `WordPieceModel::initialize`. -/
def WordPieceModel.initialize (vocab : List (Str × Int)) (unk_token : Str)
    (max_input_chars_per_word : Int) : WordPieceModel :=
  { vocab_ := vocab, unk_token_ := unk_token,
    max_input_chars_per_word_ := max_input_chars_per_word }

/-- The candidate of the inner loop of `tokenize`: `word.substr(start, end - start)`, with the
continuation marker in front when `start > 0`. -/
def wp_chunk (word : Str) (start stop : Nat) : Str :=
  let chunk := substr word start (stop - start)
  if start > 0 then '#' :: '#' :: chunk else chunk

/-- The inner loop `while (start < end)` of `tokenize`, entered with `end = stop`: the value
of `end` at the `break` together with `current_chunk`, or `none` when nothing is found. -/
def find_chunk (vocab : List (Str × Int)) (word : Str) (start : Nat) : Nat → Option (Nat × Str)
  | 0 => none
  | e + 1 =>
    if start < e + 1 then
      if (umFind vocab (wp_chunk word start (e + 1))).isSome then
        some (e + 1, wp_chunk word start (e + 1))
      else find_chunk vocab word start e
    else none

/-- The outer loop `while (start < current_word.length())` of `tokenize`, with fuel. -/
def tokenize_loop (m : WordPieceModel) (word : Str) : Nat → Nat → List Str → List Str
  | 0, _, output_tokens => output_tokens
  | fuel + 1, start, output_tokens =>
    if start < word.length then
      match find_chunk m.vocab_ word start word.length with
      | some (e, current_chunk) => tokenize_loop m word fuel e (output_tokens ++ [current_chunk])
      | none => output_tokens ++ [m.unk_token_]
    else output_tokens

/-- The method `WordPieceModel::tokenize`. -/
def WordPieceModel.tokenize (m : WordPieceModel) (word : Str) : List Str :=
  if word = [] then [] else tokenize_loop m word word.length 0 []

/-! ## `wordpiece_tokenizer.cpp` -/

/-- The data members of `WordPieceTokenizer` that encoding reads. -/
structure WordPieceTokenizer where
  normalizer_ : Str → Str
  vocab_ : Vocab
  wordpiece_model_ : Option WordPieceModel

/-- The method `WordPieceTokenizer::encode_to_ids`. -/
def WordPieceTokenizer.encode_to_ids (t : WordPieceTokenizer) (text : Str) :
    Except String (List Int) :=
  match t.wordpiece_model_ with
  | none => Except.error "WordPieceModel not set for WordPieceTokenizer."
  | some model =>
    let normalized_text := t.normalizer_ text
    let word_pieces := model.tokenize normalized_text
    Except.ok (word_pieces.map fun piece => t.vocab_.get_token_id piece)

/-- The method `WordPieceTokenizer::initialize_special_tokens`, applied to the vocabulary
that `vocab_` points to. -/
def WordPieceTokenizer.initialize_special_tokens (config : TokenizerConfig) (vocab : Vocab) :
    Vocab :=
  let add := fun (v : Vocab) (tok : Str) (ty : SpecialTokenType) =>
    if tok ≠ [] then v.add_special_token tok ty else v
  let v := add vocab config.unk_token SpecialTokenType.UNK
  let v := add v config.pad_token SpecialTokenType.PAD
  let v := add v config.bos_token SpecialTokenType.BOS
  let v := add v config.eos_token SpecialTokenType.EOS
  let v := add v config.mask_token SpecialTokenType.MASK
  let v := add v config.sep_token SpecialTokenType.SEP
  let v := add v config.cls_token SpecialTokenType.CLS
  config.added_tokens.foldl (fun v p => v.add_special_token p.1 SpecialTokenType.CUSTOM) v

/-- The marker removal of `decode_from_ids`: `piece.rfind("##", 0) == 0` selects
`piece.substr(2)`. -/
def strip_continuation (piece : Str) : Str :=
  if starts_with piece "##".toList then piece.drop 2 else piece

/-- The method `WordPieceTokenizer::decode_from_ids`. -/
def WordPieceTokenizer.decode_from_ids (t : WordPieceTokenizer) (ids : List Int) : Str :=
  ids.foldl (fun decoded_text id => decoded_text ++ strip_continuation (t.vocab_.get_token id)) []

/-! ## `unigram_tokenizer.cpp` -/

/-- The data members of `UnigramTokenizer` that segmentation can read; the scores are `float`s
in the source. -/
structure UnigramTokenizer where
  vocab_ : Vocab
  scores_ : List (Str × Rat)

/-- The `for (char c : text)` loop of `viterbi_segment`: the state is
`(result, current_segment)`. -/
def viterbi_scan (vocab : Vocab) : Str → List Str × Str → List Str × Str
  | [], st => st
  | c :: text, (result, current_segment) =>
    let current_segment := current_segment ++ [c]
    if vocab.has_token current_segment then viterbi_scan vocab text (result ++ [current_segment], [])
    else viterbi_scan vocab text (result, current_segment)

/-- The method `UnigramTokenizer::viterbi_segment`. -/
def UnigramTokenizer.viterbi_segment (t : UnigramTokenizer) (text : Str) : List Str :=
  if text = [] then []
  else
    let st := viterbi_scan t.vocab_ text ([], [])
    let result := if st.2 ≠ [] then st.1 ++ [st.2] else st.1
    if result = [] ∧ text ≠ [] then text.map fun c => [c] else result

/-! ## `post_processor.cpp` -/

/-- The data members of `BertPostProcessor`. -/
structure BertPostProcessor where
  cls_token_id_ : Int
  cls_token_text_ : Str
  sep_token_id_ : Int
  sep_token_text_ : Str
  deriving DecidableEq, Repr

/-- The constructor `BertPostProcessor::BertPostProcessor(config, vocab)`. -/
def BertPostProcessor.make (config : TokenizerConfig) (vocab : Vocab) : BertPostProcessor :=
  { cls_token_id_ := vocab.get_token_id config.cls_token, cls_token_text_ := config.cls_token,
    sep_token_id_ := vocab.get_token_id config.sep_token, sep_token_text_ := config.sep_token }

/-- The method `BertPostProcessor::process_ids`. -/
def BertPostProcessor.process_ids (p : BertPostProcessor) (ids : List Int) : List Int :=
  let result := if p.cls_token_id_ ≥ 0 then [p.cls_token_id_] else []
  let result := result ++ ids
  if p.sep_token_id_ ≥ 0 then result ++ [p.sep_token_id_] else result

/-! ## `pre_tokenizer.cpp` -/

/-- The method `RegexPreTokenizer::pre_tokenize` of a pre-tokenizer without patterns: the
non-empty pieces between the matches of `\s+`; `handle_special_cases` returns its argument. -/
def whitespace_pre_tokenize (text : Str) : List Str := split_ws text

/-! ## `tokenizer_advanced.cpp` -/

/-- The `struct TokenizationOptions`. -/
structure TokenizationOptions where
  add_special_tokens : Bool
  return_attention_mask : Bool
  return_token_type_ids : Bool
  return_overflowing_tokens : Bool
  return_length : Bool
  max_length : Int
  pad_to_max_length : Bool
  deriving DecidableEq, Repr

/-- The member initialisers of `TokenizationOptions`. -/
def TokenizationOptions.default : TokenizationOptions :=
  { add_special_tokens := true, return_attention_mask := false, return_token_type_ids := false,
    return_overflowing_tokens := false, return_length := false, max_length := 512,
    pad_to_max_length := false }

/-- The `struct BatchEncoding`. -/
structure BatchEncoding where
  input_ids : List (List Int)
  attention_mask : List (List Int)
  token_type_ids : List (List Int)
  offset_mapping : List (List OffsetMapping)
  length : List Nat
  overflowing_tokens : List (List (List Int))
  deriving DecidableEq, Repr

/-- The virtual methods of `TokenizerBase` that the pipeline calls on `tokenizer_impl_`. -/
structure TokenizerBase where
  encode_to_ids : Str → Except String (List Int)
  decode_from_ids : List Int → Str

/-- The data members of `TokenizerAdvanced` that `encode` reads; a null `shared_ptr` is `none`,
a collaborator behind a virtual interface is the function it computes. -/
structure TokenizerAdvanced where
  config_ : TokenizerConfig
  normalizer_ : Str → Str
  pre_tokenizer_ : Option (Str → List Str)
  post_processor_ : Option (List Int → Except String (List Int))
  tokenizer_impl_ : Option TokenizerBase
  vocab_ : Vocab

/-- The ids that `TokenizerAdvanced::encode` holds in `ids` before the post-processing step. -/
def TokenizerAdvanced.encode_ids (t : TokenizerAdvanced) (impl : TokenizerBase) (text : Str) :
    Except String (List Int) :=
  let normalized := t.normalizer_ text
  let pre_tokenized :=
    match t.pre_tokenizer_ with
    | some pre => pre normalized
    | none => [normalized]
  match pre_tokenized with
  | [single] => impl.encode_to_ids single
  | _ => impl.encode_to_ids (pre_tokenized.foldl (fun combined_text w => combined_text ++ w) [])

/-- The method `TokenizerAdvanced::encode`. -/
def TokenizerAdvanced.encode (t : TokenizerAdvanced) (text : Str)
    (options : TokenizationOptions) : Except String BatchEncoding :=
  match t.tokenizer_impl_ with
  | none => Except.error "Tokenizer not initialized."
  | some impl =>
    match t.encode_ids impl text with
    | Except.error e => Except.error e
    | Except.ok ids =>
      let processed :=
        match t.post_processor_ with
        | some post => post ids
        | none => Except.ok ids
      match processed with
      | Except.error e => Except.error e
      | Except.ok ids =>
        Except.ok
          { input_ids := [ids]
            attention_mask :=
              if options.return_attention_mask then [List.replicate ids.length 1] else []
            token_type_ids := [], offset_mapping := [], length := [], overflowing_tokens := [] }

/-- The vocabulary that the constructor of `TokenizerAdvanced` fills: the special tokens of
the configuration, the vocabulary of the model under its explicit ids, the scored tokens of
the model, the added tokens of the configuration. -/
def TokenizerAdvanced.init_vocab (config : TokenizerConfig) (model_vocab : List (Str × Int))
    (model_scores : List (Str × Rat)) : Vocab :=
  let add := fun (v : Vocab) (tok : Str) (ty : SpecialTokenType) =>
    if tok ≠ [] then v.add_special_token tok ty else v
  let v := add Vocab.empty config.unk_token SpecialTokenType.UNK
  let v := add v config.pad_token SpecialTokenType.PAD
  let v := add v config.bos_token SpecialTokenType.BOS
  let v := add v config.eos_token SpecialTokenType.EOS
  let v := add v config.mask_token SpecialTokenType.MASK
  let v := add v config.sep_token SpecialTokenType.SEP
  let v := add v config.cls_token SpecialTokenType.CLS
  let v := model_vocab.foldl (fun v p => v.add_token p.1 p.2) v
  let v := model_scores.foldl (fun v p => v.add_token p.1 (-1)) v
  config.added_tokens.foldl (fun v p => v.add_special_token p.1 SpecialTokenType.CUSTOM) v

/-- The constructor of `TokenizerAdvanced` for a model of algorithm `WORDPIECE`: the
implementation is a `WordPieceTokenizer` over a `WordPieceModel` initialised from the
vocabulary of the model; `set_vocab` hands it the vocabulary of the pipeline and runs
`initialize_special_tokens` on it. `impl_normalize` is the normalizer that the
`WordPieceTokenizer` builds from the configuration. -/
def TokenizerAdvanced.make_wordpiece (config : TokenizerConfig)
    (model_vocab : List (Str × Int)) (normalize impl_normalize : Str → Str)
    (pre_tokenizer : Option (Str → List Str))
    (post_processor : Vocab → Option (List Int → Except String (List Int))) :
    TokenizerAdvanced :=
  let vocab := WordPieceTokenizer.initialize_special_tokens config
    (TokenizerAdvanced.init_vocab config model_vocab [])
  let wordpiece_model := WordPieceModel.initialize model_vocab config.unk_token 100
  let wp : WordPieceTokenizer :=
    { normalizer_ := impl_normalize, vocab_ := vocab, wordpiece_model_ := some wordpiece_model }
  { config_ := config, normalizer_ := normalize, pre_tokenizer_ := pre_tokenizer,
    post_processor_ := post_processor vocab,
    tokenizer_impl_ := some
      { encode_to_ids := wp.encode_to_ids, decode_from_ids := wp.decode_from_ids },
    vocab_ := vocab }

/-! ## `bpe_tokenizer.cpp`: the whole tokenizer -/

/-- The method `BPETokenizer::initialize_special_tokens`, applied to the vocabulary that
`vocab_` points to: the vocabulary is cleared, then the non-empty special tokens of the
configuration are added. -/
def BPETokenizer.initialize_special_tokens (config : TokenizerConfig) (vocab : Vocab) : Vocab :=
  let add := fun (v : Vocab) (ty : SpecialTokenType) (text : Str) =>
    if text ≠ [] then v.add_special_token text ty else v
  let v := vocab.clear
  let v := add v SpecialTokenType.UNK config.unk_token
  let v := add v SpecialTokenType.PAD config.pad_token
  let v := add v SpecialTokenType.BOS config.bos_token
  let v := add v SpecialTokenType.EOS config.eos_token
  let v := add v SpecialTokenType.MASK config.mask_token
  let v := add v SpecialTokenType.SEP config.sep_token
  add v SpecialTokenType.CLS config.cls_token

/-- The split of one rule string of `set_merge_rules` at its first space; `none` when the
string holds no space. -/
def split_merge : Str → Option (Str × Str)
  | [] => none
  | c :: s =>
    if c = ' ' then some ([], s)
    else
      match split_merge s with
      | some (l, r) => some (c :: l, r)
      | none => none

/-- The method `BPETokenizer::set_merge_rules`: the rule list read from rule strings
`"token1 token2"`; a string without a space is skipped. -/
def parse_merge_rules (merges : List Str) : List (Str × Str) :=
  merges.filterMap split_merge

/-- The method `BPETokenizer::pre_tokenize`; `normalize` is the function of `normalizer_`. -/
def BPETokenizer.pre_tokenize (normalize : Str → Str) (text : Str) : List Str :=
  split_ws (normalize text)

/-- The method `BPETokenizer::encode`. -/
def BPETokenizer.encode (t : BPETokenizer) (normalize : Str → Str) (text : Str) : List Token :=
  (BPETokenizer.pre_tokenize normalize text).foldl (fun tokens word => tokens ++ t.encode_bpe word)
    []

/-- The method `BPETokenizer::encode_to_ids`. -/
def BPETokenizer.encode_to_ids (t : BPETokenizer) (normalize : Str → Str) (text : Str) :
    List Int :=
  (t.encode normalize text).map Token.id

/-- The method `BPETokenizer::decode_from_ids`; `post_process_text` returns its argument. -/
def BPETokenizer.decode_from_ids (t : BPETokenizer) (ids : List Int) : Str :=
  ids.foldl (fun result id => result ++ t.vocab_.get_token id) []

/-! ## `byte_level_pre_tokenizer.cpp` -/

/-- The method `ByteLevelPreTokenizer::pre_tokenize`: one token for every `char`. -/
def byte_level_pre_tokenize (text : Str) : List Str := text.map fun byte => [byte]

/-! ## `post_processor.cpp`: the template post-processor -/

/-- The id lists of `TemplatePostProcessor`. -/
structure TemplatePostProcessor where
  prefix_ids_ : List Int
  suffix_ids_ : List Int
  deriving DecidableEq, Repr

/-- The loop of the constructor of `TemplatePostProcessor` over the strings of one side of
the template: the ids of the strings that the vocabulary knows. -/
def template_ids (vocab : Vocab) (strs : List Str) : List Int :=
  (strs.map vocab.get_token_id).filter fun id => decide (id ≥ 0)

/-- The constructor `TemplatePostProcessor(templ, vocab)` for the template with the given
strings before and after the tokens. -/
def TemplatePostProcessor.make (before after : List Str) (vocab : Vocab) :
    TemplatePostProcessor :=
  { prefix_ids_ := template_ids vocab before, suffix_ids_ := template_ids vocab after }

/-- The method `TemplatePostProcessor::process_ids`. -/
def TemplatePostProcessor.process_ids (p : TemplatePostProcessor) (ids : List Int) : List Int :=
  p.prefix_ids_ ++ ids ++ p.suffix_ids_

/-! ## `tokenizer_advanced.cpp`: decoding, batches, the BPE pipeline -/

/-- The method `TokenizerAdvanced::decode`. -/
def TokenizerAdvanced.decode (t : TokenizerAdvanced) (ids : List Int)
    (_skip_special_tokens : Bool) : Except String Str :=
  match t.tokenizer_impl_ with
  | none => Except.error "Tokenizer not initialized."
  | some impl => Except.ok (impl.decode_from_ids ids)

/-- The body of the loop of `encode_batch` once `encode` has returned `single_encoding`. -/
def batch_push (options : TokenizationOptions) (encoding single_encoding : BatchEncoding) :
    BatchEncoding :=
  match single_encoding.input_ids with
  | [] => encoding
  | row :: _ =>
    { input_ids := encoding.input_ids ++ [row]
      attention_mask :=
        match options.return_attention_mask, single_encoding.attention_mask with
        | true, mask :: _ => encoding.attention_mask ++ [mask]
        | _, _ => encoding.attention_mask
      token_type_ids :=
        match options.return_token_type_ids, single_encoding.token_type_ids with
        | true, types :: _ => encoding.token_type_ids ++ [types]
        | _, _ => encoding.token_type_ids
      offset_mapping :=
        match single_encoding.offset_mapping with
        | offsets :: _ => encoding.offset_mapping ++ [offsets]
        | [] => encoding.offset_mapping
      length := encoding.length ++ [row.length]
      overflowing_tokens := encoding.overflowing_tokens }

/-- The loop `for (const auto& text : texts)` of `encode_batch`; an exception of `encode`
ends it. -/
def encode_batch_loop (t : TokenizerAdvanced) (options : TokenizationOptions) :
    List Str → BatchEncoding → Except String BatchEncoding
  | [], encoding => Except.ok encoding
  | text :: texts, encoding =>
    match t.encode text options with
    | Except.error e => Except.error e
    | Except.ok single_encoding =>
      encode_batch_loop t options texts (batch_push options encoding single_encoding)

/-- The method `TokenizerAdvanced::encode_batch`. -/
def TokenizerAdvanced.encode_batch (t : TokenizerAdvanced) (texts : List Str)
    (options : TokenizationOptions) : Except String BatchEncoding :=
  encode_batch_loop t options texts
    { input_ids := [], attention_mask := [], token_type_ids := [], offset_mapping := [],
      length := [], overflowing_tokens := [] }

/-- The constructor of `TokenizerAdvanced` for a model of algorithm `BPE`: the implementation
is a `BPETokenizer` with the merge rules of the model; `set_vocab` hands it the vocabulary of
the pipeline and runs `BPETokenizer::initialize_special_tokens` on it. That method reads the
member `config_` of `BPETokenizer`, which hides the member of `TokenizerBase` and which the
constructor of `BPETokenizer` leaves default-constructed. `impl_normalize` is the normalizer
that the `BPETokenizer` builds from the configuration. -/
def TokenizerAdvanced.make_bpe (config : TokenizerConfig) (model_vocab : List (Str × Int))
    (model_scores : List (Str × Rat)) (model_merges : List Str)
    (normalize impl_normalize : Str → Str) (pre_tokenizer : Option (Str → List Str))
    (post_processor : Vocab → Option (List Int → Except String (List Int))) :
    TokenizerAdvanced :=
  let vocab := BPETokenizer.initialize_special_tokens TokenizerConfig.default
    (TokenizerAdvanced.init_vocab config model_vocab model_scores)
  let bpe : BPETokenizer := BPETokenizer.with_rules vocab (parse_merge_rules model_merges)
  { config_ := config, normalizer_ := normalize, pre_tokenizer_ := pre_tokenizer,
    post_processor_ := post_processor vocab,
    tokenizer_impl_ := some
      { encode_to_ids := fun text => Except.ok (bpe.encode_to_ids impl_normalize text),
        decode_from_ids := bpe.decode_from_ids },
    vocab_ := vocab }

/-! ## `tokenizer_advanced.cpp`: lookups; `bpe_tokenizer.cpp`: `set_vocab`, `train` -/

/-- The method `TokenizerAdvanced::token_to_id`. -/
def TokenizerAdvanced.token_to_id (t : TokenizerAdvanced) (token : Str) : Int :=
  t.vocab_.get_token_id token

/-- The method `TokenizerAdvanced::id_to_token`. -/
def TokenizerAdvanced.id_to_token (t : TokenizerAdvanced) (id : Int) : Str :=
  t.vocab_.get_token id

/-- The method `BPETokenizer::set_vocab`: `vocab_` points to the vocabulary handed in, then
`initialize_special_tokens` runs on it; `config_` is the member `config_` of the tokenizer. -/
def BPETokenizer.set_vocab (t : BPETokenizer) (config_ : TokenizerConfig) (vocab : Vocab) :
    BPETokenizer :=
  { t with vocab_ := BPETokenizer.initialize_special_tokens config_ vocab }

/-- The method `BPETrainer::train` as a transition of the objects it writes to: the message
of the exception, if one is thrown, and the trainer and the vocabulary behind the shared
pointer as the call leaves them. -/
def BPETrainer.train_effect (t : BPETrainer) (corpus : List Str) (vocab : Vocab)
    (vocab_size : Nat) : Option String × BPETrainer × Vocab :=
  if corpus = [] then (some "Empty corpus provided for training", t, vocab)
  else
    let t := { t with word_counts_ := t.get_word_counts corpus }
    let vocab := t.initialize_vocab vocab (initial_vocab_counts t.word_counts_)
    let s := train_loop (vocab_size - vocab.size) (t, vocab)
    (none, s.1, s.2)

/-- The method `BPETokenizer::train` as a transition of the tokenizer: the message of the
exception, if one is thrown, and the tokenizer as the call leaves it. `config_` is the member
`config_` of the tokenizer, `normalizer` the function of the normalizer that the local
`BPETrainer` builds from it. -/
def BPETokenizer.train (t : BPETokenizer) (config_ : TokenizerConfig) (normalizer : Str → Str)
    (corpus : List Str) (vocab_size : Nat) : Option String × BPETokenizer :=
  if corpus = [] then (some "Empty corpus provided for training", t)
  else
    let trainer := BPETrainer.make config_ normalizer
    match trainer.train_effect corpus t.vocab_ vocab_size with
    | (some e, _, vocab) => (some e, { t with vocab_ := vocab })
    | (none, trainer, vocab) =>
      (none, { vocab_ := vocab, merge_rules_ := trainer.merge_rules_,
               merge_ranks_ := build_merge_ranks trainer.merge_rules_ })

/-! ## `vocab.cpp`: persistence -/

/-- The method `Vocab::save`, whose body is empty: the stream `out` is left as it is. -/
def Vocab.save (_v : Vocab) (out : Str) : Str := out

/-- The method `Vocab::load`, whose body is empty: neither the vocabulary nor the stream `inp`
changes; the result is the vocabulary and the unread rest of the stream. -/
def Vocab.load (v : Vocab) (inp : Str) : Vocab × Str := (v, inp)

/-! ## `template_parser.cpp` -/

/-- The `enum TemplateSegment::Type`. -/
inductive SegmentType where
  | LITERAL | VARIABLE | SPECIAL_TOKEN
  deriving DecidableEq, Repr

/-- The `struct TemplateSegment`; the member initialiser of `id` is `-1`. -/
structure TemplateSegment where
  type : SegmentType
  value : Str
  id : Int
  deriving DecidableEq, Repr

/-- The aggregate `{type, value}` that `parse` pushes: `id` keeps its initialiser. -/
def TemplateSegment.make (type : SegmentType) (value : Str) : TemplateSegment :=
  { type := type, value := value, id := -1 }

/-- The match of `TEMPLATE_PLACEHOLDER_REGEX`, which is `(\{\{[^\}]+\}\}|\[[^\]]+\])`, at the
start of `s`: the length of the match, if there is one. The first alternative is two opening
braces, the longest non-empty run of chars other than a closing brace, two closing braces
(a shorter run is followed by a char of the run, not by a closing brace); the second
alternative is an opening bracket, the longest non-empty run of chars other than a closing
bracket, a closing bracket. -/
def placeholder_match (s : Str) : Option Nat :=
  if starts_with s ['{', '{'] then
    let run := (s.drop 2).takeWhile fun c => c != '}'
    if run.length ≥ 1 ∧ starts_with (s.drop (2 + run.length)) ['}', '}'] then
      some (run.length + 4)
    else none
  else if starts_with s ['['] then
    let run := (s.drop 1).takeWhile fun c => c != ']'
    if run.length ≥ 1 ∧ starts_with (s.drop (1 + run.length)) [']'] then
      some (run.length + 2)
    else none
  else none

/-- The search `std::regex_search` behind `std::sregex_iterator` in the rest `s` of a string
that starts at index `i`: position and length of the leftmost match. -/
def regex_search_from : Str → Nat → Option (Nat × Nat)
  | [], _ => none
  | c :: s, i =>
    match placeholder_match (c :: s) with
    | some len => some (i, len)
    | none => regex_search_from s (i + 1)

/-- The last `char` of a non-empty string (`std::string::back`). -/
def str_back (s : Str) : Option Char := s.getLast?

/-- The loop of `TemplateParser::parse` over the matches: the iterator stands at `last_pos`,
where the previous match ended. Every match is at least three chars long, so the fuel
`template_string.length` is never used up. The result is the segments and `last_pos`. -/
def parse_loop (template_string : Str) :
    Nat → Nat → List TemplateSegment → Except String (List TemplateSegment × Nat)
  | 0, last_pos, parsed_template => Except.ok (parsed_template, last_pos)
  | fuel + 1, last_pos, parsed_template =>
    match regex_search_from (template_string.drop last_pos) last_pos with
    | none => Except.ok (parsed_template, last_pos)
    | some (match_start, match_length) =>
      let parsed_template :=
        if match_start > last_pos then
          parsed_template ++ [TemplateSegment.make SegmentType.LITERAL
            (substr template_string last_pos (match_start - last_pos))]
        else parsed_template
      let placeholder_content := substr template_string match_start match_length
      if starts_with placeholder_content ['{', '{', ' '] ∧
          str_back placeholder_content = some '}' then
        parse_loop template_string fuel (match_start + match_length)
          (parsed_template ++ [TemplateSegment.make SegmentType.VARIABLE
            (substr placeholder_content 2 (placeholder_content.length - 4))])
      else if starts_with placeholder_content ['['] ∧
          str_back placeholder_content = some ']' then
        parse_loop template_string fuel (match_start + match_length)
          (parsed_template ++ [TemplateSegment.make SegmentType.SPECIAL_TOKEN
            (substr placeholder_content 1 (placeholder_content.length - 2))])
      else
        Except.error ("Malformed template placeholder: " ++ String.mk placeholder_content)

/-- The method `TemplateParser::parse`. -/
def TemplateParser.parse (template_string : Str) : Except String (List TemplateSegment) :=
  match parse_loop template_string template_string.length 0 [] with
  | Except.error e => Except.error e
  | Except.ok (parsed_template, last_pos) =>
    if last_pos < template_string.length then
      Except.ok (parsed_template ++ [TemplateSegment.make SegmentType.LITERAL
        (template_string.drop last_pos)])
    else Except.ok parsed_template

/-! ## `post_processor.cpp`: the chat template post-processor -/

/-- The data members of `ChatTemplatePostProcessor`; `vocab_` and `config_` are references,
the structure holds the objects they refer to. -/
structure ChatTemplatePostProcessor where
  chat_template_ : Str
  vocab_ : Vocab
  config_ : TokenizerConfig
  parsed_template_ : List TemplateSegment
  deriving DecidableEq, Repr

/-- The constructor `ChatTemplatePostProcessor(chat_template, vocab, config)`, which parses
the template. -/
def ChatTemplatePostProcessor.make (chat_template : Str) (vocab : Vocab)
    (config : TokenizerConfig) : Except String ChatTemplatePostProcessor :=
  match TemplateParser.parse chat_template with
  | Except.error e => Except.error e
  | Except.ok parsed =>
    Except.ok { chat_template_ := chat_template, vocab_ := vocab, config_ := config,
                parsed_template_ := parsed }

/-- The loop of `resolve_special_token_id` over `config_.added_tokens`. -/
def resolve_added_token (vocab : Vocab) (token_name : Str) : List (Str × Str) → Int
  | [] => -1
  | pair :: rest =>
    if pair.1 = token_name then vocab.get_token_id pair.1
    else resolve_added_token vocab token_name rest

/-- The method `ChatTemplatePostProcessor::resolve_special_token_id`. -/
def ChatTemplatePostProcessor.resolve_special_token_id (p : ChatTemplatePostProcessor)
    (token_name : Str) : Int :=
  if token_name = "CLS".toList then p.vocab_.get_token_id p.config_.cls_token
  else if token_name = "SEP".toList then p.vocab_.get_token_id p.config_.sep_token
  else if token_name = "BOS".toList then p.vocab_.get_token_id p.config_.bos_token
  else if token_name = "EOS".toList then p.vocab_.get_token_id p.config_.eos_token
  else if token_name = "PAD".toList then p.vocab_.get_token_id p.config_.pad_token
  else if token_name = "UNK".toList then p.vocab_.get_token_id p.config_.unk_token
  else if token_name = "MASK".toList then p.vocab_.get_token_id p.config_.mask_token
  else resolve_added_token p.vocab_ token_name p.config_.added_tokens

/-- The loop of `ChatTemplatePostProcessor::process_ids` over the segments that are left;
`result` is the vector built so far. -/
def process_ids_loop (p : ChatTemplatePostProcessor) (ids : List Int) :
    List TemplateSegment → List Int → Except String (List Int)
  | [], result => Except.ok result
  | segment :: rest, result =>
    match segment.type with
    | SegmentType.LITERAL =>
      process_ids_loop p ids rest
        (segment.value.foldl (fun result c => result ++ [p.vocab_.get_token_id [c]]) result)
    | SegmentType.VARIABLE =>
      if segment.value = "message".toList then process_ids_loop p ids rest (result ++ ids)
      else Except.error ("Unsupported template variable: " ++ String.mk segment.value)
    | SegmentType.SPECIAL_TOKEN =>
      let id := p.resolve_special_token_id segment.value
      if id ≠ -1 then process_ids_loop p ids rest (result ++ [id])
      else Except.error ("Unknown special token in template: " ++ String.mk segment.value)

/-- The method `ChatTemplatePostProcessor::process_ids`. -/
def ChatTemplatePostProcessor.process_ids (p : ChatTemplatePostProcessor) (ids : List Int) :
    Except String (List Int) :=
  process_ids_loop p ids p.parsed_template_ []
/-! ## `tokenizer_config.cpp`: the textual form -/

/-- The double quote `"`. -/
def dquote : Char := Char.ofNat 34

/-- The text that `operator<<` writes for a `size_t`: decimal digits. -/
def nat_text (n : Nat) : Str := Nat.toDigits 10 n

/-- The text that `operator<<` writes for an `int`. -/
def int_text (i : Int) : Str := if i < 0 then '-' :: nat_text i.natAbs else nat_text i.toNat

/-- The text `(b ? "true" : "false")`. -/
def bool_text (b : Bool) : Str := if b then "true".toList else "false".toList

/-- The piece `key="value", ` of `to_string`. -/
def quoted_item (key value : Str) : Str := key ++ '=' :: dquote :: value ++ dquote :: ", ".toList

/-- The piece `key=value, ` of `to_string`. -/
def plain_item (key value : Str) : Str := key ++ '=' :: value ++ ", ".toList

/-- The method `TokenizerConfig::to_string`. -/
def TokenizerConfig.to_string (c : TokenizerConfig) : Str :=
  "TokenizerConfig\x7b".toList
    ++ plain_item "vocab_size".toList (nat_text c.vocab_size)
    ++ quoted_item "model_type".toList c.model_type
    ++ plain_item "add_special_tokens".toList (bool_text c.add_special_tokens)
    ++ plain_item "add_byte_fallback".toList (bool_text c.add_byte_fallback)
    ++ quoted_item "unk_token".toList c.unk_token
    ++ quoted_item "pad_token".toList c.pad_token
    ++ quoted_item "bos_token".toList c.bos_token
    ++ quoted_item "eos_token".toList c.eos_token
    ++ quoted_item "mask_token".toList c.mask_token
    ++ quoted_item "sep_token".toList c.sep_token
    ++ quoted_item "cls_token".toList c.cls_token
    ++ plain_item "lowercase".toList (bool_text c.lowercase)
    ++ plain_item "strip_accents".toList (bool_text c.strip_accents)
    ++ plain_item "normalize_whitespace".toList (bool_text c.normalize_whitespace)
    ++ plain_item "remove_control_chars".toList (bool_text c.remove_control_chars)
    ++ plain_item "remove_diacritics".toList (bool_text c.remove_diacritics)
    ++ plain_item "min_frequency".toList (nat_text c.min_frequency)
    ++ plain_item "max_tokens".toList (nat_text c.max_tokens)
    ++ plain_item "use_regex".toList (bool_text c.use_regex)
    ++ quoted_item "regex_pattern".toList c.regex_pattern
    ++ plain_item "max_length".toList (int_text c.max_length)
    ++ "pad_to_max_length=".toList ++ bool_text c.pad_to_max_length
    ++ "\x7d".toList

/-- Whether a `char` is a decimal digit. -/
def is_digit (c : Char) : Bool := decide (48 ≤ c.toNat ∧ c.toNat ≤ 57)

/-- The number that a run of decimal digits denotes. -/
def digits_value (ds : Str) : Nat := ds.foldl (fun n d => 10 * n + (d.toNat - 48)) 0

/-- The scan of `strtoul` and `strtol` in base 10: leading white space is skipped, a sign may
follow, then the longest run of digits is read; the result is whether the sign is `-` and the
number of the digits, or `none` when there is no digit. -/
def scan_number (value : Str) : Option (Bool × Nat) :=
  let s := value.dropWhile is_space
  let negative := starts_with s ['-']
  let s := if starts_with s ['-'] ∨ starts_with s ['+'] then s.drop 1 else s
  let ds := s.takeWhile is_digit
  if ds = [] then none else some (negative, digits_value ds)

/-- The function `std::stoul` for an `unsigned long` of 64 bits: `std::invalid_argument`
without a digit, `std::out_of_range` beyond the type; a `-` negates within the type. -/
def stoul (value : Str) : Except String Nat :=
  match scan_number value with
  | none => Except.error "stoul"
  | some (negative, m) =>
    if m ≥ 2 ^ 64 then Except.error "stoul"
    else Except.ok (if negative then (2 ^ 64 - m) % 2 ^ 64 else m)

/-- The function `std::stoi` for an `int` of 32 bits. -/
def stoi (value : Str) : Except String Int :=
  match scan_number value with
  | none => Except.error "stoi"
  | some (negative, m) =>
    let v : Int := if negative then -(m : Int) else (m : Int)
    if v < -(2 ^ 31) ∨ v > 2 ^ 31 - 1 then Except.error "stoi" else Except.ok v

/-- The scan of `std::string::rfind(c, pos)`: `last` is the last index found so far. -/
def str_rfind_aux (c : Char) : Str → Nat → Option Nat → Option Nat
  | [], _, last => last
  | d :: s, i, last => str_rfind_aux c s (i + 1) (if d = c then some i else last)

/-- The method `std::string::rfind(c, pos)`: the last index not after `pos` that holds `c`;
`none` is `npos`. -/
def str_rfind (s : Str) (c : Char) (pos : Nat) : Option Nat :=
  str_rfind_aux c (s.take (pos + 1)) 0 none

/-- The chain `if (key == ...) ... else if ...` of `from_string`. -/
def set_config_field (config : TokenizerConfig) (key value : Str) :
    Except String TokenizerConfig :=
  if key = "vocab_size".toList then
    match stoul value with
    | Except.error e => Except.error e
    | Except.ok n => Except.ok { config with vocab_size := n }
  else if key = "model_type".toList then Except.ok { config with model_type := value }
  else if key = "add_special_tokens".toList then
    Except.ok { config with add_special_tokens := decide (value = "true".toList) }
  else if key = "add_byte_fallback".toList then
    Except.ok { config with add_byte_fallback := decide (value = "true".toList) }
  else if key = "unk_token".toList then Except.ok { config with unk_token := value }
  else if key = "pad_token".toList then Except.ok { config with pad_token := value }
  else if key = "bos_token".toList then Except.ok { config with bos_token := value }
  else if key = "eos_token".toList then Except.ok { config with eos_token := value }
  else if key = "mask_token".toList then Except.ok { config with mask_token := value }
  else if key = "sep_token".toList then Except.ok { config with sep_token := value }
  else if key = "cls_token".toList then Except.ok { config with cls_token := value }
  else if key = "lowercase".toList then
    Except.ok { config with lowercase := decide (value = "true".toList) }
  else if key = "strip_accents".toList then
    Except.ok { config with strip_accents := decide (value = "true".toList) }
  else if key = "normalize_whitespace".toList then
    Except.ok { config with normalize_whitespace := decide (value = "true".toList) }
  else if key = "remove_control_chars".toList then
    Except.ok { config with remove_control_chars := decide (value = "true".toList) }
  else if key = "remove_diacritics".toList then
    Except.ok { config with remove_diacritics := decide (value = "true".toList) }
  else if key = "min_frequency".toList then
    match stoul value with
    | Except.error e => Except.error e
    | Except.ok n => Except.ok { config with min_frequency := n }
  else if key = "max_tokens".toList then
    match stoul value with
    | Except.error e => Except.error e
    | Except.ok n => Except.ok { config with max_tokens := n }
  else if key = "use_regex".toList then
    Except.ok { config with use_regex := decide (value = "true".toList) }
  else if key = "regex_pattern".toList then Except.ok { config with regex_pattern := value }
  else if key = "max_length".toList then
    match stoi value with
    | Except.error e => Except.error e
    | Except.ok n => Except.ok { config with max_length := n }
  else if key = "pad_to_max_length".toList then
    Except.ok { config with pad_to_max_length := decide (value = "true".toList) }
  else Except.ok config

/-- The step `Remove quotes if present` of `from_string`. -/
def strip_quotes (value : Str) : Str :=
  if value.length ≥ 2 ∧ value.head? = some dquote ∧ value.getLast? = some dquote then
    substr value 1 (value.length - 2)
  else value

/-- The loop `while (pos < str.length())` of `from_string`; every round moves `pos` forward,
so the fuel `str.length` is never used up. -/
def from_string_loop (str : Str) : Nat → Nat → TokenizerConfig → Except String TokenizerConfig
  | 0, _, config => Except.ok config
  | fuel + 1, pos, config =>
    if pos < str.length then
      match str_find str ['='] pos with
      | none => Except.ok config
      | some start =>
        match str_rfind str ' ' start with
        | none => from_string_loop str fuel (start + 1) config
        | some key_start =>
          if key_start ≥ start then from_string_loop str fuel (start + 1) config
          else
            let key := substr str (key_start + 1) (start - key_start - 1)
            let value_end :=
              match str_find str [','] start with
              | some e => some e
              | none => str_find str ['}'] start
            match value_end with
            | none => Except.ok config
            | some value_end =>
              let value := strip_quotes (substr str (start + 1) (value_end - start - 1))
              match set_config_field config key value with
              | Except.error e => Except.error e
              | Except.ok config => from_string_loop str fuel (value_end + 1) config
    else Except.ok config

/-- The method `TokenizerConfig::from_string`. -/
def TokenizerConfig.from_string (str : Str) : Except String TokenizerConfig :=
  from_string_loop str str.length 0 TokenizerConfig.default
/-! ## `icu_utils.cpp`, `unicode_normalizer.cpp` -/

/-- The objects of the ICU library behind `icu_utils::ICUUtils`, by the functions they
compute on UTF-8 text (the conversion to and from `icu::UnicodeString` included): the four
`Normalizer2` instances, the accent-stripping `Transliterator` and
`UnicodeString::toLower`. ICU is not part of the repository. -/
structure ICU where
  nfc : Str → Str
  nfd : Str → Str
  nfkc : Str → Str
  nfkd : Str → Str
  accent_stripper : Str → Str
  toLower : Str → Str

/-- The method `ICUUtils::normalize`: `get_normalizer` has no instance for `NONE` and the
input is returned as it is. -/
def ICU.normalize (icu : ICU) (input : Str) (form : NormalizationForm) : Str :=
  match form with
  | NormalizationForm.NFC => icu.nfc input
  | NormalizationForm.NFD => icu.nfd input
  | NormalizationForm.NFKC => icu.nfkc input
  | NormalizationForm.NFKD => icu.nfkd input
  | NormalizationForm.NONE => input

/-- The method `ICUUtils::strip_accents`. -/
def ICU.strip_accents (icu : ICU) (input : Str) : Str := icu.accent_stripper input

/-- The method `ICUUtils::to_lower`. -/
def ICU.to_lower (icu : ICU) (input : Str) : Str := icu.toLower input

/-- The data members of `UnicodeNormalizer`; a custom transformation is the function that its
`std::function` computes. -/
structure UnicodeNormalizer where
  config_ : TokenizerConfig
  custom_transformations_ : List (Str → Str)

/-- The constructor `UnicodeNormalizer(config)`. -/
def UnicodeNormalizer.make (config : TokenizerConfig) : UnicodeNormalizer :=
  { config_ := config, custom_transformations_ := [] }

/-- The method `UnicodeNormalizer::add_custom_transformation`. -/
def UnicodeNormalizer.add_custom_transformation (n : UnicodeNormalizer)
    (transform : Str → Str) : UnicodeNormalizer :=
  { n with custom_transformations_ := n.custom_transformations_ ++ [transform] }

/-- The method `UnicodeNormalizer::normalize`. -/
def UnicodeNormalizer.normalize (icu : ICU) (n : UnicodeNormalizer) (text : Str) : Str :=
  if text = [] then []
  else
    let out := icu.normalize text n.config_.normalization
    let out := n.custom_transformations_.foldl (fun out fn => fn out) out
    let out := if n.config_.strip_accents then icu.strip_accents out else out
    if n.config_.lowercase then icu.to_lower out else out

/-- The loop of `batchNormalize` that starts the tasks: one task for every `i`, each task
being the vector that its body returns, the normalized texts `texts[j]` for
`i <= j < min(texts.size(), i + chunk_size)`. -/
def batch_futures (normalize : Str → Str) (texts : List Str) (chunk_size : Nat) :
    Nat → Nat → List (List Str)
  | 0, _ => []
  | fuel + 1, i =>
    if i < texts.length then
      ((texts.drop i).take chunk_size).map normalize ::
        batch_futures normalize texts chunk_size fuel (i + chunk_size)
    else []

/-- The method `UnicodeNormalizer::batchNormalize`; `hardware_concurrency` is the value of
`std::thread::hardware_concurrency()`. A batch of more than 1000 texts is cut into chunks of
`chunk_size`, and the results of the tasks are appended in the order of the tasks. The loop
over `i` runs at most `texts.size()` times, since `chunk_size` is at least one. -/
def UnicodeNormalizer.batchNormalize (icu : ICU) (n : UnicodeNormalizer)
    (hardware_concurrency : Nat) (texts : List Str) : List Str :=
  if texts = [] then []
  else if texts.length > 1000 then
    let num_threads := max 1 hardware_concurrency
    let chunk_size := (texts.length + num_threads - 1) / num_threads
    let futures := batch_futures (n.normalize icu) texts chunk_size texts.length 0
    futures.foldl (fun result part => result ++ part) []
  else texts.foldl (fun result s => result ++ [n.normalize icu s]) []

/-! ## `pre_tokenizer.cpp`: the patterns -/

/-- A compiled `std::regex`, by what the matcher of the standard library computes for it:
`match_at text pos not_null` is the length of the match of the pattern that begins at index
`pos` of `text`, if there is one; with `not_null` (the flag `match_not_null`) an empty match
does not count. -/
structure Regex where
  match_at : Str → Nat → Bool → Option Nat

/-- The function `std::regex_search` on the part of `text` from index `pos` on: position and
length of the leftmost match. The fuel counts the indices `pos, ..., text.length`. -/
def regex_search (r : Regex) (text : Str) (not_null : Bool) : Nat → Nat → Option (Nat × Nat)
  | 0, _ => none
  | fuel + 1, pos =>
    match r.match_at text pos not_null with
    | some len => some (pos, len)
    | none => regex_search r text not_null fuel (pos + 1)

/-- The increment of a `std::sregex_iterator` that stands on the match `(position, length)`:
after an empty match the search is repeated at the same index with `match_not_null` and
`match_continuous` and moves one index on when that fails; `none` is the end iterator. -/
def regex_next (r : Regex) (text : Str) (position length : Nat) : Option (Nat × Nat) :=
  let start := position + length
  if length = 0 then
    if start = text.length then none
    else
      match r.match_at text start true with
      | some len => some (start, len)
      | none => regex_search r text false (text.length - start) (start + 1)
  else regex_search r text false (text.length + 1 - start) start

/-- The matches that a `std::sregex_iterator` runs through, from the match `current` on. Two
matches can begin at one index (an empty one, then a longer one), so `2 * text.length + 2`
steps reach the end iterator. -/
def regex_matches (r : Regex) (text : Str) : Nat → Option (Nat × Nat) → List (Nat × Nat)
  | 0, _ => []
  | _ + 1, none => []
  | fuel + 1, some (position, length) =>
    (position, length) :: regex_matches r text fuel (regex_next r text position length)

/-- The loop `for (; it != end; ++it)` of `pre_tokenize` over the matches of one pattern; the
state is `temp_tokens` and `last_pos`. -/
def split_matches (current_text : Str) : List (Nat × Nat) → List Str → Nat → List Str × Nat
  | [], temp_tokens, last_pos => (temp_tokens, last_pos)
  | (position, length) :: rest, temp_tokens, last_pos =>
    let temp_tokens :=
      if position > last_pos then
        temp_tokens ++ [substr current_text last_pos (position - last_pos)]
      else temp_tokens
    split_matches current_text rest (temp_tokens ++ [substr current_text position length])
      (position + length)

/-- One round of the loop `for (const auto& pattern : patterns_)`: the tokens that the
pattern cuts `current_text` into. -/
def split_by_pattern (pattern : Regex) (current_text : Str) : List Str :=
  let first := regex_search pattern current_text false (current_text.length + 1) 0
  let s := split_matches current_text
    (regex_matches pattern current_text (2 * current_text.length + 2) first) [] 0
  if s.2 < current_text.length then s.1 ++ [current_text.drop s.2] else s.1

/-- The loop `for (const auto& pattern : patterns_)`; the state is `tokens` and
`current_text`, which every round rebuilds from its tokens. -/
def apply_patterns : List Regex → List Str × Str → List Str × Str
  | [], s => s
  | pattern :: rest, (_, current_text) =>
    let temp_tokens := split_by_pattern pattern current_text
    apply_patterns rest (temp_tokens, temp_tokens.foldl (fun text t => text ++ t) [])

/-- The method `RegexPreTokenizer::handle_special_cases`. -/
def handle_special_cases (token : Str) : List Str := [token]

/-- The method `RegexPreTokenizer::pre_tokenize` of a pre-tokenizer with the compiled patterns
`patterns_`. -/
def RegexPreTokenizer.pre_tokenize (patterns_ : List Regex) (text : Str) : List Str :=
  let tokens :=
    match patterns_ with
    | [] => split_ws text
    | _ :: _ => (apply_patterns patterns_ ([], text)).1
  tokens.foldl (fun final_tokens token => final_tokens ++ handle_special_cases token) []

/-! ## `vector_conversions.cpp` -/

/-- Modelled from the spec: the declaration of the bridge type `IdVecVec` is not among the
sources; `vector_conversions.cpp` uses its members `data`, the flattened ids, and `lengths`,
the length of every row. -/
structure IdVecVec where
  data : List Int
  lengths : List Nat
  deriving DecidableEq, Repr

/-- Modelled from the spec: the declaration of the bridge type `StringVecVec` is not among
the sources; `vector_conversions.cpp` uses its members `data`, the flattened strings, and
`lengths`, the length of every row. -/
structure StringVecVec where
  data : List Str
  lengths : List Nat
  deriving DecidableEq, Repr

/-- The function `to_id_vec_vec`: the first loop stores the lengths, the second appends the
rows to `data`. -/
def to_id_vec_vec (vecs : List (List Int)) : IdVecVec :=
  { lengths := vecs.foldl (fun lengths v => lengths ++ [v.length]) []
    data := vecs.foldl (fun data v => data ++ v) [] }

/-- The function `to_string_vec_vec`. -/
def to_string_vec_vec (vecs : List (List Str)) : StringVecVec :=
  { lengths := vecs.foldl (fun lengths v => lengths ++ [v.length]) []
    data := vecs.foldl (fun data v => data ++ v) [] }

/-- The loop `for (size_t len : vec.lengths)` of `from_id_vec_vec` and of
`from_string_vec_vec`: each round appends the row `data[start, start + len)`. -/
def rows_loop {α : Type} (data : List α) : List Nat → Nat → List (List α) → List (List α)
  | [], _, result => result
  | len :: lengths, start, result =>
    rows_loop data lengths (start + len) (result ++ [(data.drop start).take len])

/-- The function `from_id_vec_vec`. -/
def from_id_vec_vec (vec : IdVecVec) : List (List Int) := rows_loop vec.data vec.lengths 0 []

/-- The function `from_string_vec_vec`. -/
def from_string_vec_vec (vec : StringVecVec) : List (List Str) :=
  rows_loop vec.data vec.lengths 0 []

/-! ## `char_level_tokenizer.cpp` -/

/-- The data members of `CharLevelTokenizer` that training, encoding and decoding use;
`normalizer_` is the function `UnicodeNormalizer::normalize` of its normalizer. -/
structure CharLevelTokenizer where
  config_ : TokenizerConfig
  normalizer_ : Str → Str
  vocab_ : Vocab

/-- The method `CharLevelTokenizer::initialize_special_tokens`, applied to the vocabulary
that `vocab_` points to: the configured special tokens and the added tokens are added, the
vocabulary is not cleared. -/
def CharLevelTokenizer.initialize_special_tokens (config : TokenizerConfig) (vocab : Vocab) :
    Vocab :=
  let add := fun (v : Vocab) (tok : Str) (ty : SpecialTokenType) =>
    if tok ≠ [] then v.add_special_token tok ty else v
  let v := add vocab config.unk_token SpecialTokenType.UNK
  let v := add v config.pad_token SpecialTokenType.PAD
  let v := add v config.bos_token SpecialTokenType.BOS
  let v := add v config.eos_token SpecialTokenType.EOS
  let v := add v config.mask_token SpecialTokenType.MASK
  let v := add v config.sep_token SpecialTokenType.SEP
  let v := add v config.cls_token SpecialTokenType.CLS
  config.added_tokens.foldl (fun v pair => v.add_special_token pair.1 SpecialTokenType.CUSTOM) v

/-- The method `CharLevelTokenizer::encode_to_ids`. -/
def CharLevelTokenizer.encode_to_ids (t : CharLevelTokenizer) (text : Str) : List Int :=
  (t.normalizer_ text).foldl (fun ids c => ids ++ [t.vocab_.get_token_id [c]]) []

/-- The method `CharLevelTokenizer::decode_from_ids`. -/
def CharLevelTokenizer.decode_from_ids (t : CharLevelTokenizer) (ids : List Int) : Str :=
  ids.foldl (fun decoded_text id => decoded_text ++ t.vocab_.get_token id) []

/-- The body of the inner loop of `train` for one `char`; the state is the vocabulary and the
`int id_counter`. -/
def train_char (s : Vocab × Int) (c : Char) : Vocab × Int :=
  if s.1.has_token [c] then s else (s.1.add_token [c] s.2, int_wrap (s.2 + 1))

/-- The two nested loops of `CharLevelTokenizer::train`. -/
def train_chars (normalize : Str → Str) (corpus : List Str) (s : Vocab × Int) : Vocab × Int :=
  corpus.foldl (fun s text => (normalize text).foldl train_char s) s

/-- The method `CharLevelTokenizer::train`; `vocab_size` is not read. -/
def CharLevelTokenizer.train (t : CharLevelTokenizer) (corpus : List Str) (_vocab_size : Nat) :
    CharLevelTokenizer :=
  let s := train_chars t.normalizer_ corpus (t.vocab_.clear, 0)
  { t with vocab_ := CharLevelTokenizer.initialize_special_tokens t.config_ s.1 }

/-! ## `utf8_utils.h`, `utf8_utils.cpp` -/

namespace utf8

/-- The value of a `char` as `unsigned char`. -/
def byte (c : Char) : Nat := c.toNat % 256

/-- The function `sequence_length`. -/
def sequence_length (lead_byte : Nat) : Nat :=
  if lead_byte < 0x80 then 1
  else if lead_byte < 0xE0 then 2
  else if lead_byte < 0xF0 then 3
  else if lead_byte < 0xF8 then 4
  else 0

/-- The function `is_continuation_byte`. -/
def is_continuation_byte (b : Nat) : Bool := decide (b &&& 0xC0 = 0x80)

/-- The byte `utf8_str[i]` as `unsigned char`. -/
def byte_at (utf8_str : Str) (i : Nat) : Nat := byte (utf8_str.getD i (Char.ofNat 0))

/-- The loop of `utf8_to_codepoints`; every round moves `i` forward by `len >= 1`, so the
fuel `utf8_str.length` is never used up. -/
def utf8_loop (utf8_str : Str) : Nat → Nat → List Nat → Except String (List Nat)
  | 0, _, codepoints => Except.ok codepoints
  | fuel + 1, i, codepoints =>
    if i < utf8_str.length then
      let lead := byte_at utf8_str i
      let len := sequence_length lead
      if len = 0 then Except.error "Invalid UTF-8 lead byte"
      else if i + len > utf8_str.length then Except.error "Incomplete UTF-8 sequence"
      else if len = 1 then utf8_loop utf8_str fuel (i + len) (codepoints ++ [lead])
      else if len = 2 then
        if !is_continuation_byte (byte_at utf8_str (i + 1)) then
          Except.error "Invalid UTF-8 continuation byte"
        else
          utf8_loop utf8_str fuel (i + len)
            (codepoints ++ [((lead &&& 0x1F) <<< 6) ||| (byte_at utf8_str (i + 1) &&& 0x3F)])
      else if len = 3 then
        if !is_continuation_byte (byte_at utf8_str (i + 1)) ||
            !is_continuation_byte (byte_at utf8_str (i + 2)) then
          Except.error "Invalid UTF-8 continuation byte"
        else
          utf8_loop utf8_str fuel (i + len)
            (codepoints ++ [((lead &&& 0x0F) <<< 12) |||
              ((byte_at utf8_str (i + 1) &&& 0x3F) <<< 6) |||
              (byte_at utf8_str (i + 2) &&& 0x3F)])
      else
        if !is_continuation_byte (byte_at utf8_str (i + 1)) ||
            !is_continuation_byte (byte_at utf8_str (i + 2)) ||
            !is_continuation_byte (byte_at utf8_str (i + 3)) then
          Except.error "Invalid UTF-8 continuation byte"
        else
          utf8_loop utf8_str fuel (i + len)
            (codepoints ++ [((lead &&& 0x07) <<< 18) |||
              ((byte_at utf8_str (i + 1) &&& 0x3F) <<< 12) |||
              ((byte_at utf8_str (i + 2) &&& 0x3F) <<< 6) |||
              (byte_at utf8_str (i + 3) &&& 0x3F)])
    else Except.ok codepoints

/-- The function `utf8_to_codepoints`. -/
def utf8_to_codepoints (utf8_str : Str) : Except String (List Nat) :=
  utf8_loop utf8_str utf8_str.length 0 []

/-- The function `is_valid_utf8`: whether `utf8_to_codepoints` returns without throwing. -/
def is_valid_utf8 (str : Str) : Bool :=
  match utf8_to_codepoints str with
  | Except.ok _ => true
  | Except.error _ => false

end utf8

/-! # Specifications and scenarios -/

/-! ## Canonical greedy BPE -/

/-- The rank of a pair when a rule that occurs several times counts at its last position:
`r` is the greatest index at which the rule list holds `(a, b)`. -/
def RankLast (rules : List (Str × Str)) (a b : Str) (r : Nat) : Prop :=
  rules[r]? = some (a, b) ∧ ∀ j, r < j → rules[j]? ≠ some (a, b)

/-- The rank of a pair when a rule that occurs several times counts at its first position:
`r` is the least index at which the rule list holds `(a, b)`. -/
def RankFirst (rules : List (Str × Str)) (a b : Str) (r : Nat) : Prop :=
  rules[r]? = some (a, b) ∧ ∀ j, j < r → rules[j]? ≠ some (a, b)

/-- One step of greedy BPE for a rank relation `R`: the symbol list `pre ++ a :: b :: post`
becomes `pre ++ (a ++ b) :: post`, where `(a, b)` has a rank `r`, no adjacent pair has a
lower rank, and no adjacent pair further left has the same rank. -/
def GreedyStep (R : Str → Str → Nat → Prop) (parts parts' : List Str) : Prop :=
  ∃ pre a b post r, parts = pre ++ a :: b :: post ∧ parts' = pre ++ (a ++ b) :: post ∧
    R a b r ∧
    ∀ pre' c d post' s, parts = pre' ++ c :: d :: post' → R c d s →
      r < s ∨ (r = s ∧ pre.length ≤ pre'.length)

/-- No adjacent pair of the symbol list is a rule. -/
def NoRulePair (R : Str → Str → Nat → Prop) (parts : List Str) : Prop :=
  ∀ pre c d post s, parts = pre ++ c :: d :: post → ¬ R c d s

/-- The symbol list `parts` is the canonical greedy BPE segmentation of `word`: it is reached
from the single-`char` symbols by greedy steps and no adjacent pair of it is a rule. -/
def CanonicalBPE (R : Str → Str → Nat → Prop) (word : Str) (parts : List Str) : Prop :=
  Relation.ReflTransGen (GreedyStep R) (word.map fun c => [c]) parts ∧ NoRulePair R parts

/-- The greatest index at which a rule with key `k` stands in `rules`. -/
def lastKeyIdx : List (Str × Str) → Str → Option Nat
  | [], _ => none
  | rule :: rest, k =>
    match lastKeyIdx rest k with
    | some j => some (j + 1)
    | none => if pair_key rule.1 rule.2 = k then some 0 else none

/-! ## Calls on a vocabulary -/

/-- A call of one of the mutating operations of `Vocab`. -/
inductive VocabOp where
  | add_token (token : Str) (id : Int)
  | add_special_token (token : Str) (type : SpecialTokenType)
  | clear
  deriving DecidableEq, Repr

/-- The vocabulary after one call. -/
def Vocab.apply (v : Vocab) : VocabOp → Vocab
  | VocabOp.add_token token id => v.add_token token id
  | VocabOp.add_special_token token type => v.add_special_token token type
  | VocabOp.clear => v.clear

/-- The vocabulary after a sequence of calls, the first call first. -/
def Vocab.run (v : Vocab) (ops : List VocabOp) : Vocab := ops.foldl Vocab.apply v

/-- The call `op`, made on the vocabulary `v`, does not assign the id `INT_MAX = 2147483647`:
it changes nothing (the text is empty or present), or the id that it assigns, which is
`next_id_` without an explicit id, is smaller. After a call that assigns `INT_MAX`, the `int`
`next_id_` has overflowed. -/
def in_range_op (v : Vocab) : VocabOp → Bool
  | VocabOp.add_token token id =>
    decide (token = []) || v.has_token token ||
      decide ((if id < 0 then v.next_id_ else id) < 2147483647)
  | VocabOp.add_special_token token _ =>
    decide (token = []) || v.has_token token || decide (v.next_id_ < 2147483647)
  | VocabOp.clear => true

/-- No call of `ops`, made one after the other from the vocabulary `v` on, assigns the id
`INT_MAX`. -/
def in_range_history : Vocab → List VocabOp → Bool
  | _, [] => true
  | v, op :: ops => in_range_op v op && in_range_history (v.apply op) ops

/-! ## Reachable vocabularies -/

/-- The vocabularies that the public operations of `Vocab` build from the empty one by calls
none of which assigns the id `INT_MAX`, so that `next_id_` has not overflowed. -/
inductive Vocab.Reachable : Vocab → Prop
  | empty : Vocab.Reachable Vocab.empty
  | add_token (v : Vocab) (token : Str) (id : Int) :
      Vocab.Reachable v → in_range_op v (VocabOp.add_token token id) = true →
      Vocab.Reachable (v.add_token token id)
  | add_special_token (v : Vocab) (token : Str) (type : SpecialTokenType) :
      Vocab.Reachable v → in_range_op v (VocabOp.add_special_token token type) = true →
      Vocab.Reachable (v.add_special_token token type)
  | clear (v : Vocab) : Vocab.Reachable v → Vocab.Reachable v.clear

/-- Every id of the text-to-id map lies in `[0, next_id_)`. -/
def Vocab.IdsBelowNext (v : Vocab) : Prop :=
  0 ≤ v.next_id_ ∧ ∀ t i, umFind v.token_to_id_ t = some i → 0 ≤ i ∧ i < v.next_id_

/-! ## Scenarios of the BPE model and trainer -/

/-- A rule list in which the rule `("a", "b")` stands at positions 0 and 2. -/
def dup_rules : List (Str × Str) :=
  [("a".toList, "b".toList), ("b".toList, "c".toList), ("a".toList, "b".toList)]

/-- A vocabulary with the unknown token and the symbols `a` and `bc`. -/
def small_vocab : Vocab :=
  ((Vocab.empty.add_special_token "[UNK]".toList SpecialTokenType.UNK).add_token "a".toList
    (-1)).add_token "bc".toList (-1)

/-- The configuration of the seed scenario: `[UNK]` is the only special token, no lowercasing,
`min_frequency` 1, `vocab_size` 20. -/
def seed_config : TokenizerConfig :=
  { TokenizerConfig.default with
    vocab_size := 20, min_frequency := 1, lowercase := false, pad_token := [], bos_token := [],
    eos_token := [], mask_token := [], sep_token := [], cls_token := [] }

/-- The corpus of the seed scenario. -/
def seed_corpus : List Str :=
  ["low low low low low".toList, "lower lower".toList,
    "newest newest newest newest newest newest".toList, "widest widest widest".toList]

/-- The merge rules that `train` leaves in the trainer; `[]` when `train` throws. -/
def trained_rules (r : Except String (BPETrainer × Vocab)) : List (Str × Str) :=
  match r with
  | Except.ok s => s.1.merge_rules_
  | Except.error _ => []

/-- The size of the vocabulary that `train` leaves; `0` when `train` throws. -/
def trained_vocab_size (r : Except String (BPETrainer × Vocab)) : Nat :=
  match r with
  | Except.ok s => s.2.size
  | Except.error _ => 0

/-- The pair-frequency table of the first iteration of `train` on the seed corpus. -/
def seed_pair_counts : List ((Str × Str) × Int) :=
  get_pair_counts ((BPETrainer.make seed_config id).get_word_counts seed_corpus)

/-- A corpus of one word in which the pair `(a, a)` is the only most frequent pair. -/
def aaa_corpus : List Str := ["aaa".toList]

/-! ## WordPiece: longest match -/

/-- The vocabulary form of the piece `word[s:e]`: the piece itself at the start of the word,
the piece behind the continuation marker `##` elsewhere. -/
def vocab_form (word : Str) (s e : Nat) : Str :=
  (if s = 0 then [] else "##".toList) ++ (word.drop s).take (e - s)

/-- No non-empty piece `word[s:e]` has its vocabulary form in the vocabulary. -/
def NoMatchAt (vocab : List (Str × Int)) (word : Str) (s : Nat) : Prop :=
  ∀ e, s < e → e ≤ word.length → (umFind vocab (vocab_form word s e)).isSome = false

/-- A run of longest matches: `LongestMatchRun vocab word s pieces stop` holds when `pieces`
are cut from `word` left to right between the positions `s` and `stop`, each piece the
longest one from its position whose vocabulary form is in the vocabulary. -/
inductive LongestMatchRun (vocab : List (Str × Int)) (word : Str) : Nat → List Str → Nat → Prop
  | done (s : Nat) : LongestMatchRun vocab word s [] s
  | piece (s e stop : Nat) (rest : List Str) :
      s < e → e ≤ word.length → (umFind vocab (vocab_form word s e)).isSome = true →
      (∀ e', e < e' → e' ≤ word.length → (umFind vocab (vocab_form word s e')).isSome = false) →
      LongestMatchRun vocab word e rest stop →
      LongestMatchRun vocab word s (vocab_form word s e :: rest) stop

/-- The WordPiece model over the vocabulary `{un, ##aff, ##able}`. -/
def affable_model : WordPieceModel :=
  WordPieceModel.initialize
    [("un".toList, 0), ("##aff".toList, 1), ("##able".toList, 2)] "[UNK]".toList 100

/-- The WordPiece model over the vocabulary `{un}`. -/
def un_model : WordPieceModel :=
  WordPieceModel.initialize [("un".toList, 0)] "[UNK]".toList 100

/-! ## Unigram: what `viterbi_segment` computes -/

/-- A run of shortest matches: `ShortestMatchRun vocab text segs rest` holds when `text` is
`segs` concatenated and followed by `rest`, every segment is a vocabulary entry none of whose
shorter non-empty prefixes is one, and no non-empty prefix of `rest` is a vocabulary entry. -/
inductive ShortestMatchRun (vocab : Vocab) : Str → List Str → Str → Prop
  | done (rest : Str) :
      (∀ k, 0 < k → k ≤ rest.length → vocab.has_token (rest.take k) = false) →
      ShortestMatchRun vocab rest [] rest
  | cut (seg tail : Str) (segs : List Str) (rest : Str) :
      seg ≠ [] → vocab.has_token seg = true →
      (∀ k, 0 < k → k < seg.length → vocab.has_token (seg.take k) = false) →
      ShortestMatchRun vocab tail segs rest →
      ShortestMatchRun vocab (seg ++ tail) (seg :: segs) rest

/-- The vocabulary `{a, b, ab, c}` of the Unigram seed scenario. -/
def abc_vocab : Vocab :=
  (((Vocab.empty.add_token "a".toList (-1)).add_token "b".toList (-1)).add_token "ab".toList
    (-1)).add_token "c".toList (-1)

/-- The scores `{a: -1.0, b: -1.0, ab: -1.5, c: -1.0}` of the Unigram seed scenario. -/
def abc_scores : List (Str × Rat) :=
  [("a".toList, -1), ("b".toList, -1), ("ab".toList, -3 / 2), ("c".toList, -1)]

/-- The total score of a segmentation: the sum of the scores of its segments. -/
def total_score (scores : List (Str × Rat)) (segs : List Str) : Option Rat :=
  segs.foldl (fun acc seg =>
    match acc, umFind scores seg with
    | some a, some x => some (a + x)
    | _, _ => none) (some 0)

/-! ## The pipeline -/

/-- The words that `TokenizerAdvanced::encode` obtains from the pre-tokenizer: without a
pre-tokenizer, the normalized text as one word. -/
def TokenizerAdvanced.pre_tokens (t : TokenizerAdvanced) (text : Str) : List Str :=
  match t.pre_tokenizer_ with
  | some pre => pre (t.normalizer_ text)
  | none => [t.normalizer_ text]

/-- The `input_ids` of the encoding that `encode` returns. -/
def encoded_ids (r : Except String BatchEncoding) : Except String (List (List Int)) :=
  match r with
  | Except.ok enc => Except.ok enc.input_ids
  | Except.error e => Except.error e

/-- The in-order concatenation of the ids that the model returns for each word. -/
def ids_per_word (impl : TokenizerBase) : List Str → Except String (List Int)
  | [] => Except.ok []
  | w :: ws =>
    match impl.encode_to_ids w, ids_per_word impl ws with
    | Except.ok a, Except.ok b => Except.ok (a ++ b)
    | Except.error e, _ => Except.error e
    | _, Except.error e => Except.error e

/-- The configuration of the BERT scenario: the special tokens `[UNK]`, `[SEP]`, `[CLS]`. -/
def bert_config : TokenizerConfig :=
  { TokenizerConfig.default with
    base_model := ModelType.BERT, pad_token := [], bos_token := [], eos_token := [],
    mask_token := [] }

/-- The vocabulary of the WordPiece model of the BERT scenario. -/
def bert_model_vocab : List (Str × Int) :=
  [("[UNK]".toList, 0), ("[SEP]".toList, 1), ("[CLS]".toList, 2), ("un".toList, 3),
    ("##aff".toList, 4), ("##able".toList, 5), ("do".toList, 6), ("##ing".toList, 7)]

/-- The pipeline of the BERT scenario: whitespace pre-tokenizer, WordPiece model, and a BERT
post-processor built over a vocabulary with the contents of the vocabulary of the pipeline;
the text is plain ASCII, which the normalizers leave unchanged. -/
def bert_pipeline : TokenizerAdvanced :=
  TokenizerAdvanced.make_wordpiece bert_config bert_model_vocab id id
    (some whitespace_pre_tokenize)
    (fun vocab => some fun ids => Except.ok ((BertPostProcessor.make bert_config vocab).process_ids ids))

/-- The implementation `tokenizer_impl_` of the pipeline of the BERT scenario. -/
def bert_impl : TokenizerBase :=
  match bert_pipeline.tokenizer_impl_ with
  | some impl => impl
  | none => { encode_to_ids := fun _ => Except.ok [], decode_from_ids := fun _ => [] }

/-! ## Vocabularies without a clash of explicit ids -/

/-- The vocabularies built from the empty one by `add_token`, `add_special_token` and `clear`
in which no absent, non-empty text is ever added under an explicit id that is already
assigned, and in which no call assigns the id `INT_MAX`. -/
inductive Vocab.ReachableFresh : Vocab → Prop
  | empty : Vocab.ReachableFresh Vocab.empty
  | add_token (v : Vocab) (token : Str) (id : Int) :
      Vocab.ReachableFresh v →
      (id < 0 ∨ v.has_id id = false ∨ token = [] ∨ v.has_token token = true) →
      in_range_op v (VocabOp.add_token token id) = true →
      Vocab.ReachableFresh (v.add_token token id)
  | add_special_token (v : Vocab) (token : Str) (type : SpecialTokenType) :
      Vocab.ReachableFresh v → in_range_op v (VocabOp.add_special_token token type) = true →
      Vocab.ReachableFresh (v.add_special_token token type)
  | clear (v : Vocab) : Vocab.ReachableFresh v → Vocab.ReachableFresh v.clear

/-- The two maps of a vocabulary are inverse to each other. -/
def Vocab.Inverse (v : Vocab) : Prop :=
  ∀ t i, umFind v.token_to_id_ t = some i ↔ umFind v.id_to_token_ i = some t

/-- A vocabulary in which the text `b` was added under the explicit id of the text `a`. -/
def clash_vocab : Vocab := (Vocab.empty.add_token "a".toList (-1)).add_token "b".toList 0

/-! ## Ordinary tokens in a sequence of calls -/

/-- The call `op`, made on the vocabulary `v`, treats the text `t` as an ordinary token: it
does not pass `t` to `add_special_token`, and when it adds the absent `t` through `add_token`
under an explicit id, that id is not in the specials set. -/
def plain_op (t : Str) (v : Vocab) : VocabOp → Bool
  | VocabOp.add_special_token u _ => decide (u ≠ t)
  | VocabOp.add_token u id =>
    decide (u ≠ t) || decide (id < 0) || v.has_token t || !v.is_special_token_id id
  | VocabOp.clear => true

/-- Every call of `ops`, made one after the other from the vocabulary `v` on, treats the text
`t` as an ordinary token. -/
def plain_history (t : Str) : Vocab → List VocabOp → Bool
  | _, [] => true
  | v, op :: ops => plain_op t v op && plain_history t (v.apply op) ops

/-- Every id that a vocabulary holds, in any of its four tables, lies in `[0, next_id_)`. -/
def Vocab.AllIdsBelowNext (v : Vocab) : Prop :=
  0 ≤ v.next_id_ ∧
    (∀ t i, umFind v.token_to_id_ t = some i → 0 ≤ i ∧ i < v.next_id_) ∧
    (∀ i t, umFind v.id_to_token_ i = some t → 0 ≤ i ∧ i < v.next_id_) ∧
    (∀ ty i, umFind v.special_token_ids_ ty = some i → 0 ≤ i ∧ i < v.next_id_) ∧
    (∀ i, i ∈ v.special_ids_set_ → 0 ≤ i ∧ i < v.next_id_)

/-- The vocabulary that holds the ordinary token `a` under the id 0. -/
def plain_a_vocab : Vocab := Vocab.empty.add_token "a".toList (-1)

/-- The calls `add_special_token("[UNK]", UNK)`, `add_token("a", 0)`. -/
def special_clash_ops : List VocabOp :=
  [VocabOp.add_special_token "[UNK]".toList SpecialTokenType.UNK, VocabOp.add_token "a".toList 0]

/-- The invariant behind C13: the id of `t`, if `t` has one, is not in the specials set, and
the ids of the specials set and of the text-to-id map lie below `next_id_`. -/
def Vocab.PlainInv (t : Str) (v : Vocab) : Prop :=
  (∀ i, umFind v.token_to_id_ t = some i → i ∉ v.special_ids_set_) ∧
    (∀ i, i ∈ v.special_ids_set_ → i < v.next_id_) ∧
    (∀ u i, umFind v.token_to_id_ u = some i → i < v.next_id_)

/-! ## Scenarios of the pipeline -/

/-- The configuration of the truncation scenario: the special tokens `[PAD]`, `<bos>` and
`<eos>`, which the pipeline gives the ids 0, 1 and 2. -/
def pad_config : TokenizerConfig :=
  { TokenizerConfig.default with
    unk_token := [], pad_token := "[PAD]".toList, bos_token := "<bos>".toList,
    eos_token := "<eos>".toList, mask_token := [], sep_token := [], cls_token := [] }

/-- The vocabulary of the WordPiece model of the truncation scenario. -/
def pad_model_vocab : List (Str × Int) :=
  [("[PAD]".toList, 0), ("a".toList, 10), ("##b".toList, 11), ("##c".toList, 12),
    ("##d".toList, 13), ("##e".toList, 14)]

/-- The pipeline of the truncation scenario: whitespace pre-tokenizer, WordPiece model, and
the template post-processor `<bos> ... <eos>` built over a vocabulary with the contents of the
vocabulary of the pipeline; it encodes `abcde` as `[1,10,11,12,13,14,2]`. -/
def pad_pipeline : TokenizerAdvanced :=
  TokenizerAdvanced.make_wordpiece pad_config pad_model_vocab id id
    (some whitespace_pre_tokenize)
    (fun vocab => some fun ids =>
      Except.ok
        ((TemplatePostProcessor.make ["<bos>".toList] ["<eos>".toList] vocab).process_ids ids))

/-- The options of `encode` with the given length limit, padding flag and mask flag. -/
def length_options (max_length : Int) (pad_to_max_length return_attention_mask : Bool) :
    TokenizationOptions :=
  { TokenizationOptions.default with
    max_length := max_length, pad_to_max_length := pad_to_max_length,
    return_attention_mask := return_attention_mask }

/-- The result of `encode`, or an empty encoding when `encode` throws. -/
def encoding_or_empty (r : Except String BatchEncoding) : BatchEncoding :=
  match r with
  | Except.ok enc => enc
  | Except.error _ =>
    { input_ids := [], attention_mask := [], token_type_ids := [], offset_mapping := [],
      length := [], overflowing_tokens := [] }

/-- The encoding that `encode` returns for the post-processed row `row`: one row of ids and,
when the mask is requested, one row of ones of the same length. -/
def single_row_encoding (options : TokenizationOptions) (row : List Int) : BatchEncoding :=
  { input_ids := [row]
    attention_mask := if options.return_attention_mask then [List.replicate row.length 1] else []
    token_type_ids := [], offset_mapping := [], length := [], overflowing_tokens := [] }

/-- The encoding with no rows, with which `encode_batch` starts. -/
def empty_encoding : BatchEncoding :=
  { input_ids := [], attention_mask := [], token_type_ids := [], offset_mapping := [],
    length := [], overflowing_tokens := [] }

/-- The text `héllo` in UTF-8: six `char`s, `é` being the two bytes `0xC3 0xA9`. -/
def hello_utf8 : Str := ['h', Char.ofNat 195, Char.ofNat 169, 'l', 'l', 'o']

/-- A model vocabulary that contains every byte: the byte `n` has the id `n + 7`, behind the
ids 0 to 6 of the seven special tokens of the default configuration. -/
def byte_vocab : List (Str × Int) :=
  (List.range 256).map fun n => ([Char.ofNat n], (n : Int) + 7)

/-- The byte-level BPE pipeline: default configuration, a BPE model without merge rules whose
vocabulary contains every byte, the byte-level pre-tokenizer, no post-processor; the
normalizers leave the text `héllo`, which is in NFC, unchanged. -/
def byte_pipeline : TokenizerAdvanced :=
  TokenizerAdvanced.make_bpe TokenizerConfig.default byte_vocab [] [] id id
    (some byte_level_pre_tokenize) (fun _ => none)

/-! ## The WordPiece round trip -/

/-- The result of `decode_from_ids(encode_to_ids(w))`. -/
def WordPieceTokenizer.round_trip (t : WordPieceTokenizer) (w : Str) : Except String Str :=
  match t.encode_to_ids w with
  | Except.ok ids => Except.ok (t.decode_from_ids ids)
  | Except.error e => Except.error e

/-- A WordPiece tokenizer whose only piece is `##a`, under the id 0. -/
def marker_tokenizer : WordPieceTokenizer :=
  { normalizer_ := id, vocab_ := Vocab.empty.add_token "##a".toList 0,
    wordpiece_model_ := some { vocab_ := [("##a".toList, 0)], unk_token_ := "[UNK]".toList,
                               max_input_chars_per_word_ := 100 } }

/-- A WordPiece tokenizer over `{un, ##aff, ##able}` with the ids 0, 1 and 2. -/
def affable_tokenizer : WordPieceTokenizer :=
  { normalizer_ := id,
    vocab_ := ((Vocab.empty.add_token "un".toList 0).add_token "##aff".toList 1).add_token
      "##able".toList 2,
    wordpiece_model_ := some affable_model }

/-! ## Scenarios of the pipeline vocabulary, persistence and the textual configuration -/

/-- The vocabulary of a small BPE model: ids `7` and `8` follow the seven special tokens. -/
def low_model_vocab : List (Str × Int) := [("low".toList, 7), ("er".toList, 8)]

/-- The pipeline built from the default configuration and the model `low_model_vocab`. -/
def low_pipeline : TokenizerAdvanced :=
  TokenizerAdvanced.make_bpe TokenizerConfig.default low_model_vocab [] [] id id none
    (fun _ => none)

/-- The default configuration with `vocab_size = 1000`. -/
def thousand_config : TokenizerConfig := { TokenizerConfig.default with vocab_size := 1000 }

/-- A configuration whose strings hold blanks and `=`, with every number and flag changed. -/
def busy_config : TokenizerConfig :=
  { TokenizerConfig.default with
    vocab_size := 1000, model_type := [], unk_token := "a b=c".toList,
    cls_token := "true".toList, regex_pattern := " x = y ".toList, lowercase := true,
    min_frequency := 5, max_tokens := 12, max_length := -7, pad_to_max_length := true }

/-! ## Scenarios of the post-processors -/

/-- A vocabulary with `[CLS]` under id `0`, `[SEP]` under `1` and two ordinary tokens. -/
def cls_sep_vocab : Vocab :=
  Vocab.empty.run
    [VocabOp.add_special_token "[CLS]".toList SpecialTokenType.CLS,
      VocabOp.add_special_token "[SEP]".toList SpecialTokenType.SEP,
      VocabOp.add_token "hello".toList (-1), VocabOp.add_token "world".toList (-1)]

/-! ## The chat template: what a segment stands for -/

/-- The configured special tokens that are not empty, in the order UNK, PAD, BOS, EOS, MASK,
SEP, CLS. -/
def configured_specials (config : TokenizerConfig) : List Str :=
  [config.unk_token, config.pad_token, config.bos_token, config.eos_token, config.mask_token,
    config.sep_token, config.cls_token].filter fun token => decide (token ≠ [])

/-- The occurrence count of the `char` `c` over the words of the word table: the occurrences
of `c` in each word (the word carries its marker), weighted by the count of the word. -/
def char_count (word_counts : List (Str × Int)) (c : Char) : Int :=
  (word_counts.map fun wc => (wc.1.count c : Int) * wc.2).sum

/-- The vocabulary `v` holds exactly the texts of `order`, each under its position in `order`,
and the next default id is the length of `order`. -/
def Vocab.InOrder (v : Vocab) (order : List Str) : Prop :=
  v.next_id_ = order.length ∧ order.Nodup ∧
    ∀ (token : Str) (i : Int),
      umFind v.token_to_id_ token = some i ↔ ∃ j : Nat, order[j]? = some token ∧ i = j

/-- The texts of a vocabulary in the order of their ids after one more text is added without
an explicit id: an empty or present text changes nothing. -/
def push_token (order : List Str) (token : Str) : List Str :=
  if token = [] ∨ token ∈ order then order else order ++ [token]

/-- The configuration of the seed scenario with `min_frequency = 0`. -/
def zero_frequency_config : TokenizerConfig := { seed_config with min_frequency := 0 }

/-! ## Scenarios of the WordPiece length guard -/

/-- A word of 101 `char`s. -/
def long_word : Str := List.replicate 101 'a'

/-- A WordPiece model with the default guard `max_input_chars_per_word = 100` whose
vocabulary holds `long_word`. -/
def long_word_model : WordPieceModel :=
  WordPieceModel.initialize [(long_word, 5)] "[UNK]".toList 100

/-- A WordPiece model with the guard `max_input_chars_per_word = 3` over the pieces `ab` and
`##cd`. -/
def short_guard_model : WordPieceModel :=
  WordPieceModel.initialize [("ab".toList, 0), ("##cd".toList, 1)] "[UNK]".toList 3

/-! ## The merge loop of `encode_bpe` without fuel -/

/-- A run of the loop `while (parts.size() > 1)` of `encode_bpe`: the loop, entered with the
symbols `parts`, is left with the symbols `result` after `k` rounds that merge. It is left
when one symbol remains (`size`) or when the scan finds no rule (`no_rule`, the `break`). -/
inductive MergeRun (ranks : List (Str × Int)) : List Str → Nat → List Str → Prop
  | size (parts : List Str) : parts.length ≤ 1 → MergeRun ranks parts 0 parts
  | no_rule (parts : List Str) : parts.length > 1 →
      (scan_pairs ranks parts 0 (-1, -1)).2 = -1 → MergeRun ranks parts 0 parts
  | merge (parts : List Str) (k : Nat) (result : List Str) : parts.length > 1 →
      (scan_pairs ranks parts 0 (-1, -1)).2 ≠ -1 →
      MergeRun ranks (merge_at parts (scan_pairs ranks parts 0 (-1, -1)).2.toNat) k result →
      MergeRun ranks parts (k + 1) result

/-! ## Scenarios of the character-level tokenizer -/

/-- The steps that `normalize` applies to a non-empty text, in their order: the ICU
normalization to the configured form, the custom transformations, accent stripping when
requested, lowercasing when requested. -/
def UnicodeNormalizer.steps (icu : ICU) (n : UnicodeNormalizer) : List (Str → Str) :=
  [fun out => icu.normalize out n.config_.normalization] ++ n.custom_transformations_ ++
    (if n.config_.strip_accents then [icu.strip_accents] else []) ++
    (if n.config_.lowercase then [icu.to_lower] else [])

/-- ICU on ASCII text without capital letters: the normalization forms, accent stripping and
lowercasing return such a text as it is. -/
def ascii_icu : ICU :=
  { nfc := id, nfd := id, nfkc := id, nfkd := id, accent_stripper := id, toLower := id }

/-- The normalizer of the default configuration with one custom transformation, which
appends `!`. -/
def bang_normalizer : UnicodeNormalizer :=
  (UnicodeNormalizer.make TokenizerConfig.default).add_custom_transformation
    fun out => out ++ ['!']

/-- A stand-in for ICU on texts over `A`, `a`, `b`, `!` and `~`, where `~` plays the accent:
the normalization forms return such a text as it is, accent stripping removes every `~` and
lowercasing turns every `A` into `a`. -/
def marks_icu : ICU :=
  { nfc := id, nfd := id, nfkc := id, nfkd := id,
    accent_stripper := fun out => out.filter fun c => c != '~',
    toLower := fun out => out.map fun c => if c = 'A' then 'a' else c }

/-- The normalizer of the default configuration with accent stripping and lowercasing
requested and one custom transformation, which removes every `!`. -/
def strip_lower_normalizer : UnicodeNormalizer :=
  (UnicodeNormalizer.make
    { TokenizerConfig.default with strip_accents := true, lowercase := true
    }).add_custom_transformation
    fun out => out.filter fun c => c != '!'

/-! ## Scenarios of the regex pre-tokenizer -/

/-- The pattern `a*`: at every index it matches the longest run of `a`, which may be
empty. -/
def star_a : Regex :=
  { match_at := fun text pos not_null =>
      let run := (text.drop pos).takeWhile fun c => c == 'a'
      if not_null ∧ run.length = 0 then none else some run.length }

/-- The matches of a `std::sregex_iterator` do not overlap and go from left to right: every
match begins at or after `last_pos`, where the match before it ended. -/
def matches_ordered : List (Nat × Nat) → Nat → Prop
  | [], _ => True
  | (position, length) :: rest, last_pos =>
    last_pos ≤ position ∧ matches_ordered rest (position + length)

/-! ## Well-formed UTF-8 -/

/-- Whether `lo <= b <= hi`. -/
def in_range (b lo hi : Nat) : Bool := decide (lo ≤ b ∧ b ≤ hi)

/-- Well-formed UTF-8 byte sequences, as the Unicode standard defines them (table 3-7): the
lead byte fixes the number of continuation bytes and the range of the second byte, which
excludes the overlong forms (`C0`, `C1`, `E0 80..9F`, `F0 80..8F`), the surrogates
(`ED A0..BF`) and the code points above U+10FFFF (`F4 90..BF`, `F5..FF`). -/
def well_formed_utf8 : List Nat → Bool
  | [] => true
  | b0 :: rest =>
    if b0 ≤ 0x7F then well_formed_utf8 rest
    else
      match rest with
      | [] => false
      | b1 :: rest1 =>
        if in_range b0 0xC2 0xDF then in_range b1 0x80 0xBF && well_formed_utf8 rest1
        else
          match rest1 with
          | [] => false
          | b2 :: rest2 =>
            if in_range b0 0xE0 0xEF then
              in_range b1 (if b0 = 0xE0 then 0xA0 else 0x80) (if b0 = 0xED then 0x9F else 0xBF)
                && in_range b2 0x80 0xBF && well_formed_utf8 rest2
            else
              match rest2 with
              | [] => false
              | b3 :: rest3 =>
                if in_range b0 0xF0 0xF4 then
                  in_range b1 (if b0 = 0xF0 then 0x90 else 0x80)
                      (if b0 = 0xF4 then 0x8F else 0xBF)
                    && in_range b2 0x80 0xBF && in_range b3 0x80 0xBF && well_formed_utf8 rest3
                else false

/-- The bytes of a string as numbers. -/
def bytes_of (s : Str) : List Nat := s.map utf8.byte

/-- The string whose `char`s have the given byte values. -/
def str_of_bytes (bs : List Nat) : Str := bs.map Char.ofNat

/-- A bound on the number of matches that a `std::sregex_iterator` on `text` still runs
through when it stands on `current`: two for every index from the match on, less one when the
match is not empty. -/
def matches_left (text : Str) : Option (Nat × Nat) → Nat
  | none => 0
  | some (position, length) => 2 * (text.length - position) + (if length = 0 then 2 else 1)

/-! ## Scenarios of the overflow of `next_id_` -/

/-- The calls `add_token("a", 10)`, `add_token("x", INT_MAX)`, after which `next_id_` has
overflowed to `INT_MIN`, and `add_token("b", 5)`, which sets `next_id_` to 6; none of the
explicit ids is assigned when its call is made. -/
def overflow_ops : List VocabOp :=
  [VocabOp.add_token "a".toList 10, VocabOp.add_token "x".toList 2147483647,
    VocabOp.add_token "b".toList 5]

/-- The calls `overflow_ops` followed by four calls of `add_token` without an explicit id,
which assign the ids 6, 7, 8 and 9: `next_id_` is then 10, the id of `a`. -/
def overflow_then_four : List VocabOp :=
  overflow_ops ++ [VocabOp.add_token "c".toList (-1), VocabOp.add_token "d".toList (-1),
    VocabOp.add_token "e".toList (-1), VocabOp.add_token "f".toList (-1)]

/-- The calls `add_token("x", INT_MAX)`, `add_special_token("[CLS]", CLS)`,
`add_special_token("[SEP]", SEP)`: the two special tokens receive the ids `INT_MIN` and
`INT_MIN + 1`. -/
def negative_cls_sep_ops : List VocabOp :=
  [VocabOp.add_token "x".toList 2147483647,
    VocabOp.add_special_token "[CLS]".toList SpecialTokenType.CLS,
    VocabOp.add_special_token "[SEP]".toList SpecialTokenType.SEP]

/-- The calls `add_special_token("[UNK]", UNK)`, `add_token("x", INT_MAX)`, `add_token("a")`:
the unknown token has the id 0 and the text `a` receives the id `INT_MIN`. -/
def negative_a_ops : List VocabOp :=
  [VocabOp.add_special_token "[UNK]".toList SpecialTokenType.UNK,
    VocabOp.add_token "x".toList 2147483647, VocabOp.add_token "a".toList (-1)]

/-! # Theorems -/

/-! ## Lemmas on maps -/

theorem umFind_umSet {K V : Type} [DecidableEq K] (m : List (K × V)) (k k' : K) (v : V) :
    umFind (umSet m k v) k' = if k = k' then some v else umFind m k' := by
  induction m with
  | nil => simp [umSet, umFind]
  | cons e m ih =>
    obtain ⟨k0, v0⟩ := e
    by_cases h : k0 = k
    · subst h
      by_cases h' : k0 = k' <;> simp [umSet, umFind, h']
    · by_cases h' : k0 = k'
      · subst h'
        have : ¬ k = k0 := fun e => h e.symm
        simp [umSet, umFind, h, this]
      · simp [umSet, umFind, h, h', ih]

/-! ## The rank table of `build_merge_ranks` -/

theorem pair_key_inj {l r a b : Str} (ha : ' ' ∉ a) (hb : ' ' ∉ b)
    (h : pair_key l r = pair_key a b) : l = a ∧ r = b := by
  unfold pair_key at h
  induction l generalizing a with
  | nil =>
    cases a with
    | nil => simpa using h
    | cons c a =>
      simp at h
      exact absurd (by rw [← h.1]; simp) ha
  | cons x l ih =>
    cases a with
    | nil =>
      simp at h
      exact absurd (by rw [← h.2]; simp) hb
    | cons c a =>
      simp at h
      have ha' : ' ' ∉ a := fun hm => ha (List.mem_cons_of_mem _ hm)
      obtain ⟨h1, h2⟩ := ih ha' h.2
      exact ⟨by rw [h.1, h1], h2⟩

theorem umFind_build_merge_ranks_from (rules : List (Str × Str)) (i : Nat)
    (m : List (Str × Int)) (k : Str) :
    umFind (build_merge_ranks_from rules i m) k =
      match lastKeyIdx rules k with
      | some j => some ((i + j : Nat) : Int)
      | none => umFind m k := by
  induction rules generalizing i m with
  | nil => simp [build_merge_ranks_from, lastKeyIdx]
  | cons rule rest ih =>
    simp only [build_merge_ranks_from, lastKeyIdx]
    rw [ih]
    cases hl : lastKeyIdx rest k with
    | some j => simp; omega
    | none =>
      simp only [umFind_umSet]
      by_cases hk : pair_key rule.1 rule.2 = k <;> simp [hk, umFind]

theorem umFind_build_merge_ranks (rules : List (Str × Str)) (k : Str) :
    umFind (build_merge_ranks rules) k = (lastKeyIdx rules k).map fun j => (j : Int) := by
  unfold build_merge_ranks
  rw [umFind_build_merge_ranks_from]
  cases lastKeyIdx rules k <;> simp [umFind]

theorem lastKeyIdx_none (rules : List (Str × Str)) (k : Str) (h : lastKeyIdx rules k = none) :
    ∀ (i : Nat) (rule : Str × Str), rules[i]? = some rule → pair_key rule.1 rule.2 ≠ k := by
  induction rules with
  | nil => simp
  | cons rule0 rest ih =>
    simp only [lastKeyIdx] at h
    cases hl : lastKeyIdx rest k with
    | some j => rw [hl] at h; cases h
    | none =>
      rw [hl] at h
      have h0 : pair_key rule0.1 rule0.2 ≠ k := by
        intro e
        simp [e] at h
      intro i rule hi
      cases i with
      | zero =>
        simp at hi
        subst hi
        exact h0
      | succ i' => exact ih hl i' rule (by simpa using hi)

theorem lastKeyIdx_some (rules : List (Str × Str)) (k : Str) (j : Nat)
    (h : lastKeyIdx rules k = some j) :
    (∃ rule, rules[j]? = some rule ∧ pair_key rule.1 rule.2 = k) ∧
      ∀ (i : Nat) (rule : Str × Str), j < i → rules[i]? = some rule →
        pair_key rule.1 rule.2 ≠ k := by
  induction rules generalizing j with
  | nil => simp [lastKeyIdx] at h
  | cons rule0 rest ih =>
    simp only [lastKeyIdx] at h
    cases hl : lastKeyIdx rest k with
    | some j' =>
      rw [hl] at h
      simp at h
      subst h
      obtain ⟨⟨rule, h1, h2⟩, h3⟩ := ih j' hl
      refine ⟨⟨rule, by simpa using h1, h2⟩, ?_⟩
      intro i rule' hi hget
      obtain ⟨i', rfl⟩ : ∃ i', i = i' + 1 := ⟨i - 1, by omega⟩
      exact h3 i' rule' (by omega) (by simpa using hget)
    | none =>
      rw [hl] at h
      by_cases hk : pair_key rule0.1 rule0.2 = k
      · simp [hk] at h
        subst h
        refine ⟨⟨rule0, by simp, hk⟩, ?_⟩
        intro i rule' hi hget
        obtain ⟨i', rfl⟩ : ∃ i', i = i' + 1 := ⟨i - 1, by omega⟩
        exact lastKeyIdx_none rest k hl i' rule' (by simpa using hget)
      · simp [hk] at h

theorem lastKeyIdx_iff (rules : List (Str × Str)) {a b : Str} (ha : ' ' ∉ a) (hb : ' ' ∉ b)
    (r : Nat) : lastKeyIdx rules (pair_key a b) = some r ↔ RankLast rules a b r := by
  constructor
  · intro h
    obtain ⟨⟨rule, h1, h2⟩, h3⟩ := lastKeyIdx_some rules _ r h
    obtain ⟨e1, e2⟩ := pair_key_inj ha hb h2
    have hrule : rule = (a, b) := Prod.ext e1 e2
    subst hrule
    exact ⟨h1, fun j hj hget => h3 j (a, b) hj hget rfl⟩
  · rintro ⟨h1, h2⟩
    cases hl : lastKeyIdx rules (pair_key a b) with
    | none => exact absurd rfl (lastKeyIdx_none rules _ hl r (a, b) h1)
    | some j =>
      obtain ⟨⟨rule, h3, h4⟩, h5⟩ := lastKeyIdx_some rules _ j hl
      obtain ⟨e1, e2⟩ := pair_key_inj ha hb h4
      have hrule : rule = (a, b) := Prod.ext e1 e2
      subst hrule
      have hle : r ≤ j := by
        by_contra hc
        exact h5 r (a, b) (by omega) h1 rfl
      have hge : j ≤ r := by
        by_contra hc
        exact h2 j (by omega) h3
      have : j = r := by omega
      rw [this]

/-- The table of `build_merge_ranks` holds, for symbols without a space, the last position
of the pair in the rule list. -/
theorem table_rank_iff (rules : List (Str × Str)) {a b : Str} (ha : ' ' ∉ a) (hb : ' ' ∉ b)
    (r : Nat) :
    umFind (build_merge_ranks rules) (pair_key a b) = some (r : Int) ↔ RankLast rules a b r := by
  rw [umFind_build_merge_ranks, ← lastKeyIdx_iff rules ha hb]
  cases lastKeyIdx rules (pair_key a b) <;> simp

theorem table_rank_nonneg (rules : List (Str × Str)) (k : Str) (v : Int)
    (h : umFind (build_merge_ranks rules) k = some v) : ∃ r : Nat, v = r := by
  rw [umFind_build_merge_ranks] at h
  cases hl : lastKeyIdx rules k with
  | none => simp [hl] at h
  | some j => simp [hl] at h; exact ⟨j, h.symm⟩

/-! ## The scan of `encode_bpe` -/

theorem cons_cons_eq_append {α : Type} {a b c d : α} {rest pre post : List α}
    (h : a :: b :: rest = pre ++ c :: d :: post) :
    (pre = [] ∧ c = a ∧ d = b ∧ post = rest) ∨
      ∃ pre', pre = a :: pre' ∧ b :: rest = pre' ++ c :: d :: post := by
  cases pre with
  | nil =>
    simp at h
    exact Or.inl ⟨rfl, h.1.symm, h.2.1.symm, h.2.2.symm⟩
  | cons x pre' =>
    simp at h
    exact Or.inr ⟨pre', by rw [h.1], h.2⟩

theorem scan_pairs_spec (ranks : List (Str × Int))
    (hnn : ∀ k v, umFind ranks k = some v → 0 ≤ v) (l : List Str) :
    ∀ (i : Nat) (st : Int × Int), (st = (-1, -1) ∨ 0 ≤ st.1) →
      (scan_pairs ranks l i st = st ∧
        ∀ pre c d post s, l = pre ++ c :: d :: post → umFind ranks (pair_key c d) = some s →
          st.1 ≠ -1 ∧ st.1 ≤ s) ∨
      ∃ pre a b post r, l = pre ++ a :: b :: post ∧ umFind ranks (pair_key a b) = some r ∧
        scan_pairs ranks l i st = (r, ((i + pre.length : Nat) : Int)) ∧
        (st.1 = -1 ∨ r < st.1) ∧
        ∀ pre' c d post' s, l = pre' ++ c :: d :: post' →
          umFind ranks (pair_key c d) = some s → r < s ∨ (r = s ∧ pre.length ≤ pre'.length) := by
  induction l with
  | nil =>
    intro i st _
    left
    refine ⟨by simp [scan_pairs], ?_⟩
    intro pre c d post s h
    simp at h
  | cons a l ih =>
    cases l with
    | nil =>
      intro i st _
      left
      refine ⟨by simp [scan_pairs], ?_⟩
      intro pre c d post s h
      have := congrArg List.length h
      simp at this
      omega
    | cons b rest =>
      intro i st hst
      cases hr : umFind ranks (pair_key a b) with
      | none =>
        have hscan : scan_pairs ranks (a :: b :: rest) i st =
            scan_pairs ranks (b :: rest) (i + 1) st := by
          simp [scan_pairs, hr]
        rcases ih (i + 1) st hst with ⟨h1, h2⟩ | ⟨pre, a', b', post, r, h1, h2, h3, h4, h5⟩
        · left
          refine ⟨by rw [hscan, h1], ?_⟩
          intro pre c d post s hdec hs
          rcases cons_cons_eq_append hdec with ⟨_, rfl, rfl, _⟩ | ⟨pre', _, hdec'⟩
          · rw [hr] at hs; cases hs
          · exact h2 pre' c d post s hdec' hs
        · right
          refine ⟨a :: pre, a', b', post, r, by simp [h1], h2, ?_, h4, ?_⟩
          · rw [hscan, h3]
            simp
            omega
          · intro pre' c d post' s hdec hs
            rcases cons_cons_eq_append hdec with ⟨_, rfl, rfl, _⟩ | ⟨pre'', rfl, hdec'⟩
            · rw [hr] at hs; cases hs
            · rcases h5 pre'' c d post' s hdec' hs with h | ⟨h, h'⟩
              · exact Or.inl h
              · exact Or.inr ⟨h, by simp; omega⟩
      | some r0 =>
        have hr0 : 0 ≤ r0 := hnn _ _ hr
        by_cases hc : st.1 = -1 ∨ r0 < st.1
        · have hscan : scan_pairs ranks (a :: b :: rest) i st =
              scan_pairs ranks (b :: rest) (i + 1) (r0, (i : Int)) := by
            simp [scan_pairs, hr, hc]
          rcases ih (i + 1) (r0, (i : Int)) (Or.inr hr0) with
            ⟨h1, h2⟩ | ⟨pre, a', b', post, r, h1, h2, h3, h4, h5⟩
          · right
            refine ⟨[], a, b, rest, r0, rfl, hr, by rw [hscan, h1]; simp, hc, ?_⟩
            intro pre' c d post' s hdec hs
            rcases cons_cons_eq_append hdec with ⟨rfl, rfl, rfl, _⟩ | ⟨pre'', rfl, hdec'⟩
            · rw [hr] at hs
              cases hs
              exact Or.inr ⟨rfl, le_refl _⟩
            · have := (h2 pre'' c d post' s hdec' hs).2
              simp at this
              rcases lt_or_eq_of_le this with h | h
              · exact Or.inl h
              · exact Or.inr ⟨h, by simp⟩
          · right
            have hlt : r < r0 := by
              rcases h4 with h | h
              · simp at h; omega
              · exact h
            refine ⟨a :: pre, a', b', post, r, by simp [h1], h2, ?_, ?_, ?_⟩
            · rw [hscan, h3]
              simp
              omega
            · rcases hc with h | h
              · exact Or.inl h
              · exact Or.inr (lt_trans hlt h)
            · intro pre' c d post' s hdec hs
              rcases cons_cons_eq_append hdec with ⟨_, rfl, rfl, _⟩ | ⟨pre'', rfl, hdec'⟩
              · rw [hr] at hs
                cases hs
                exact Or.inl hlt
              · rcases h5 pre'' c d post' s hdec' hs with h | ⟨h, h'⟩
                · exact Or.inl h
                · exact Or.inr ⟨h, by simp; omega⟩
        · have hscan : scan_pairs ranks (a :: b :: rest) i st =
              scan_pairs ranks (b :: rest) (i + 1) st := by
            simp [scan_pairs, hr, hc]
          have hc1 : st.1 ≠ -1 := fun h => hc (Or.inl h)
          have hc2 : st.1 ≤ r0 := by
            by_contra h
            exact hc (Or.inr (by omega))
          rcases ih (i + 1) st hst with ⟨h1, h2⟩ | ⟨pre, a', b', post, r, h1, h2, h3, h4, h5⟩
          · left
            refine ⟨by rw [hscan, h1], ?_⟩
            intro pre c d post s hdec hs
            rcases cons_cons_eq_append hdec with ⟨_, rfl, rfl, _⟩ | ⟨pre', _, hdec'⟩
            · rw [hr] at hs
              cases hs
              exact ⟨hc1, hc2⟩
            · exact h2 pre' c d post s hdec' hs
          · right
            have hlt : r < st.1 := by
              rcases h4 with h | h
              · exact absurd h hc1
              · exact h
            refine ⟨a :: pre, a', b', post, r, by simp [h1], h2, ?_, Or.inr hlt, ?_⟩
            · rw [hscan, h3]
              simp
              omega
            · intro pre' c d post' s hdec hs
              rcases cons_cons_eq_append hdec with ⟨_, rfl, rfl, _⟩ | ⟨pre'', rfl, hdec'⟩
              · rw [hr] at hs
                cases hs
                exact Or.inl (lt_of_lt_of_le hlt hc2)
              · rcases h5 pre'' c d post' s hdec' hs with h | ⟨h, h'⟩
                · exact Or.inl h
                · exact Or.inr ⟨h, by simp; omega⟩

theorem merge_at_append (pre : List Str) (a b : Str) (post : List Str) :
    merge_at (pre ++ a :: b :: post) pre.length = pre ++ (a ++ b) :: post := by
  induction pre with
  | nil => simp [merge_at]
  | cons x pre ih =>
    cases pre with
    | nil => simp [merge_at]
    | cons y pre' => simpa [merge_at] using ih

/-! ## The merge loop of `encode_bpe` -/

theorem noRulePair_of_length_le_one (R : Str → Str → Nat → Prop) (parts : List Str)
    (h : parts.length ≤ 1) : NoRulePair R parts := by
  intro pre c d post s hdec
  have := congrArg List.length hdec
  simp at this
  omega

theorem merge_loop_canonical (ranks : List (Str × Int)) (R : Str → Str → Nat → Prop)
    (hnn : ∀ k v, umFind ranks k = some v → 0 ≤ v)
    (hR : ∀ a b, ' ' ∉ a → ' ' ∉ b → ∀ r : Nat,
      R a b r ↔ umFind ranks (pair_key a b) = some (r : Int))
    (fuel : Nat) :
    ∀ parts : List Str, parts.length ≤ fuel + 1 → (∀ p ∈ parts, ' ' ∉ p) →
      Relation.ReflTransGen (GreedyStep R) parts (merge_loop ranks fuel parts) ∧
        NoRulePair R (merge_loop ranks fuel parts) := by
  induction fuel with
  | zero =>
    intro parts hlen _
    exact ⟨Relation.ReflTransGen.refl, noRulePair_of_length_le_one R _ (by simpa using hlen)⟩
  | succ fuel ih =>
    intro parts hlen hsp
    by_cases hgt : parts.length > 1
    · rcases scan_pairs_spec ranks hnn parts 0 (-1, -1) (Or.inl rfl) with
        ⟨h1, h2⟩ | ⟨pre, a, b, post, r, h1, h2, h3, _, h5⟩
      · have hres : merge_loop ranks (fuel + 1) parts = parts := by
          simp [merge_loop, hgt, h1]
        rw [hres]
        refine ⟨Relation.ReflTransGen.refl, ?_⟩
        intro pre c d post s hdec hRs
        have hc : ' ' ∉ c := hsp c (by rw [hdec]; simp)
        have hd : ' ' ∉ d := hsp d (by rw [hdec]; simp)
        have := (h2 pre c d post s hdec ((hR c d hc hd s).mp hRs)).1
        exact this rfl
      · have hr0 : 0 ≤ r := hnn _ _ h2
        obtain ⟨n, rfl⟩ : ∃ n : Nat, r = n := ⟨r.toNat, (Int.toNat_of_nonneg hr0).symm⟩
        have hidx : (scan_pairs ranks parts 0 (-1, -1)).2 ≠ -1 := by
          rw [h3]
          simp
        have hnat : (scan_pairs ranks parts 0 (-1, -1)).2.toNat = pre.length := by
          rw [h3]
          simp
        have hres : merge_loop ranks (fuel + 1) parts =
            merge_loop ranks fuel (pre ++ (a ++ b) :: post) := by
          simp only [merge_loop, hgt, if_true, hidx, if_false, hnat]
          rw [h1, merge_at_append]
        have ha : ' ' ∉ a := hsp a (by rw [h1]; simp)
        have hb : ' ' ∉ b := hsp b (by rw [h1]; simp)
        have hsp' : ∀ p ∈ pre ++ (a ++ b) :: post, ' ' ∉ p := by
          intro p hp
          simp at hp
          rcases hp with hp | rfl | hp
          · exact hsp p (by rw [h1]; simp [hp])
          · simp [ha, hb]
          · exact hsp p (by rw [h1]; simp [hp])
        have hlen' : (pre ++ (a ++ b) :: post).length ≤ fuel + 1 := by
          have := hlen
          rw [h1] at this
          simp at this ⊢
          omega
        obtain ⟨ih1, ih2⟩ := ih _ hlen' hsp'
        rw [hres]
        refine ⟨Relation.ReflTransGen.head ?_ ih1, ih2⟩
        refine ⟨pre, a, b, post, n, h1, rfl, (hR a b ha hb n).mpr h2, ?_⟩
        intro pre' c d post' s hdec hRs
        have hc : ' ' ∉ c := hsp c (by rw [hdec]; simp)
        have hd : ' ' ∉ d := hsp d (by rw [hdec]; simp)
        rcases h5 pre' c d post' s hdec ((hR c d hc hd s).mp hRs) with h | ⟨h, h'⟩
        · exact Or.inl (by exact_mod_cast h)
        · exact Or.inr ⟨by exact_mod_cast h, h'⟩
    · have hres : merge_loop ranks (fuel + 1) parts = parts := by
        simp [merge_loop, hgt]
      rw [hres]
      exact ⟨Relation.ReflTransGen.refl, noRulePair_of_length_le_one R _ (by omega)⟩

/-- The symbols that `encode_bpe` ends with are the canonical greedy BPE segmentation for
the rank `RankLast`. -/
theorem bpe_parts_canonical (vocab : Vocab) (rules : List (Str × Str)) (word : Str)
    (hsp : ' ' ∉ word) :
    CanonicalBPE (RankLast rules) word (bpe_parts (BPETokenizer.with_rules vocab rules) word) := by
  unfold CanonicalBPE bpe_parts BPETokenizer.with_rules
  apply merge_loop_canonical (build_merge_ranks rules) (RankLast rules)
  · intro k v h
    obtain ⟨r, rfl⟩ := table_rank_nonneg rules k v h
    exact Int.ofNat_nonneg r
  · intro a b ha hb r
    exact (table_rank_iff rules ha hb r).symm
  · simp
  · intro p hp
    simp at hp
    obtain ⟨c, hc, rfl⟩ := hp
    simp
    intro h
    exact hsp (h ▸ hc)

/-! ## Greedy BPE is deterministic -/

theorem greedyStep_deterministic (R : Str → Str → Nat → Prop) {x y z : List Str}
    (h1 : GreedyStep R x y) (h2 : GreedyStep R x z) : y = z := by
  obtain ⟨pre, a, b, post, r, hx, hy, hR, hmin⟩ := h1
  obtain ⟨pre', a', b', post', r', hx', hz, hR', hmin'⟩ := h2
  have e1 := hmin pre' a' b' post' r' hx' hR'
  have e2 := hmin' pre a b post r hx hR
  have hlen : pre.length = pre'.length := by omega
  have hxx : pre ++ a :: b :: post = pre' ++ a' :: b' :: post' := by rw [← hx, ← hx']
  obtain ⟨hp, hrest⟩ := List.append_inj hxx hlen
  simp at hrest
  obtain ⟨ha, hb, hpost⟩ := hrest
  rw [hy, hz, hp, ha, hb, hpost]

theorem canonicalBPE_unique_aux (R : Str → Str → Nat → Prop) {x y z : List Str}
    (hy : Relation.ReflTransGen (GreedyStep R) x y) (hyt : NoRulePair R y)
    (hz : Relation.ReflTransGen (GreedyStep R) x z) (hzt : NoRulePair R z) : y = z := by
  induction hy using Relation.ReflTransGen.head_induction_on with
  | refl =>
    cases hz using Relation.ReflTransGen.head_induction_on with
    | refl => rfl
    | head hstep _ =>
      obtain ⟨pre, a, b, post, r, hx, _, hR, _⟩ := hstep
      exact absurd hR (hyt pre a b post r hx)
  | head hstep _ ih =>
    cases hz using Relation.ReflTransGen.head_induction_on with
    | refl =>
      obtain ⟨pre, a, b, post, r, hx, _, hR, _⟩ := hstep
      exact absurd hR (hzt pre a b post r hx)
    | head hstep' hrest =>
      have := greedyStep_deterministic R hstep hstep'
      subst this
      exact ih hrest

/-- A word has at most one canonical greedy BPE segmentation. -/
theorem canonicalBPE_unique (R : Str → Str → Nat → Prop) {word : Str} {y z : List Str}
    (hy : CanonicalBPE R word y) (hz : CanonicalBPE R word z) : y = z :=
  canonicalBPE_unique_aux R hy.1 hy.2 hz.1 hz.2

/-! ## Reachable vocabularies -/

theorem int_wrap_eq (x : Int) (h1 : -2147483648 ≤ x) (h2 : x < 2147483648) : int_wrap x = x := by
  unfold int_wrap
  omega

theorem Vocab.add_token_eq_of_absent (v : Vocab) (token : Str) (id : Int) (ht : token ≠ [])
    (habs : v.has_token token = false) :
    v.add_token token id =
      { v with
        token_to_id_ := umSet v.token_to_id_ token (if id < 0 then v.next_id_ else id)
        id_to_token_ := umSet v.id_to_token_ (if id < 0 then v.next_id_ else id) token
        next_id_ :=
          if (if id < 0 then v.next_id_ else id)
              ≥ (if id < 0 then int_wrap (v.next_id_ + 1) else v.next_id_)
          then int_wrap ((if id < 0 then v.next_id_ else id) + 1)
          else (if id < 0 then int_wrap (v.next_id_ + 1) else v.next_id_) } := by
  simp [Vocab.add_token, ht, habs]

theorem Vocab.add_token_eq_of_noop (v : Vocab) (token : Str) (id : Int)
    (h : token = [] ∨ v.has_token token = true) : v.add_token token id = v := by
  simp [Vocab.add_token, h]

theorem Vocab.add_special_token_eq_of_absent (v : Vocab) (token : Str) (type : SpecialTokenType)
    (ht : token ≠ []) (habs : v.has_token token = false) :
    v.add_special_token token type =
      { token_to_id_ := umSet v.token_to_id_ token v.next_id_
        id_to_token_ := umSet v.id_to_token_ v.next_id_ token
        special_token_ids_ := umSet v.special_token_ids_ type v.next_id_
        special_ids_set_ := usInsert v.special_ids_set_ v.next_id_
        next_id_ := int_wrap (v.next_id_ + 1) } := by
  simp [Vocab.add_special_token, ht, habs]

theorem Vocab.add_special_token_eq_of_noop (v : Vocab) (token : Str) (type : SpecialTokenType)
    (h : token = [] ∨ v.has_token token = true) : v.add_special_token token type = v := by
  simp [Vocab.add_special_token, h]

theorem Vocab.noop_or_absent (v : Vocab) (token : Str) :
    (token = [] ∨ v.has_token token = true) ∨ (token ≠ [] ∧ v.has_token token = false) := by
  by_cases h1 : token = []
  · exact Or.inl (Or.inl h1)
  · by_cases h2 : v.has_token token = true
    · exact Or.inr h2 |> Or.inl
    · exact Or.inr ⟨h1, by simpa using h2⟩

theorem in_range_add_token_of_absent (v : Vocab) (token : Str) (id : Int) (ht : token ≠ [])
    (habs : v.has_token token = false)
    (hr : in_range_op v (VocabOp.add_token token id) = true) :
    (if id < 0 then v.next_id_ else id) < 2147483647 := by
  simpa [in_range_op, ht, habs] using hr

theorem in_range_add_special_token_of_absent (v : Vocab) (token : Str)
    (type : SpecialTokenType) (ht : token ≠ []) (habs : v.has_token token = false)
    (hr : in_range_op v (VocabOp.add_special_token token type) = true) :
    v.next_id_ < 2147483647 := by
  simpa [in_range_op, ht, habs] using hr

/-- A call of `add_token` that takes effect and does not assign `INT_MAX`, on a vocabulary
whose `next_id_` is not negative: no computation on `int` overflows. -/
theorem Vocab.add_token_eq_in_range (v : Vocab) (token : Str) (id : Int) (ht : token ≠ [])
    (habs : v.has_token token = false) (h0 : 0 ≤ v.next_id_)
    (hr : in_range_op v (VocabOp.add_token token id) = true) :
    v.add_token token id =
      { v with
        token_to_id_ := umSet v.token_to_id_ token (if id < 0 then v.next_id_ else id)
        id_to_token_ := umSet v.id_to_token_ (if id < 0 then v.next_id_ else id) token
        next_id_ :=
          if id < 0 then v.next_id_ + 1 else if id ≥ v.next_id_ then id + 1 else v.next_id_ } := by
  have hlt := in_range_add_token_of_absent v token id ht habs hr
  rw [v.add_token_eq_of_absent token id ht habs]
  congr 1
  by_cases hid : id < 0
  · simp only [hid, if_true] at hlt ⊢
    rw [int_wrap_eq (v.next_id_ + 1) (by omega) (by omega)]
    have : ¬ v.next_id_ ≥ v.next_id_ + 1 := by omega
    simp only [this, if_false]
  · simp only [hid, if_false] at hlt ⊢
    rw [int_wrap_eq (id + 1) (by omega) (by omega)]

/-- A call of `add_special_token` that takes effect and does not assign `INT_MAX`, on a
vocabulary whose `next_id_` is not negative: `next_id_++` does not overflow. -/
theorem Vocab.add_special_token_eq_in_range (v : Vocab) (token : Str)
    (type : SpecialTokenType) (ht : token ≠ []) (habs : v.has_token token = false)
    (h0 : 0 ≤ v.next_id_)
    (hr : in_range_op v (VocabOp.add_special_token token type) = true) :
    v.add_special_token token type =
      { token_to_id_ := umSet v.token_to_id_ token v.next_id_
        id_to_token_ := umSet v.id_to_token_ v.next_id_ token
        special_token_ids_ := umSet v.special_token_ids_ type v.next_id_
        special_ids_set_ := usInsert v.special_ids_set_ v.next_id_
        next_id_ := v.next_id_ + 1 } := by
  have hlt := in_range_add_special_token_of_absent v token type ht habs hr
  rw [v.add_special_token_eq_of_absent token type ht habs,
    int_wrap_eq (v.next_id_ + 1) (by omega) (by omega)]

theorem Vocab.idsBelowNext_add_token (v : Vocab) (token : Str) (id : Int)
    (h : v.IdsBelowNext) (hr : in_range_op v (VocabOp.add_token token id) = true) :
    (v.add_token token id).IdsBelowNext := by
  rcases v.noop_or_absent token with hno | ⟨hne, habs⟩
  · rw [v.add_token_eq_of_noop token id hno]
    exact h
  · rw [v.add_token_eq_in_range token id hne habs h.1 hr]
    obtain ⟨h0, h1⟩ := h
    constructor
    · dsimp only
      split_ifs <;> omega
    · intro t i hi
      dsimp only at hi ⊢
      rw [umFind_umSet] at hi
      by_cases ht : token = t
      · simp only [ht, if_true] at hi
        cases hi
        split_ifs <;> omega
      · simp only [ht, if_false] at hi
        have := h1 t i hi
        split_ifs <;> omega

theorem Vocab.idsBelowNext_add_special_token (v : Vocab) (token : Str) (type : SpecialTokenType)
    (h : v.IdsBelowNext) (hr : in_range_op v (VocabOp.add_special_token token type) = true) :
    (v.add_special_token token type).IdsBelowNext := by
  rcases v.noop_or_absent token with hno | ⟨hne, habs⟩
  · rw [v.add_special_token_eq_of_noop token type hno]
    exact h
  · rw [v.add_special_token_eq_in_range token type hne habs h.1 hr]
    obtain ⟨h0, h1⟩ := h
    constructor
    · dsimp only
      omega
    · intro t i hi
      dsimp only at hi ⊢
      rw [umFind_umSet] at hi
      by_cases ht : token = t
      · simp only [ht, if_true] at hi
        cases hi
        omega
      · simp only [ht, if_false] at hi
        have := h1 t i hi
        omega

theorem Vocab.Reachable.idsBelowNext {v : Vocab} (h : v.Reachable) : v.IdsBelowNext := by
  induction h with
  | empty => exact ⟨le_refl _, fun t i hi => by simp [Vocab.empty, umFind] at hi⟩
  | add_token v token id _ hr ih => exact Vocab.idsBelowNext_add_token v token id ih hr
  | add_special_token v token type _ hr ih =>
    exact Vocab.idsBelowNext_add_special_token v token type ih hr
  | clear v _ _ => exact ⟨le_refl _, fun t i hi => by simp [Vocab.clear, Vocab.empty, umFind] at hi⟩

theorem Vocab.Reachable.apply {v : Vocab} (hv : v.Reachable) (op : VocabOp)
    (hr : in_range_op v op = true) : (v.apply op).Reachable := by
  cases op with
  | add_token u id => exact Vocab.Reachable.add_token v u id hv hr
  | add_special_token u ty => exact Vocab.Reachable.add_special_token v u ty hv hr
  | clear => exact Vocab.Reachable.clear v hv

/-- A sequence of calls none of which assigns `INT_MAX` keeps a vocabulary reachable. -/
theorem Vocab.reachable_run (ops : List VocabOp) :
    ∀ v : Vocab, v.Reachable → in_range_history v ops = true → (v.run ops).Reachable := by
  induction ops with
  | nil =>
    intro v hv _
    exact hv
  | cons op ops ih =>
    intro v hv hr
    simp only [in_range_history, Bool.and_eq_true] at hr
    exact ih _ (hv.apply op hr.1) hr.2

theorem bpe_token_id (vocab : Vocab) (hv : vocab.Reachable) (p : Str) :
    (bpe_token vocab p).id =
      if vocab.has_token p = true then vocab.get_token_id p
      else vocab.get_special_token_id SpecialTokenType.UNK := by
  unfold bpe_token Token.make Vocab.get_token_id Vocab.has_token
  cases hf : umFind vocab.token_to_id_ p with
  | none => simp
  | some i =>
    have := (hv.idsBelowNext.2 p i hf).1
    simp [this]

theorem rankFirst_eq_rankLast (rules : List (Str × Str)) (hnd : rules.Nodup) :
    RankFirst rules = RankLast rules := by
  funext a b r
  apply propext
  have key : ∀ j, rules[r]? = some (a, b) → rules[j]? = some (a, b) → j = r := by
    intro j h1 h2
    have hj : j < rules.length := by
      by_contra hc
      rw [List.getElem?_eq_none (by omega)] at h2
      cases h2
    exact (List.getElem?_inj hj hnd (h2.trans h1.symm))
  constructor
  · rintro ⟨h1, _⟩
    exact ⟨h1, fun j hj h2 => by have := key j h1 h2; omega⟩
  · rintro ⟨h1, _⟩
    exact ⟨h1, fun j hj h2 => by have := key j h1 h2; omega⟩

/-! ## C1: `encode_bpe` and canonical greedy BPE -/

theorem small_vocab_reachable : small_vocab.Reachable :=
  Vocab.Reachable.add_token _ _ _
    (Vocab.Reachable.add_token _ _ _
      (Vocab.Reachable.add_special_token _ _ _ Vocab.Reachable.empty (by decide)) (by decide))
    (by decide)

set_option maxRecDepth 100000 in
/-- C1 as stated fails in two ways. With the rank of a rule its (first) position in the rule
list: for the rules `[(a,b), (b,c), (a,b)]` and the word `abc` greedy BPE merges `a b`
(rank 0) and ends with `[ab, c]`, whereas `encode_bpe` ranks `(a,b)` at 2, merges `b c` and
returns `[a, bc]`. With the id of a symbol: after `add_special_token("[UNK]", UNK)`,
`add_token("x", INT_MAX)` and `add_token("a")` the text `a` is in the vocabulary under the id
`INT_MIN`, and `encode_bpe("a")` gives it the UNK id 0. -/
theorem encode_bpe_first_position_counterexample :
    (¬ ∃ parts, CanonicalBPE (RankFirst dup_rules) "abc".toList parts ∧
      ((BPETokenizer.with_rules small_vocab dup_rules).encode_bpe "abc".toList).map Token.text
        = parts) ∧
      (Vocab.empty.run negative_a_ops).has_token "a".toList = true ∧
      (Vocab.empty.run negative_a_ops).get_token_id "a".toList = -2147483648 ∧
      (Vocab.empty.run negative_a_ops).get_special_token_id SpecialTokenType.UNK = 0 ∧
      ((BPETokenizer.with_rules (Vocab.empty.run negative_a_ops) []).encode_bpe
        "a".toList).map Token.id = [0] := by
  refine ⟨?_, by decide, by decide, by decide, by decide⟩
  rintro ⟨parts, hcanon, htexts⟩
  have hcode : ((BPETokenizer.with_rules small_vocab dup_rules).encode_bpe "abc".toList).map
      Token.text = ["a".toList, "bc".toList] := by decide
  have hspec : CanonicalBPE (RankFirst dup_rules) "abc".toList ["ab".toList, "c".toList] := by
    constructor
    · apply Relation.ReflTransGen.single
      refine ⟨[], "a".toList, "b".toList, ["c".toList], 0, rfl, rfl, ⟨rfl, ?_⟩, ?_⟩
      · intro j hj
        omega
      · intro pre' c d post' s _ _
        rcases Nat.eq_zero_or_pos s with h | h
        · exact Or.inr ⟨h.symm, Nat.zero_le _⟩
        · exact Or.inl h
    · intro pre c d post s hdec hR
      have hmem : (c, d) ∈ dup_rules := List.getElem?_mem hR.1
      cases pre with
      | nil =>
        simp at hdec
        obtain ⟨rfl, rfl, _⟩ := hdec
        revert hmem
        decide
      | cons x pre =>
        have := congrArg List.length hdec
        simp at this
        omega
  have := canonicalBPE_unique _ hcanon hspec
  rw [this] at htexts
  rw [hcode] at htexts
  revert htexts
  decide

/-- C1, amended: for every vocabulary, every rule list and every non-empty word without a
space, `encode_bpe` returns the canonical greedy BPE segmentation in which the rank of a pair
is the last position of that rule in the rule list (its position, when the list has no
duplicate rule): starting from the single-`char` symbols, the leftmost adjacent pair of
lowest rank is merged until no adjacent pair is a rule. The texts of the tokens are these
symbols, and every token carries the vocabulary id of its text when that id is not negative,
and the UNK id otherwise. In a vocabulary built from the empty one by calls none of which
assigns the id `INT_MAX`, no id is negative: a token carries the vocabulary id of its text,
or the UNK id when the text is not in the vocabulary. -/
theorem encode_bpe_canonical_greedy (vocab : Vocab) (rules : List (Str × Str)) (word : Str)
    (hne : word ≠ []) (hsp : ' ' ∉ word) :
    ∃ parts, CanonicalBPE (RankLast rules) word parts ∧
      (rules.Nodup → CanonicalBPE (RankFirst rules) word parts) ∧
      ((BPETokenizer.with_rules vocab rules).encode_bpe word).map Token.text = parts ∧
      (∀ tok ∈ (BPETokenizer.with_rules vocab rules).encode_bpe word,
        tok.id = if 0 ≤ vocab.get_token_id tok.text then vocab.get_token_id tok.text
          else vocab.get_special_token_id SpecialTokenType.UNK) ∧
      (vocab.Reachable → ∀ tok ∈ (BPETokenizer.with_rules vocab rules).encode_bpe word,
        tok.id = if vocab.has_token tok.text = true then vocab.get_token_id tok.text
          else vocab.get_special_token_id SpecialTokenType.UNK) := by
  refine ⟨bpe_parts (BPETokenizer.with_rules vocab rules) word,
    bpe_parts_canonical vocab rules word hsp, ?_, ?_, ?_, ?_⟩
  · intro hnd
    rw [rankFirst_eq_rankLast rules hnd]
    exact bpe_parts_canonical vocab rules word hsp
  · simp only [BPETokenizer.encode_bpe, hne, if_false, List.map_map]
    have : (Token.text ∘ bpe_token (BPETokenizer.with_rules vocab rules).vocab_) = id := by
      funext p
      simp [bpe_token, Token.make]
    rw [this, List.map_id]
  · intro tok htok
    simp only [BPETokenizer.encode_bpe, hne, if_false, List.mem_map] at htok
    obtain ⟨p, _, rfl⟩ := htok
    simp [bpe_token, Token.make, BPETokenizer.with_rules]
  · intro hv tok htok
    simp only [BPETokenizer.encode_bpe, hne, if_false, List.mem_map] at htok
    obtain ⟨p, _, rfl⟩ := htok
    have htext : (bpe_token (BPETokenizer.with_rules vocab rules).vocab_ p).text = p := by
      simp [bpe_token, Token.make]
    rw [htext]
    exact bpe_token_id vocab hv p

theorem encode_bpe_canonical_greedy_witness :
    ∃ parts, CanonicalBPE (RankLast dup_rules) "abc".toList parts ∧
      (dup_rules.Nodup → CanonicalBPE (RankFirst dup_rules) "abc".toList parts) ∧
      ((BPETokenizer.with_rules small_vocab dup_rules).encode_bpe "abc".toList).map Token.text
        = parts ∧
      (∀ tok ∈ (BPETokenizer.with_rules small_vocab dup_rules).encode_bpe "abc".toList,
        tok.id = if 0 ≤ small_vocab.get_token_id tok.text then small_vocab.get_token_id tok.text
          else small_vocab.get_special_token_id SpecialTokenType.UNK) ∧
      (small_vocab.Reachable →
        ∀ tok ∈ (BPETokenizer.with_rules small_vocab dup_rules).encode_bpe "abc".toList,
          tok.id = if small_vocab.has_token tok.text = true
            then small_vocab.get_token_id tok.text
            else small_vocab.get_special_token_id SpecialTokenType.UNK) :=
  encode_bpe_canonical_greedy small_vocab dup_rules "abc".toList (by decide) (by decide)

/-! ## C2: the end-of-word marker -/

/-- C2 fails on the code: the trainer counts the word `low` as `low</w>`, but `encode_bpe`
applies the rules to the bare word; the texts of its tokens concatenate to `low`, not to
`low</w>`. -/
theorem encode_bpe_omits_end_marker :
    (BPETrainer.make seed_config id).get_word_counts ["low".toList] = [("low</w>".toList, 1)] ∧
      (((BPETokenizer.with_rules small_vocab [("<".toList, "/".toList)]).encode_bpe
        "low".toList).map Token.text).flatten = "low".toList ∧
      (((BPETokenizer.with_rules small_vocab [("<".toList, "/".toList)]).encode_bpe
        "low".toList).map Token.text).flatten ≠ "low".toList ++ end_of_word := by
  decide

/-! ## C3: the seed scenario of the trainer -/

theorem best_pair_loop_spec (l : List ((Str × Str) × Int)) :
    ∀ st : (Str × Str) × Int,
      (best_pair_loop l st = st ∧ ∀ e ∈ l, e.2 ≤ st.2) ∨
        (best_pair_loop l st ∈ l ∧ st.2 < (best_pair_loop l st).2 ∧
          ∀ e ∈ l, e.2 ≤ (best_pair_loop l st).2) := by
  induction l with
  | nil =>
    intro st
    left
    simp [best_pair_loop]
  | cons e0 l ih =>
    intro st
    obtain ⟨pair, freq⟩ := e0
    by_cases hgt : freq > st.2
    · have hstep : best_pair_loop ((pair, freq) :: l) st = best_pair_loop l (pair, freq) := by
        simp [best_pair_loop, hgt]
      rw [hstep]
      right
      rcases ih (pair, freq) with ⟨h1, h2⟩ | ⟨h1, h2, h3⟩
      · rw [h1]
        refine ⟨by simp, hgt, ?_⟩
        intro e he
        rcases List.mem_cons.mp he with rfl | he
        · exact le_refl _
        · exact h2 e he
      · refine ⟨List.mem_cons_of_mem _ h1, lt_trans hgt h2, ?_⟩
        intro e he
        rcases List.mem_cons.mp he with rfl | he
        · exact le_of_lt h2
        · exact h3 e he
    · have hstep : best_pair_loop ((pair, freq) :: l) st = best_pair_loop l st := by
        simp [best_pair_loop, hgt]
      rw [hstep]
      rcases ih st with ⟨h1, h2⟩ | ⟨h1, h2, h3⟩
      · left
        refine ⟨h1, ?_⟩
        intro e he
        rcases List.mem_cons.mp he with rfl | he
        · exact not_lt.mp hgt
        · exact h2 e he
      · right
        refine ⟨List.mem_cons_of_mem _ h1, h2, ?_⟩
        intro e he
        rcases List.mem_cons.mp he with rfl | he
        · exact le_trans (not_lt.mp hgt) (le_of_lt h2)
        · exact h3 e he

set_option maxRecDepth 100000 in
/-- In whatever order the pair table of the seed corpus is enumerated, the first pair that
`train` selects is one of the three pairs of frequency 16 inside the marker `</w>`. -/
theorem seed_first_pick_any_order (l : List ((Str × Str) × Int)) (h : l.Perm seed_pair_counts) :
    (best_pair_loop l (([], []), 0)).1 ∈
      [("<".toList, "/".toList), ("/".toList, "w".toList), ("w".toList, ">".toList)] := by
  have hmem : (("<".toList, "/".toList), (16 : Int)) ∈ l := h.symm.subset (by decide)
  rcases best_pair_loop_spec l (([], []), 0) with ⟨_, h2⟩ | ⟨h1, _, h3⟩
  · have := h2 _ hmem
    simp at this
  · have h16 : 16 ≤ (best_pair_loop l (([], []), 0)).2 := h3 _ hmem
    have hin : best_pair_loop l (([], []), 0) ∈
        seed_pair_counts.filter (fun e => decide (16 ≤ e.2)) :=
      List.mem_filter.mpr ⟨h.subset h1, by simpa using h16⟩
    have hfil : seed_pair_counts.filter (fun e => decide (16 ≤ e.2)) =
        [(("<".toList, "/".toList), 16), (("/".toList, "w".toList), 16),
          (("w".toList, ">".toList), 16)] := by decide
    rw [hfil] at hin
    simp only [List.mem_cons, List.mem_singleton, List.not_mem_nil, or_false] at hin
    rcases hin with h | h | h <;> rw [h] <;> decide

set_option maxRecDepth 100000 in
/-- C3 fails on the code: on the seed corpus `train` learns `("<", "/")` three times, not
`("e","s")`, `("es","t</w>")`, `("l","o")`. The marker `</w>` is split into four `char`s, so
the pairs inside it have frequency 16 while `("e","s")` has 9, and since no word is ever
rewritten the same pair is selected again. -/
theorem train_seed_scenario_first_rules :
    (trained_rules ((BPETrainer.make seed_config id).train seed_corpus Vocab.empty 20)).take 3
        = [("<".toList, "/".toList), ("<".toList, "/".toList), ("<".toList, "/".toList)] ∧
      (trained_rules ((BPETrainer.make seed_config id).train seed_corpus Vocab.empty 20)).take 3
        ≠ [("e".toList, "s".toList), ("es".toList, "t</w>".toList), ("l".toList, "o".toList)] ∧
      umFind seed_pair_counts ("e".toList, "s".toList) = some 9 ∧
      umFind seed_pair_counts ("<".toList, "/".toList) = some 16 ∧
      seed_pair_counts.all (fun e => decide (e.2 ≤ 16)) = true := by
  decide

/-! ## C4: growth of the vocabulary during training -/

set_option maxRecDepth 100000 in
/-- C4 fails on the code: on the corpus `["aaa"]` with target size 9 the seeded vocabulary
has 6 tokens and `train` appends 3 merge rules, all of them `("a","a")`, but the vocabulary
ends with 7 tokens, not 9: the second and third merge add nothing. -/
theorem train_repeats_merge_without_growth :
    get_pair_counts ((BPETrainer.make seed_config id).get_word_counts aaa_corpus) =
        [(("a".toList, "a".toList), 2), (("a".toList, "<".toList), 1),
          (("<".toList, "/".toList), 1), (("/".toList, "w".toList), 1),
          (("w".toList, ">".toList), 1)] ∧
      ((BPETrainer.make seed_config id).seed_vocab aaa_corpus Vocab.empty).size = 6 ∧
      trained_rules ((BPETrainer.make seed_config id).train aaa_corpus Vocab.empty 9)
        = [("a".toList, "a".toList), ("a".toList, "a".toList), ("a".toList, "a".toList)] ∧
      trained_vocab_size ((BPETrainer.make seed_config id).train aaa_corpus Vocab.empty 9) = 7 ∧
      trained_vocab_size ((BPETrainer.make seed_config id).train aaa_corpus Vocab.empty 9) ≠
        ((BPETrainer.make seed_config id).seed_vocab aaa_corpus Vocab.empty).size +
          (trained_rules
            ((BPETrainer.make seed_config id).train aaa_corpus Vocab.empty 9)).length := by
  decide

/-! ## C5, C6: WordPiece longest match -/

theorem wp_chunk_eq_vocab_form (word : Str) (s e : Nat) :
    wp_chunk word s e = vocab_form word s e := by
  unfold wp_chunk vocab_form substr
  cases s with
  | zero => simp
  | succ s => simp

theorem find_chunk_spec (vocab : List (Str × Int)) (word : Str) (s : Nat) (stop : Nat) :
    (find_chunk vocab word s stop = none ∧
      ∀ e, s < e → e ≤ stop → (umFind vocab (vocab_form word s e)).isSome = false) ∨
    ∃ e, find_chunk vocab word s stop = some (e, vocab_form word s e) ∧ s < e ∧ e ≤ stop ∧
      (umFind vocab (vocab_form word s e)).isSome = true ∧
      ∀ e', e < e' → e' ≤ stop → (umFind vocab (vocab_form word s e')).isSome = false := by
  induction stop with
  | zero =>
    left
    exact ⟨rfl, fun e h1 h2 => by omega⟩
  | succ n ih =>
    by_cases hlt : s < n + 1
    · by_cases hin : (umFind vocab (vocab_form word s (n + 1))).isSome = true
      · right
        refine ⟨n + 1, ?_, hlt, le_refl _, hin, fun e' h1 h2 => by omega⟩
        simp [find_chunk, hlt, wp_chunk_eq_vocab_form, hin]
      · have hstep : find_chunk vocab word s (n + 1) = find_chunk vocab word s n := by
          simp [find_chunk, hlt, wp_chunk_eq_vocab_form, hin]
        have hin' : (umFind vocab (vocab_form word s (n + 1))).isSome = false := by
          simpa using hin
        rw [hstep]
        rcases ih with ⟨h1, h2⟩ | ⟨e, h1, h2, h3, h4, h5⟩
        · left
          refine ⟨h1, ?_⟩
          intro e he1 he2
          rcases Nat.lt_or_eq_of_le he2 with h | h
          · exact h2 e he1 (by omega)
          · rw [h]; exact hin'
        · right
          refine ⟨e, h1, h2, by omega, h4, ?_⟩
          intro e' he1 he2
          rcases Nat.lt_or_eq_of_le he2 with h | h
          · exact h5 e' he1 (by omega)
          · rw [h]; exact hin'
    · left
      refine ⟨by simp [find_chunk, hlt], fun e h1 h2 => by omega⟩

theorem tokenize_loop_spec (m : WordPieceModel) (word : Str) (fuel : Nat) :
    ∀ (s : Nat) (out : List Str), word.length - s ≤ fuel →
      ∃ pieces stop, LongestMatchRun m.vocab_ word s pieces stop ∧
        ((word.length ≤ stop ∧ tokenize_loop m word fuel s out = out ++ pieces) ∨
          (stop < word.length ∧ NoMatchAt m.vocab_ word stop ∧
            tokenize_loop m word fuel s out = out ++ pieces ++ [m.unk_token_])) := by
  induction fuel with
  | zero =>
    intro s out hfuel
    exact ⟨[], s, LongestMatchRun.done s, Or.inl ⟨by omega, by simp [tokenize_loop]⟩⟩
  | succ fuel ih =>
    intro s out hfuel
    by_cases hlt : s < word.length
    · rcases find_chunk_spec m.vocab_ word s word.length with ⟨h1, h2⟩ | ⟨e, h1, h2, h3, h4, h5⟩
      · refine ⟨[], s, LongestMatchRun.done s, Or.inr ⟨hlt, h2, ?_⟩⟩
        simp [tokenize_loop, hlt, h1]
      · obtain ⟨pieces, stop, hrun, hres⟩ := ih e (out ++ [vocab_form word s e]) (by omega)
        refine ⟨vocab_form word s e :: pieces, stop,
          LongestMatchRun.piece s e stop pieces h2 h3 h4 h5 hrun, ?_⟩
        have hstep : tokenize_loop m word (fuel + 1) s out =
            tokenize_loop m word fuel e (out ++ [vocab_form word s e]) := by
          simp [tokenize_loop, hlt, h1]
        rw [hstep]
        rcases hres with ⟨a, b⟩ | ⟨a, b, c⟩
        · exact Or.inl ⟨a, by simp [b]⟩
        · exact Or.inr ⟨a, b, by simp [c]⟩
    · exact ⟨[], s, LongestMatchRun.done s, Or.inl ⟨by omega, by simp [tokenize_loop, hlt]⟩⟩

theorem longestMatchRun_stop_le {vocab : List (Str × Int)} {word : Str} {s stop : Nat}
    {pieces : List Str} (h : LongestMatchRun vocab word s pieces stop) (hs : s ≤ word.length) :
    stop ≤ word.length := by
  induction h with
  | done s => exact hs
  | piece s e stop rest _ he _ _ _ ih => exact ih he

theorem tokenize_spec (m : WordPieceModel) (word : Str) :
    ∃ pieces stop, LongestMatchRun m.vocab_ word 0 pieces stop ∧
      ((stop = word.length ∧ m.tokenize word = pieces) ∨
        (stop < word.length ∧ NoMatchAt m.vocab_ word stop ∧
          m.tokenize word = pieces ++ [m.unk_token_])) := by
  by_cases hw : word = []
  · subst hw
    exact ⟨[], 0, LongestMatchRun.done 0, Or.inl ⟨rfl, by simp [WordPieceModel.tokenize]⟩⟩
  · obtain ⟨pieces, stop, hrun, hres⟩ := tokenize_loop_spec m word word.length 0 [] (by omega)
    have hstop : stop ≤ word.length := longestMatchRun_stop_le hrun (Nat.zero_le _)
    refine ⟨pieces, stop, hrun, ?_⟩
    rcases hres with ⟨a, b⟩ | ⟨a, b, c⟩
    · exact Or.inl ⟨by omega, by simpa [WordPieceModel.tokenize, hw] using b⟩
    · exact Or.inr ⟨a, b, by simpa [WordPieceModel.tokenize, hw] using c⟩

theorem longestMatchRun_unique {vocab : List (Str × Int)} {word : Str} {s stop1 stop2 : Nat}
    {p1 p2 : List Str} (h1 : LongestMatchRun vocab word s p1 stop1)
    (h2 : LongestMatchRun vocab word s p2 stop2)
    (t1 : word.length ≤ stop1 ∨ NoMatchAt vocab word stop1)
    (t2 : word.length ≤ stop2 ∨ NoMatchAt vocab word stop2) : p1 = p2 ∧ stop1 = stop2 := by
  induction h1 generalizing p2 stop2 with
  | done s =>
    cases h2 with
    | done => exact ⟨rfl, rfl⟩
    | piece _ e _ rest hlt hle hin _ _ =>
      rcases t1 with h | h
      · omega
      · have := h e hlt hle
        rw [hin] at this
        cases this
  | piece s e stop rest hlt hle hin hmax _ ih =>
    cases h2 with
    | done =>
      rcases t2 with h | h
      · omega
      · have := h e hlt hle
        rw [hin] at this
        cases this
    | piece _ e' _ rest' hlt' hle' hin' hmax' hrun' =>
      have he : e = e' := by
        rcases Nat.lt_trichotomy e e' with h | h | h
        · have := hmax e' h hle'
          rw [hin'] at this
          cases this
        · exact h
        · have := hmax' e h hle
          rw [hin] at this
          cases this
      subst he
      obtain ⟨hp, hs⟩ := ih hrun' t1 t2
      exact ⟨by rw [hp], hs⟩

/-- C5: for every vocabulary and every word, the pieces that `WordPieceModel::tokenize` emits
before any unknown token form a run of longest matches from the start of the word: each piece
is the longest prefix of the not yet consumed remainder whose vocabulary form (with `##` in
front when it does not start the word) is in the vocabulary, and the pieces follow one
another left to right. The run either consumes the whole word, or stops where nothing
matches, and then the unknown token follows. With `{un, ##aff, ##able}` the word `unaffable`
yields `[un, ##aff, ##able]`. -/
theorem wordpiece_tokenize_longest_match :
    (∀ (m : WordPieceModel) (word : Str),
      ∃ pieces stop, LongestMatchRun m.vocab_ word 0 pieces stop ∧
        ((stop = word.length ∧ m.tokenize word = pieces) ∨
          (stop < word.length ∧ NoMatchAt m.vocab_ word stop ∧
            m.tokenize word = pieces ++ [m.unk_token_]))) ∧
      affable_model.tokenize "unaffable".toList =
        ["un".toList, "##aff".toList, "##able".toList] :=
  ⟨tokenize_spec, by decide⟩

/-- C6 as stated fails: with the vocabulary `{un}` and the word `unx` the scan matches `un`,
finds nothing at position 2, and `tokenize` returns `[un, [UNK]]`: the matched piece is
kept. -/
theorem wordpiece_unknown_counterexample :
    LongestMatchRun un_model.vocab_ "unx".toList 0 ["un".toList] 2 ∧
      (umFind un_model.vocab_ (vocab_form "unx".toList 2 3)).isSome = false ∧
      un_model.tokenize "unx".toList = ["un".toList, "[UNK]".toList] ∧
      un_model.tokenize "unx".toList ≠ [un_model.unk_token_] := by
  refine ⟨?_, by decide, by decide, by decide⟩
  refine LongestMatchRun.piece 0 2 2 [] (by decide) (by decide) (by decide) ?_
    (LongestMatchRun.done 2)
  intro e' h1 h2
  have he : e' = 3 := by
    have : "unx".toList.length = 3 := by decide
    omega
  subst he
  decide

/-- C6, amended: for every vocabulary and word, if the longest-match scan reaches a position
at which no prefix of the remainder is in the vocabulary, `tokenize` returns the pieces
matched so far followed by exactly one unknown token. -/
theorem wordpiece_unknown_after_pieces (m : WordPieceModel) (word : Str) (pieces : List Str)
    (stop : Nat) (hrun : LongestMatchRun m.vocab_ word 0 pieces stop)
    (hstop : stop < word.length) (hno : NoMatchAt m.vocab_ word stop) :
    m.tokenize word = pieces ++ [m.unk_token_] := by
  obtain ⟨pieces', stop', hrun', hres⟩ := tokenize_spec m word
  rcases hres with ⟨a, b⟩ | ⟨a, b, c⟩
  · obtain ⟨_, hs⟩ := longestMatchRun_unique hrun hrun' (Or.inr hno) (Or.inl (by omega))
    omega
  · obtain ⟨hp, _⟩ := longestMatchRun_unique hrun hrun' (Or.inr hno) (Or.inr b)
    rw [c, hp]

theorem wordpiece_unknown_after_pieces_witness :
    LongestMatchRun un_model.vocab_ "unx".toList 0 ["un".toList] 2 ∧
      2 < "unx".toList.length ∧ NoMatchAt un_model.vocab_ "unx".toList 2 ∧
      un_model.tokenize "unx".toList = ["un".toList] ++ [un_model.unk_token_] := by
  have hlen : "unx".toList.length = 3 := by decide
  have hmax : ∀ e', 2 < e' → e' ≤ "unx".toList.length →
      (umFind un_model.vocab_ (vocab_form "unx".toList 0 e')).isSome = false := by
    intro e' h1 h2
    have he : e' = 3 := by omega
    subst he
    decide
  have hno : NoMatchAt un_model.vocab_ "unx".toList 2 := by
    intro e h1 h2
    have he : e = 3 := by omega
    subst he
    decide
  have hrun : LongestMatchRun un_model.vocab_ "unx".toList 0 ["un".toList] 2 :=
    LongestMatchRun.piece 0 2 2 [] (by decide) (by decide) (by decide) hmax
      (LongestMatchRun.done 2)
  exact ⟨hrun, by decide, hno,
    wordpiece_unknown_after_pieces un_model "unx".toList ["un".toList] 2 hrun (by decide) hno⟩

/-! ## C7: the segmentation of `viterbi_segment` -/

theorem viterbi_scan_spec (vocab : Vocab) (text : Str) :
    ∀ (result : List Str) (cur : Str),
      (∀ k, 0 < k → k ≤ cur.length → vocab.has_token (cur.take k) = false) →
      ∃ segs rest, ShortestMatchRun vocab (cur ++ text) segs rest ∧
        viterbi_scan vocab text (result, cur) = (result ++ segs, rest) := by
  induction text with
  | nil =>
    intro result cur hcur
    exact ⟨[], cur, by simpa using ShortestMatchRun.done cur hcur, by simp [viterbi_scan]⟩
  | cons c text ih =>
    intro result cur hcur
    have hpre : ∀ k, 0 < k → k < (cur ++ [c]).length →
        vocab.has_token ((cur ++ [c]).take k) = false := by
      intro k h1 h2
      have hk : k ≤ cur.length := by
        simp at h2
        omega
      rw [List.take_append_of_le_length hk]
      exact hcur k h1 hk
    by_cases hin : vocab.has_token (cur ++ [c]) = true
    · obtain ⟨segs, rest, hrun, hscan⟩ := ih (result ++ [cur ++ [c]]) []
        (fun k h1 h2 => by simp at h2; omega)
      refine ⟨(cur ++ [c]) :: segs, rest, ?_, ?_⟩
      · have := ShortestMatchRun.cut (cur ++ [c]) text segs rest (by simp) hin hpre
          (by simpa using hrun)
        simpa using this
      · simp [viterbi_scan, hin, hscan]
    · have hin' : vocab.has_token (cur ++ [c]) = false := by simpa using hin
      obtain ⟨segs, rest, hrun, hscan⟩ := ih result (cur ++ [c]) (by
        intro k h1 h2
        rcases Nat.lt_or_eq_of_le h2 with h | h
        · exact hpre k h1 h
        · rw [h, List.take_length]
          exact hin')
      refine ⟨segs, rest, by simpa using hrun, ?_⟩
      simp [viterbi_scan, hin', hscan]

theorem shortestMatchRun_flatten {vocab : Vocab} {text rest : Str} {segs : List Str}
    (h : ShortestMatchRun vocab text segs rest) : segs.flatten ++ rest = text := by
  induction h with
  | done rest _ => simp
  | cut seg tail segs rest _ _ _ _ ih => simp [ih]

theorem viterbi_segment_eq (t : UnigramTokenizer) (text : Str) :
    ∃ segs rest, ShortestMatchRun t.vocab_ text segs rest ∧
      t.viterbi_segment text = segs ++ (if rest = [] then [] else [rest]) := by
  obtain ⟨segs, rest, hrun, hscan⟩ := viterbi_scan_spec t.vocab_ text [] []
    (fun k h1 h2 => by simp at h2; omega)
  simp only [List.nil_append] at hrun hscan
  refine ⟨segs, rest, hrun, ?_⟩
  have hflat := shortestMatchRun_flatten hrun
  by_cases ht : text = []
  · subst ht
    simp only [viterbi_scan, Prod.mk.injEq] at hscan
    simp [UnigramTokenizer.viterbi_segment, ← hscan.1, ← hscan.2]
  · unfold UnigramTokenizer.viterbi_segment
    simp only [ht, if_false, hscan]
    by_cases hr : rest = []
    · subst hr
      have hs : segs ≠ [] := by
        intro hs
        subst hs
        simp at hflat
        exact ht hflat
      simp [hs]
    · simp [hr]

/-- C7 as stated fails: for the vocabulary `{a, b, ab, c}` with the scores of the scenario
and the input `abc`, `viterbi_segment` returns `[a, b, c]` (total score -3), not the split
`[ab, c]` of higher total score -5/2. -/
theorem viterbi_segment_counterexample :
    UnigramTokenizer.viterbi_segment { vocab_ := abc_vocab, scores_ := abc_scores } "abc".toList
        = ["a".toList, "b".toList, "c".toList] ∧
      UnigramTokenizer.viterbi_segment { vocab_ := abc_vocab, scores_ := abc_scores } "abc".toList
        ≠ ["ab".toList, "c".toList] ∧
      total_score abc_scores ["a".toList, "b".toList, "c".toList] = some (-3) ∧
      total_score abc_scores ["ab".toList, "c".toList] = some (-5 / 2) := by
  refine ⟨by decide, by decide, ?_, ?_⟩
  · norm_num [total_score, abc_scores, umFind]
  · norm_num [total_score, abc_scores, umFind]

/-- C7, amended: `viterbi_segment` does not read the scores. For every vocabulary and input
it returns the greedy shortest-match segmentation: scanning left to right it cuts a segment as
soon as the text read since the last cut is a vocabulary entry, and a tail in which no entry
is found is emitted as one last segment; the segments concatenate to the input. For the
vocabulary `{a, b, ab, c}` and the input `abc` it returns `[a, b, c]`. -/
theorem viterbi_segment_shortest_match :
    (∀ (t : UnigramTokenizer) (text : Str),
      ∃ segs rest, ShortestMatchRun t.vocab_ text segs rest ∧
        t.viterbi_segment text = segs ++ (if rest = [] then [] else [rest]) ∧
        (t.viterbi_segment text).flatten = text ∧
        ∀ scores, UnigramTokenizer.viterbi_segment { vocab_ := t.vocab_, scores_ := scores } text
          = t.viterbi_segment text) ∧
      UnigramTokenizer.viterbi_segment { vocab_ := abc_vocab, scores_ := abc_scores }
        "abc".toList = ["a".toList, "b".toList, "c".toList] := by
  refine ⟨?_, by decide⟩
  intro t text
  obtain ⟨segs, rest, hrun, hres⟩ := viterbi_segment_eq t text
  refine ⟨segs, rest, hrun, hres, ?_, fun scores => rfl⟩
  rw [hres]
  have hflat := shortestMatchRun_flatten hrun
  by_cases hr : rest = []
  · subst hr
    simpa using hflat
  · simpa [hr] using hflat

/-! ## C8: the words of the pre-tokenizer in `TokenizerAdvanced::encode` -/

theorem foldl_append_eq_flatten (ws : List Str) (acc : Str) :
    ws.foldl (fun combined_text w => combined_text ++ w) acc = acc ++ ws.flatten := by
  induction ws generalizing acc with
  | nil => simp
  | cons w ws ih => simp [ih]

theorem encode_ids_eq (t : TokenizerAdvanced) (impl : TokenizerBase) (text : Str) :
    t.encode_ids impl text = impl.encode_to_ids (t.pre_tokens text).flatten := by
  unfold TokenizerAdvanced.encode_ids TokenizerAdvanced.pre_tokens
  cases t.pre_tokenizer_ with
  | none => simp
  | some pre =>
    simp only
    match pre (t.normalizer_ text) with
    | [] => simp
    | [w] => simp
    | w1 :: w2 :: ws => simp [foldl_append_eq_flatten]

set_option maxRecDepth 100000 in
/-- C8 as stated fails: in the BERT scenario the pre-tokenizer returns the two words
`unaffable` and `doing`, whose ids one after the other are those of
`un, ##aff, ##able, do, ##ing`; `encode` encodes the concatenated text `unaffabledoing` as
one word and returns the ids of `[CLS], un, ##aff, ##able, [UNK], [SEP]`. -/
theorem encode_bert_scenario_counterexample :
    bert_pipeline.pre_tokens "unaffable doing".toList = ["unaffable".toList, "doing".toList] ∧
      ids_per_word bert_impl (bert_pipeline.pre_tokens "unaffable doing".toList)
        = Except.ok [3, 4, 5, 6, 7] ∧
      bert_pipeline.encode_ids bert_impl "unaffable doing".toList = Except.ok [3, 4, 5, 0] ∧
      encoded_ids (bert_pipeline.encode "unaffable doing".toList TokenizationOptions.default)
        = Except.ok [[2, 3, 4, 5, 0, 1]] ∧
      encoded_ids (bert_pipeline.encode "unaffable doing".toList TokenizationOptions.default)
        ≠ Except.ok [(["[CLS]", "un", "##aff", "##able", "do", "##ing", "[SEP]"].map
            fun s => bert_pipeline.vocab_.get_token_id s.toList)] := by
  decide

/-- C8, amended: `TokenizerAdvanced::encode` does not segment the words of the pre-tokenizer
one by one. For every pipeline and text, the ids before post-processing are the ids that the
active model returns for the concatenation, without separator, of the words returned by the
pre-tokenizer, encoded as one text; the post-processor, when there is one, is applied to
them, and the result is the single row of `input_ids`. -/
theorem encode_concatenates_pre_tokens (t : TokenizerAdvanced) (impl : TokenizerBase)
    (text : Str) (options : TokenizationOptions) (himpl : t.tokenizer_impl_ = some impl) :
    encoded_ids (t.encode text options) =
      match impl.encode_to_ids (t.pre_tokens text).flatten with
      | Except.error e => Except.error e
      | Except.ok ids =>
        match t.post_processor_ with
        | none => Except.ok [ids]
        | some post =>
          match post ids with
          | Except.error e => Except.error e
          | Except.ok processed => Except.ok [processed] := by
  unfold TokenizerAdvanced.encode
  rw [himpl]
  simp only [encode_ids_eq]
  cases impl.encode_to_ids (t.pre_tokens text).flatten with
  | error e => rfl
  | ok ids =>
    cases t.post_processor_ with
    | none => rfl
    | some post =>
      simp only
      cases post ids with
      | error e => rfl
      | ok processed => rfl

set_option maxRecDepth 100000 in
theorem encode_concatenates_pre_tokens_witness :
    bert_pipeline.tokenizer_impl_ = some bert_impl ∧
      encoded_ids (bert_pipeline.encode "unaffable doing".toList TokenizationOptions.default) =
        Except.ok [(["[CLS]", "un", "##aff", "##able", "[UNK]", "[SEP]"].map
          fun s => bert_pipeline.vocab_.get_token_id s.toList)] :=
  ⟨rfl, (encode_concatenates_pre_tokens bert_pipeline bert_impl "unaffable doing".toList
    TokenizationOptions.default rfl).trans (by decide)⟩

/-! ## C9, C10: the two maps of a vocabulary -/

theorem umSet_length_of_absent {K V : Type} [DecidableEq K] (m : List (K × V)) (k : K) (v : V)
    (h : umFind m k = none) : (umSet m k v).length = m.length + 1 := by
  induction m with
  | nil => simp [umSet]
  | cons e m ih =>
    obtain ⟨k0, v0⟩ := e
    by_cases hk : k0 = k
    · simp [umFind, hk] at h
    · simp only [umFind, hk, if_false] at h
      simp [umSet, hk, ih h]

theorem inverse_umSet (T : List (Str × Int)) (I : List (Int × Str)) (tok : Str) (a : Int)
    (hinv : ∀ t i, umFind T t = some i ↔ umFind I i = some t)
    (hT : umFind T tok = none) (hI : umFind I a = none) :
    ∀ t i, umFind (umSet T tok a) t = some i ↔ umFind (umSet I a tok) i = some t := by
  intro t i
  rw [umFind_umSet, umFind_umSet]
  by_cases h1 : tok = t
  · by_cases h2 : a = i
    · simp [h1, h2]
    · subst h1
      simp only [if_true, h2, if_false]
      constructor
      · intro h
        exact absurd (Option.some.inj h) h2
      · intro h
        have := (hinv tok i).mpr h
        rw [hT] at this
        cases this
  · by_cases h2 : a = i
    · subst h2
      simp only [h1, if_false, if_true]
      constructor
      · intro h
        have := (hinv t a).mp h
        rw [hI] at this
        cases this
      · intro h
        exact absurd (Option.some.inj h) h1
    · simp only [h1, h2, if_false]
      exact hinv t i

theorem Vocab.next_id_absent (v : Vocab) (hb : v.IdsBelowNext) (hinv : v.Inverse) :
    umFind v.id_to_token_ v.next_id_ = none := by
  cases h : umFind v.id_to_token_ v.next_id_ with
  | none => rfl
  | some t =>
    have := (hb.2 t v.next_id_ ((hinv t v.next_id_).mpr h)).2
    omega

theorem Vocab.inverse_add_token (v : Vocab) (token : Str) (id : Int) (hb : v.IdsBelowNext)
    (hinv : v.Inverse)
    (hfresh : id < 0 ∨ v.has_id id = false ∨ token = [] ∨ v.has_token token = true) :
    (v.add_token token id).Inverse := by
  unfold Vocab.add_token
  by_cases hc : token = [] ∨ v.has_token token = true
  · simpa [hc] using hinv
  · simp only [hc, if_false]
    have hT : umFind v.token_to_id_ token = none := by
      have : ¬ v.has_token token = true := fun h => hc (Or.inr h)
      simpa [Vocab.has_token] using this
    have hI : umFind v.id_to_token_ (if id < 0 then v.next_id_ else id) = none := by
      by_cases hid : id < 0
      · simp only [hid, if_true]
        exact v.next_id_absent hb hinv
      · simp only [hid, if_false]
        rcases hfresh with h | h | h | h
        · exact absurd h hid
        · simpa [Vocab.has_id] using h
        · exact absurd (Or.inl h) hc
        · exact absurd (Or.inr h) hc
    exact inverse_umSet _ _ _ _ hinv hT hI

theorem Vocab.inverse_add_special_token (v : Vocab) (token : Str) (type : SpecialTokenType)
    (hb : v.IdsBelowNext) (hinv : v.Inverse) : (v.add_special_token token type).Inverse := by
  unfold Vocab.add_special_token
  by_cases hc : token = [] ∨ v.has_token token = true
  · simpa [hc] using hinv
  · simp only [hc, if_false]
    have hT : umFind v.token_to_id_ token = none := by
      have : ¬ v.has_token token = true := fun h => hc (Or.inr h)
      simpa [Vocab.has_token] using this
    exact inverse_umSet _ _ _ _ hinv hT (v.next_id_absent hb hinv)

theorem Vocab.ReachableFresh.reachable {v : Vocab} (h : v.ReachableFresh) : v.Reachable := by
  induction h with
  | empty => exact Vocab.Reachable.empty
  | add_token v token id _ _ hr ih => exact Vocab.Reachable.add_token v token id ih hr
  | add_special_token v token type _ hr ih =>
    exact Vocab.Reachable.add_special_token v token type ih hr
  | clear v _ ih => exact Vocab.Reachable.clear v ih

theorem Vocab.ReachableFresh.inverse {v : Vocab} (h : v.ReachableFresh) : v.Inverse := by
  induction h with
  | empty => intro t i; simp [Vocab.empty, umFind]
  | add_token v token id hv hfresh _ ih =>
    exact Vocab.inverse_add_token v token id hv.reachable.idsBelowNext ih hfresh
  | add_special_token v token type hv _ ih =>
    exact Vocab.inverse_add_special_token v token type hv.reachable.idsBelowNext ih
  | clear v _ _ => intro t i; simp [Vocab.clear, Vocab.empty, umFind]

set_option maxRecDepth 100000 in
/-- C9 as stated fails in two ways. An explicit id may be taken: after `add_token("a")` and
`add_token("b", 0)` the text `a` still has the id 0, but the id 0 now names the text `b`. And
`next_id_` may overflow: after `add_token("a", 10)`, `add_token("x", INT_MAX)` and
`add_token("b", 5)`, where no explicit id is assigned when its call is made, five calls of
`add_token` without an explicit id assign the ids 6 to 10, so the text `a` still has the id
10, but the id 10 now names the text `g`. -/
theorem vocab_explicit_id_clash_counterexample :
    (clash_vocab.Reachable ∧ clash_vocab.get_token_id "a".toList = 0 ∧
      clash_vocab.get_token 0 = "b".toList ∧ clash_vocab.get_token 0 ≠ "a".toList) ∧
      Vocab.empty.has_id 10 = false ∧
      (Vocab.empty.run (overflow_ops.take 1)).has_id 2147483647 = false ∧
      (Vocab.empty.run (overflow_ops.take 2)).has_id 5 = false ∧
      (Vocab.empty.run (overflow_ops.take 2)).next_id_ = -2147483648 ∧
      (Vocab.empty.run (overflow_then_four ++ [VocabOp.add_token "g".toList (-1)])).get_token_id
        "a".toList = 10 ∧
      (Vocab.empty.run (overflow_then_four ++ [VocabOp.add_token "g".toList (-1)])).get_token 10
        = "g".toList := by
  refine ⟨⟨?_, ?_, ?_, ?_⟩, ?_, ?_, ?_, ?_, ?_, ?_⟩
  · exact Vocab.Reachable.add_token _ _ _
      (Vocab.Reachable.add_token _ _ _ Vocab.Reachable.empty (by decide)) (by decide)
  all_goals decide

/-- C9, amended: in every vocabulary reachable from the empty one by `add_token`,
`add_special_token` and `clear`, provided no absent non-empty text is added under an explicit
id that is already assigned and no call assigns the id `INT_MAX`, the two lookup directions
are mutually inverse: `get_token_id(t) = i` with `i >= 0` implies `get_token(i) = t`, and
`get_token(i) = t` with `t` non-empty implies `get_token_id(t) = i`. -/
theorem vocab_lookups_inverse (v : Vocab) (hv : v.ReachableFresh) :
    (∀ t i, v.get_token_id t = i → 0 ≤ i → v.get_token i = t) ∧
      (∀ i t, v.get_token i = t → t ≠ [] → v.get_token_id t = i) := by
  have hinv := hv.inverse
  constructor
  · intro t i hid hi
    unfold Vocab.get_token_id at hid
    cases hf : umFind v.token_to_id_ t with
    | none =>
      rw [hf] at hid
      simp at hid
      omega
    | some j =>
      rw [hf] at hid
      simp at hid
      subst hid
      simp [Vocab.get_token, (hinv t j).mp hf]
  · intro i t htok hne
    unfold Vocab.get_token at htok
    cases hf : umFind v.id_to_token_ i with
    | none =>
      rw [hf] at htok
      simp at htok
      exact absurd htok hne
    | some s =>
      rw [hf] at htok
      simp at htok
      subst htok
      simp [Vocab.get_token_id, (hinv s i).mpr hf]

theorem small_vocab_reachableFresh : small_vocab.ReachableFresh :=
  Vocab.ReachableFresh.add_token _ _ _
    (Vocab.ReachableFresh.add_token _ _ _
      (Vocab.ReachableFresh.add_special_token _ _ _ Vocab.ReachableFresh.empty (by decide))
      (Or.inl (by decide)) (by decide))
    (Or.inl (by decide)) (by decide)

theorem vocab_lookups_inverse_witness :
    small_vocab.ReachableFresh ∧
      (∀ t i, small_vocab.get_token_id t = i → 0 ≤ i → small_vocab.get_token i = t) ∧
      (∀ i t, small_vocab.get_token i = t → t ≠ [] → small_vocab.get_token_id t = i) :=
  ⟨small_vocab_reachableFresh, vocab_lookups_inverse small_vocab small_vocab_reachableFresh⟩

set_option maxRecDepth 100000 in
/-- C10 as stated fails once `next_id_` has overflowed: after `add_token("a", 10)`,
`add_token("x", INT_MAX)`, `add_token("b", 5)` and four calls without an explicit id,
`next_id_` is 10, the id that the text `a` holds; `add_token("t")` gives the absent text `t`
the id 10 as well, and the id 10 no longer names `a`. -/
theorem add_token_default_overflow_counterexample :
    (Vocab.empty.run overflow_then_four).has_token "t".toList = false ∧
      (Vocab.empty.run overflow_then_four).next_id_ = 10 ∧
      (Vocab.empty.run overflow_then_four).get_token_id "a".toList = 10 ∧
      ((Vocab.empty.run overflow_then_four).add_token "t".toList (-1)).get_token_id "t".toList
        = 10 ∧
      ((Vocab.empty.run overflow_then_four).add_token "t".toList (-1)).get_token_id "a".toList
        = 10 ∧
      ((Vocab.empty.run overflow_then_four).add_token "t".toList (-1)).get_token 10
        = "t".toList := by
  refine ⟨?_, ?_, ?_, ?_, ?_, ?_⟩ <;> decide

/-- C10, amended: for every vocabulary and non-empty text `t`: if `t` is present,
`add_token(t, id)` leaves the whole state unchanged, for the default and for every explicit
`id`; if `t` is absent, after `add_token(t)` the text `t` has the id that was `next_id`, the
size has grown by one and every other text has the id it had. In a vocabulary built from the
empty one by calls none of which assigns the id `INT_MAX`, no text had the id `next_id`
before and no other text has it afterwards. -/
theorem add_token_default_id (v : Vocab) (t : Str) (ht : t ≠ []) :
    (v.has_token t = true → ∀ id, v.add_token t id = v) ∧
      (v.has_token t = false →
        (v.add_token t (-1)).get_token_id t = v.next_id_ ∧
        (v.add_token t (-1)).size = v.size + 1 ∧
        (∀ t', t' ≠ t → (v.add_token t (-1)).get_token_id t' = v.get_token_id t')) ∧
      (v.Reachable → v.has_token t = false →
        (∀ t', v.get_token_id t' ≠ v.next_id_) ∧
        (∀ t', t' ≠ t → (v.add_token t (-1)).get_token_id t' ≠ v.next_id_)) := by
  have hstep : v.has_token t = false →
      (v.add_token t (-1)).token_to_id_ = umSet v.token_to_id_ t v.next_id_ := by
    intro habs
    simp [Vocab.add_token, ht, habs]
  have hother : v.has_token t = false →
      ∀ t', t' ≠ t → (v.add_token t (-1)).get_token_id t' = v.get_token_id t' := by
    intro habs t' hne
    have : ¬ t = t' := fun e => hne e.symm
    simp [Vocab.get_token_id, hstep habs, umFind_umSet, this]
  refine ⟨?_, ?_, ?_⟩
  · intro hpres id
    simp [Vocab.add_token, hpres]
  · intro habs
    have hT : umFind v.token_to_id_ t = none := by
      simpa [Vocab.has_token] using habs
    refine ⟨?_, ?_, hother habs⟩
    · simp [Vocab.get_token_id, hstep habs, umFind_umSet]
    · simp [Vocab.size, hstep habs, umSet_length_of_absent _ _ _ hT]
  · intro hv habs
    have hb := hv.idsBelowNext
    have hold : ∀ t', v.get_token_id t' ≠ v.next_id_ := by
      intro t'
      unfold Vocab.get_token_id
      cases hf : umFind v.token_to_id_ t' with
      | none =>
        simp
        have := hb.1
        omega
      | some j =>
        simp
        have := (hb.2 t' j hf).2
        omega
    refine ⟨hold, ?_⟩
    intro t' hne
    rw [hother habs t' hne]
    exact hold t'

theorem add_token_default_id_witness :
    (small_vocab.add_token "zz".toList (-1)).get_token_id "zz".toList = small_vocab.next_id_ ∧
      (small_vocab.add_token "zz".toList (-1)).size = small_vocab.size + 1 ∧
      (∀ id, small_vocab.add_token "a".toList id = small_vocab) ∧
      ∀ t', small_vocab.get_token_id t' ≠ small_vocab.next_id_ :=
  ⟨((add_token_default_id small_vocab "zz".toList (by decide)).2.1 (by decide)).1,
    ((add_token_default_id small_vocab "zz".toList (by decide)).2.1 (by decide)).2.1,
    (add_token_default_id small_vocab "a".toList (by decide)).1 (by decide),
    ((add_token_default_id small_vocab "zz".toList (by decide)).2.2 small_vocab_reachable
      (by decide)).1⟩
/-! ## C11: `add_token` with an explicit id that is taken -/

set_option maxRecDepth 100000 in
/-- C11 as stated fails: in the vocabulary that holds `a` under the id 0, `add_token("b", 0)`
returns normally and changes the vocabulary: `b` is added under the id 0 and the id 0 now
names `b`. What the call does to `next_id` and which id it assigns depends on an overflow of
`next_id_`: after `add_token("a", 10)` and `add_token("x", INT_MAX)`, where `next_id_` is
`INT_MIN`, `add_token("t", 10)` moves `next_id_` to 11; and after `add_token("x", INT_MAX)` and
`add_token("a")`, where `a` holds the id `INT_MIN`, `add_token("t", INT_MIN)` reads the negative
id as no id and gives `t` the id `INT_MIN + 1`. -/
theorem add_token_taken_id_counterexample :
    (umFind plain_a_vocab.token_to_id_ "a".toList = some 0 ∧
      plain_a_vocab.has_token "b".toList = false ∧
      plain_a_vocab.add_token "b".toList 0 ≠ plain_a_vocab ∧
      (plain_a_vocab.add_token "b".toList 0).get_token_id "b".toList = 0 ∧
      (plain_a_vocab.add_token "b".toList 0).get_token 0 = "b".toList) ∧
      (Vocab.empty.run (overflow_ops.take 2)).get_token_id "a".toList = 10 ∧
      (Vocab.empty.run (overflow_ops.take 2)).next_id_ = -2147483648 ∧
      ((Vocab.empty.run (overflow_ops.take 2)).add_token "t".toList 10).next_id_ = 11 ∧
      (Vocab.empty.run (negative_a_ops.drop 1)).get_token_id "a".toList = -2147483648 ∧
      ((Vocab.empty.run (negative_a_ops.drop 1)).add_token "t".toList
        (-2147483648)).get_token_id "t".toList = -2147483647 := by
  refine ⟨?_, ?_, ?_, ?_, ?_, ?_⟩ <;> decide

/-- C11, amended: for every vocabulary in which the id `i`, not negative, is assigned to a
text `s`, adding an absent, non-empty text `t` with the explicit id `i` does not fail: `t` is
added under the id `i`, the id `i` now names `t`, `s` keeps the id `i` and the size grows by
one. In a vocabulary built from the empty one by calls none of which assigns the id
`INT_MAX`, every assigned id is not negative and `next_id` stays as it was. -/
theorem add_token_taken_id (v : Vocab) (s t : Str) (i : Int)
    (hs : umFind v.token_to_id_ s = some i) (ht : t ≠ []) (habs : v.has_token t = false) :
    (0 ≤ i →
      (v.add_token t i).get_token_id t = i ∧ (v.add_token t i).get_token_id s = i ∧
        (v.add_token t i).get_token i = t) ∧
      (v.add_token t i).size = v.size + 1 ∧ v.add_token t i ≠ v ∧
      (v.Reachable → 0 ≤ i ∧ (v.add_token t i).next_id_ = v.next_id_) := by
  have hT : umFind v.token_to_id_ t = none := by simpa [Vocab.has_token] using habs
  have hst : ¬ t = s := by
    intro e
    rw [e, hs] at hT
    cases hT
  have hsize : (v.add_token t i).size = v.size + 1 := by
    simp [Vocab.add_token, ht, habs, Vocab.size, umSet_length_of_absent _ _ _ hT]
  refine ⟨?_, hsize, ?_, ?_⟩
  · intro hi0
    have hneg : ¬ i < 0 := by omega
    refine ⟨?_, ?_, ?_⟩
    · simp [Vocab.add_token, ht, habs, hneg, Vocab.get_token_id, umFind_umSet]
    · simp [Vocab.add_token, ht, habs, hneg, Vocab.get_token_id, umFind_umSet, hst, hs]
    · simp [Vocab.add_token, ht, habs, hneg, Vocab.get_token, umFind_umSet]
  · intro e
    rw [e] at hsize
    omega
  · intro hv
    obtain ⟨hi0, hlt⟩ := hv.idsBelowNext.2 s i hs
    have hneg : ¬ i < 0 := by omega
    have : ¬ v.next_id_ ≤ i := by omega
    exact ⟨hi0, by simp [Vocab.add_token, ht, habs, hneg, this]⟩

theorem add_token_taken_id_witness :
    (plain_a_vocab.add_token "b".toList 0).get_token_id "b".toList = 0 ∧
      (plain_a_vocab.add_token "b".toList 0).get_token_id "a".toList = 0 ∧
      (plain_a_vocab.add_token "b".toList 0).get_token 0 = "b".toList ∧
      (plain_a_vocab.add_token "b".toList 0).size = plain_a_vocab.size + 1 ∧
      plain_a_vocab.add_token "b".toList 0 ≠ plain_a_vocab ∧
      (plain_a_vocab.add_token "b".toList 0).next_id_ = plain_a_vocab.next_id_ :=
  ⟨((add_token_taken_id plain_a_vocab "a".toList "b".toList 0 (by decide) (by decide)
      (by decide)).1 (by decide)).1,
    ((add_token_taken_id plain_a_vocab "a".toList "b".toList 0 (by decide) (by decide)
      (by decide)).1 (by decide)).2.1,
    ((add_token_taken_id plain_a_vocab "a".toList "b".toList 0 (by decide) (by decide)
      (by decide)).1 (by decide)).2.2,
    (add_token_taken_id plain_a_vocab "a".toList "b".toList 0 (by decide) (by decide)
      (by decide)).2.1,
    (add_token_taken_id plain_a_vocab "a".toList "b".toList 0 (by decide) (by decide)
      (by decide)).2.2.1,
    ((add_token_taken_id plain_a_vocab "a".toList "b".toList 0 (by decide) (by decide)
      (by decide)).2.2.2
      (Vocab.Reachable.add_token _ _ _ Vocab.Reachable.empty (by decide))).2⟩

/-! ## C12: `add_special_token` -/

/-- C12 as stated fails for a text that is already present: after `add_token("a")` the call
`add_special_token("a", UNK)` changes nothing; `a` is not special and the role `UNK` has no
id, while `a` has the id 0. -/
theorem add_special_token_present_counterexample :
    plain_a_vocab.add_special_token "a".toList SpecialTokenType.UNK = plain_a_vocab ∧
      (plain_a_vocab.add_special_token "a".toList SpecialTokenType.UNK).is_special_token
        "a".toList = false ∧
      (plain_a_vocab.add_special_token "a".toList SpecialTokenType.UNK).get_special_token_id
        SpecialTokenType.UNK = -1 ∧
      (plain_a_vocab.add_special_token "a".toList SpecialTokenType.UNK).get_token_id
        "a".toList = 0 := by
  decide

/-- C12, amended: for every vocabulary, non-empty text `t` and role `r`, after
`add_special_token(t, r)` the text `t` is in the vocabulary. When `t` was absent before the
call, `is_special_token(t)` is true and `get_special_token_id(r)` equals `get_token_id(t)`;
when `t` was already present, the call leaves the vocabulary as it was. -/
theorem add_special_token_effect (v : Vocab) (t : Str) (r : SpecialTokenType) (ht : t ≠ []) :
    (v.add_special_token t r).has_token t = true ∧
      (v.has_token t = false →
        (v.add_special_token t r).is_special_token t = true ∧
        (v.add_special_token t r).get_special_token_id r =
          (v.add_special_token t r).get_token_id t) ∧
      (v.has_token t = true → v.add_special_token t r = v) := by
  by_cases hp : v.has_token t = true
  · have hsame : v.add_special_token t r = v := by simp [Vocab.add_special_token, hp]
    refine ⟨by rw [hsame]; exact hp, fun h => ?_, fun _ => hsame⟩
    rw [hp] at h
    cases h
  · have habs : v.has_token t = false := by simpa using hp
    have hstep : v.add_special_token t r =
        { token_to_id_ := umSet v.token_to_id_ t v.next_id_
          id_to_token_ := umSet v.id_to_token_ v.next_id_ t
          special_token_ids_ := umSet v.special_token_ids_ r v.next_id_
          special_ids_set_ := usInsert v.special_ids_set_ v.next_id_
          next_id_ := int_wrap (v.next_id_ + 1) } := by
      simp [Vocab.add_special_token, ht, habs]
    have hmem : v.next_id_ ∈ usInsert v.special_ids_set_ v.next_id_ := by
      unfold usInsert
      by_cases hm : v.next_id_ ∈ v.special_ids_set_ <;> simp [hm]
    rw [hstep]
    refine ⟨?_, fun _ => ⟨?_, ?_⟩, fun h => absurd h hp⟩
    · simp [Vocab.has_token, umFind_umSet]
    · simp [Vocab.is_special_token, umFind_umSet, hmem]
    · simp [Vocab.get_special_token_id, Vocab.get_token_id, umFind_umSet]

theorem add_special_token_effect_witness :
    (plain_a_vocab.add_special_token "[UNK]".toList SpecialTokenType.UNK).has_token
        "[UNK]".toList = true ∧
      (plain_a_vocab.add_special_token "[UNK]".toList SpecialTokenType.UNK).is_special_token
        "[UNK]".toList = true ∧
      (plain_a_vocab.add_special_token "[UNK]".toList SpecialTokenType.UNK).get_special_token_id
        SpecialTokenType.UNK =
        (plain_a_vocab.add_special_token "[UNK]".toList SpecialTokenType.UNK).get_token_id
          "[UNK]".toList :=
  ⟨(add_special_token_effect plain_a_vocab "[UNK]".toList SpecialTokenType.UNK (by decide)).1,
    (add_special_token_effect plain_a_vocab "[UNK]".toList SpecialTokenType.UNK
      (by decide)).2.1 (by decide)⟩

/-! ## C13: ordinary tokens are not special -/

theorem mem_usInsert {K : Type} [DecidableEq K] (s : List K) (x i : K) :
    i ∈ usInsert s x ↔ i ∈ s ∨ i = x := by
  unfold usInsert
  by_cases hm : x ∈ s
  · simp only [hm, if_true]
    constructor
    · exact Or.inl
    · rintro (h | h)
      · exact h
      · rw [h]; exact hm
  · simp [hm]

theorem Vocab.plainInv_apply (t : Str) (v : Vocab) (op : VocabOp) (hinv : Vocab.PlainInv t v)
    (hop : plain_op t v op = true) (h0 : 0 ≤ v.next_id_) (hr : in_range_op v op = true) :
    Vocab.PlainInv t (v.apply op) := by
  obtain ⟨h1, h2, h3⟩ := hinv
  cases op with
  | clear =>
    refine ⟨?_, ?_, ?_⟩ <;> simp [Vocab.apply, Vocab.clear, Vocab.empty, umFind]
  | add_token u id =>
    simp only [Vocab.apply]
    rcases v.noop_or_absent u with hno | ⟨hu, habs⟩
    · rw [v.add_token_eq_of_noop u id hno]
      exact ⟨h1, h2, h3⟩
    · rw [v.add_token_eq_in_range u id hu habs h0 hr]
      refine ⟨?_, ?_, ?_⟩
      · intro i hi
        dsimp only at hi ⊢
        rw [umFind_umSet] at hi
        by_cases hut : u = t
        · simp only [hut, if_true] at hi
          cases hi
          by_cases hid : id < 0
          · simp only [hid, if_true]
            intro hm
            have := h2 _ hm
            omega
          · simp only [hid, if_false]
            simp only [plain_op, Bool.or_eq_true, decide_eq_true_eq, Bool.not_eq_true'] at hop
            rcases hop with ((h | h) | h) | h
            · exact absurd hut h
            · exact absurd h hid
            · rw [← hut, habs] at h
              cases h
            · simpa [Vocab.is_special_token_id] using h
        · simp only [hut, if_false] at hi
          exact h1 i hi
      · intro i hm
        dsimp only at hm ⊢
        have := h2 i hm
        split_ifs <;> omega
      · intro w i hi
        dsimp only at hi ⊢
        rw [umFind_umSet] at hi
        by_cases huw : u = w
        · simp only [huw, if_true] at hi
          cases hi
          split_ifs <;> omega
        · simp only [huw, if_false] at hi
          have := h3 w i hi
          split_ifs <;> omega
  | add_special_token u ty =>
    simp only [Vocab.apply]
    have hut : u ≠ t := by simpa [plain_op] using hop
    rcases v.noop_or_absent u with hno | ⟨hu, habs⟩
    · rw [v.add_special_token_eq_of_noop u ty hno]
      exact ⟨h1, h2, h3⟩
    · rw [v.add_special_token_eq_in_range u ty hu habs h0 hr]
      refine ⟨?_, ?_, ?_⟩
      · intro i hi
        dsimp only at hi ⊢
        rw [umFind_umSet] at hi
        simp only [hut, if_false] at hi
        rw [mem_usInsert]
        rintro (hm | hm)
        · exact h1 i hi hm
        · have := h3 t i hi
          omega
      · intro i hm
        dsimp only at hm ⊢
        rw [mem_usInsert] at hm
        rcases hm with hm | hm
        · have := h2 i hm
          omega
        · omega
      · intro w i hi
        dsimp only at hi ⊢
        rw [umFind_umSet] at hi
        by_cases huw : u = w
        · simp only [huw, if_true] at hi
          cases hi
          omega
        · simp only [huw, if_false] at hi
          have := h3 w i hi
          omega

theorem Vocab.plainInv_run (t : Str) (ops : List VocabOp) :
    ∀ v : Vocab, v.Reachable → Vocab.PlainInv t v → plain_history t v ops = true →
      in_range_history v ops = true → Vocab.PlainInv t (v.run ops) := by
  induction ops with
  | nil =>
    intro v _ hinv _ _
    exact hinv
  | cons op ops ih =>
    intro v hv hinv hplain hrange
    simp only [plain_history, Bool.and_eq_true] at hplain
    simp only [in_range_history, Bool.and_eq_true] at hrange
    exact ih (v.apply op) (hv.apply op hrange.1)
      (Vocab.plainInv_apply t v op hinv hplain.1 hv.idsBelowNext.1 hrange.1) hplain.2 hrange.2

set_option maxRecDepth 100000 in
/-- C13 as stated fails in two ways. An explicit id may be special: after
`add_special_token("[UNK]", UNK)` and `add_token("a", 0)` the text `a`, which was never passed
to `add_special_token`, is special: its id 0 is in the specials set. And `next_id_` may
overflow: after `add_token("a", 10)`, `add_token("x", INT_MAX)`, `add_token("b", 5)` and four
calls without an explicit id, `add_special_token("[S]", CUSTOM)` receives the id 10 of the
text `a`, which no call has treated as a special token, and `a` is special. -/
theorem plain_token_special_counterexample :
    ((Vocab.empty.run special_clash_ops).Reachable ∧
      (Vocab.empty.run special_clash_ops).is_special_token "a".toList = true ∧
      (Vocab.empty.run special_clash_ops).get_token_id "a".toList ∈
        (Vocab.empty.run special_clash_ops).special_ids_set_) ∧
      plain_history "a".toList Vocab.empty
        (overflow_then_four ++ [VocabOp.add_special_token "[S]".toList SpecialTokenType.CUSTOM])
        = true ∧
      (Vocab.empty.run (overflow_then_four ++
        [VocabOp.add_special_token "[S]".toList SpecialTokenType.CUSTOM])).get_token_id
        "[S]".toList = 10 ∧
      (Vocab.empty.run (overflow_then_four ++
        [VocabOp.add_special_token "[S]".toList SpecialTokenType.CUSTOM])).is_special_token
        "a".toList = true :=
  ⟨⟨Vocab.reachable_run special_clash_ops Vocab.empty Vocab.Reachable.empty (by decide),
    by decide, by decide⟩, by decide, by decide, by decide⟩

/-- C13, amended: in every vocabulary built from the empty one by calls of `add_token`,
`add_special_token` and `clear` none of which assigns the id `INT_MAX`, a text that was never
passed to `add_special_token`, and that was not added under an explicit id which was in the
specials set at that time, is not special: `is_special_token(t)` is false and, when `t` is
present, its id is not in the specials set. -/
theorem plain_token_not_special (t : Str) (ops : List VocabOp)
    (hplain : plain_history t Vocab.empty ops = true)
    (hrange : in_range_history Vocab.empty ops = true) :
    (Vocab.empty.run ops).Reachable ∧
      (Vocab.empty.run ops).is_special_token t = false ∧
      ((Vocab.empty.run ops).has_token t = true →
        (Vocab.empty.run ops).get_token_id t ∉ (Vocab.empty.run ops).special_ids_set_) := by
  have hinv0 : Vocab.PlainInv t Vocab.empty := by
    refine ⟨?_, ?_, ?_⟩ <;> simp [Vocab.empty, umFind]
  obtain ⟨h1, _, _⟩ :=
    Vocab.plainInv_run t ops Vocab.empty Vocab.Reachable.empty hinv0 hplain hrange
  refine ⟨Vocab.reachable_run ops Vocab.empty Vocab.Reachable.empty hrange, ?_, ?_⟩
  · unfold Vocab.is_special_token
    cases hf : umFind (Vocab.empty.run ops).token_to_id_ t with
    | none => rfl
    | some i => simpa using h1 i hf
  · intro _
    unfold Vocab.get_token_id
    cases hf : umFind (Vocab.empty.run ops).token_to_id_ t with
    | none =>
      rename_i hpres
      simp [Vocab.has_token, hf] at hpres
    | some i => simpa using h1 i hf

theorem plain_token_not_special_witness :
    plain_history "a".toList Vocab.empty
        [VocabOp.add_special_token "[UNK]".toList SpecialTokenType.UNK,
          VocabOp.add_token "a".toList (-1)] = true ∧
      in_range_history Vocab.empty
        [VocabOp.add_special_token "[UNK]".toList SpecialTokenType.UNK,
          VocabOp.add_token "a".toList (-1)] = true ∧
      (Vocab.empty.run [VocabOp.add_special_token "[UNK]".toList SpecialTokenType.UNK,
        VocabOp.add_token "a".toList (-1)]).is_special_token "a".toList = false :=
  ⟨by decide, by decide,
    (plain_token_not_special "a".toList
      [VocabOp.add_special_token "[UNK]".toList SpecialTokenType.UNK,
        VocabOp.add_token "a".toList (-1)] (by decide) (by decide)).2.1⟩

/-! ## C14: every assigned id lies below `next_id` -/

theorem Vocab.allIdsBelowNext_add_token (v : Vocab) (token : Str) (id : Int)
    (h : v.AllIdsBelowNext) (hr : in_range_op v (VocabOp.add_token token id) = true) :
    (v.add_token token id).AllIdsBelowNext := by
  rcases v.noop_or_absent token with hno | ⟨ht, habs⟩
  · rw [v.add_token_eq_of_noop token id hno]
    exact h
  · rw [v.add_token_eq_in_range token id ht habs h.1 hr]
    obtain ⟨h0, h1, h2, h3, h4⟩ := h
    refine ⟨?_, ?_, ?_, ?_, ?_⟩
    · dsimp only
      split_ifs <;> omega
    · intro t i hi
      dsimp only at hi ⊢
      rw [umFind_umSet] at hi
      by_cases hk : token = t
      · simp only [hk, if_true] at hi
        cases hi
        split_ifs <;> omega
      · simp only [hk, if_false] at hi
        have := h1 t i hi
        split_ifs <;> omega
    · intro i t hi
      dsimp only at hi ⊢
      rw [umFind_umSet] at hi
      by_cases hk : (if id < 0 then v.next_id_ else id) = i
      · rw [← hk]
        split_ifs <;> omega
      · simp only [hk, if_false] at hi
        have := h2 i t hi
        split_ifs <;> omega
    · intro ty i hi
      dsimp only at hi ⊢
      have := h3 ty i hi
      split_ifs <;> omega
    · intro i hi
      dsimp only at hi ⊢
      have := h4 i hi
      split_ifs <;> omega

theorem Vocab.allIdsBelowNext_add_special_token (v : Vocab) (token : Str)
    (type : SpecialTokenType) (h : v.AllIdsBelowNext)
    (hr : in_range_op v (VocabOp.add_special_token token type) = true) :
    (v.add_special_token token type).AllIdsBelowNext := by
  rcases v.noop_or_absent token with hno | ⟨ht, habs⟩
  · rw [v.add_special_token_eq_of_noop token type hno]
    exact h
  · rw [v.add_special_token_eq_in_range token type ht habs h.1 hr]
    obtain ⟨h0, h1, h2, h3, h4⟩ := h
    refine ⟨?_, ?_, ?_, ?_, ?_⟩
    · dsimp only
      omega
    · intro t i hi
      dsimp only at hi ⊢
      rw [umFind_umSet] at hi
      by_cases hk : token = t
      · simp only [hk, if_true] at hi
        cases hi
        omega
      · simp only [hk, if_false] at hi
        have := h1 t i hi
        omega
    · intro i t hi
      dsimp only at hi ⊢
      rw [umFind_umSet] at hi
      by_cases hk : v.next_id_ = i
      · omega
      · simp only [hk, if_false] at hi
        have := h2 i t hi
        omega
    · intro ty i hi
      dsimp only at hi ⊢
      rw [umFind_umSet] at hi
      by_cases hk : type = ty
      · simp only [hk, if_true] at hi
        cases hi
        omega
      · simp only [hk, if_false] at hi
        have := h3 ty i hi
        omega
    · intro i hi
      dsimp only at hi ⊢
      rw [mem_usInsert] at hi
      rcases hi with hi | hi
      · have := h4 i hi
        omega
      · omega

theorem Vocab.allIdsBelowNext_empty : Vocab.empty.AllIdsBelowNext := by
  refine ⟨le_refl _, ?_, ?_, ?_, ?_⟩ <;> simp [Vocab.empty, umFind]

theorem Vocab.Reachable.allIdsBelowNext {v : Vocab} (h : v.Reachable) : v.AllIdsBelowNext := by
  induction h with
  | empty => exact Vocab.allIdsBelowNext_empty
  | add_token v token id _ hr ih => exact Vocab.allIdsBelowNext_add_token v token id ih hr
  | add_special_token v token type _ hr ih =>
    exact Vocab.allIdsBelowNext_add_special_token v token type ih hr
  | clear v _ _ => exact Vocab.allIdsBelowNext_empty

set_option maxRecDepth 100000 in
/-- C14 as stated fails once `next_id_` has overflowed: after `add_token("x", INT_MAX)` the
text `x` holds the id `INT_MAX` and `next_id` is `INT_MIN`, which is smaller; the next call
`add_token("a")` gives `a` the negative id `INT_MIN`. -/
theorem vocab_ids_overflow_counterexample :
    (Vocab.empty.add_token "x".toList 2147483647).get_token_id "x".toList = 2147483647 ∧
      (Vocab.empty.add_token "x".toList 2147483647).next_id_ = -2147483648 ∧
      ¬ (Vocab.empty.add_token "x".toList 2147483647).get_token_id "x".toList
        < (Vocab.empty.add_token "x".toList 2147483647).next_id_ ∧
      ((Vocab.empty.add_token "x".toList 2147483647).add_token "a".toList (-1)).get_token_id
        "a".toList = -2147483648 ∧
      ¬ 0 ≤ ((Vocab.empty.add_token "x".toList 2147483647).add_token "a".toList
        (-1)).get_token_id "a".toList := by
  refine ⟨?_, ?_, ?_, ?_, ?_⟩ <;> decide

/-- C14, amended: in every vocabulary reachable from the empty one by calls of `add_token`
(with or without an explicit id), `add_special_token` and `clear` none of which assigns the
id `INT_MAX`, every id held by the text-to-id map, the id-to-text map, the role table or the
specials set satisfies `0 <= i < next_id`; so the id of a present text is never the sentinel
-1, and `next_id`, the id that a call without an explicit id assigns, is in use neither as a
key of the id-to-text map nor as the id of a text. -/
theorem vocab_ids_below_next (v : Vocab) (hv : v.Reachable) :
    v.AllIdsBelowNext ∧
      (∀ t, v.has_token t = true →
        0 ≤ v.get_token_id t ∧ v.get_token_id t < v.next_id_ ∧ v.get_token_id t ≠ -1) ∧
      v.has_id v.next_id_ = false ∧ (∀ t, v.get_token_id t ≠ v.next_id_) := by
  have hall := hv.allIdsBelowNext
  obtain ⟨h0, h1, h2, _, _⟩ := hall
  refine ⟨hv.allIdsBelowNext, ?_, ?_, ?_⟩
  · intro t ht
    unfold Vocab.get_token_id
    cases hf : umFind v.token_to_id_ t with
    | none => simp [Vocab.has_token, hf] at ht
    | some i =>
      have := h1 t i hf
      simp only
      omega
  · unfold Vocab.has_id
    cases hf : umFind v.id_to_token_ v.next_id_ with
    | none => rfl
    | some t =>
      have := h2 _ t hf
      omega
  · intro t
    unfold Vocab.get_token_id
    cases hf : umFind v.token_to_id_ t with
    | none =>
      simp only
      omega
    | some i =>
      have := h1 t i hf
      simp only
      omega

theorem vocab_ids_below_next_witness :
    small_vocab.Reachable ∧ small_vocab.AllIdsBelowNext ∧
      small_vocab.has_id small_vocab.next_id_ = false ∧
      0 ≤ small_vocab.get_token_id "bc".toList ∧
      small_vocab.get_token_id "bc".toList < small_vocab.next_id_ :=
  ⟨small_vocab_reachable, (vocab_ids_below_next small_vocab small_vocab_reachable).1,
    (vocab_ids_below_next small_vocab small_vocab_reachable).2.2.1,
    ((vocab_ids_below_next small_vocab small_vocab_reachable).2.1 "bc".toList (by decide)).1,
    ((vocab_ids_below_next small_vocab small_vocab_reachable).2.1 "bc".toList (by decide)).2.1⟩

/-! ## C15: `max_length` and `pad_to_max_length` in `encode` -/

theorem encode_shape (t : TokenizerAdvanced) (text : Str) (options : TokenizationOptions)
    (enc : BatchEncoding) (h : t.encode text options = Except.ok enc) :
    ∃ row, enc = single_row_encoding options row := by
  unfold TokenizerAdvanced.encode at h
  cases himpl : t.tokenizer_impl_ with
  | none => simp [himpl] at h
  | some impl =>
    simp only [himpl] at h
    cases hids : t.encode_ids impl text with
    | error e => simp [hids] at h
    | ok ids =>
      simp only [hids] at h
      cases hpost : t.post_processor_ with
      | none =>
        simp only [hpost] at h
        exact ⟨ids, (Except.ok.inj h).symm⟩
      | some post =>
        simp only [hpost] at h
        cases hp : post ids with
        | error e => simp [hp] at h
        | ok processed =>
          simp only [hp] at h
          exact ⟨processed, (Except.ok.inj h).symm⟩

set_option maxRecDepth 100000 in
/-- C16 as stated fails: the pipeline of the truncation scenario encodes the text `[PAD]` as
the row `[1, 0, 2]`, in which 0 is the PAD id; the mask is `[1, 1, 1]` with sum 3, but only 2
ids of the row are not the PAD id. -/
theorem attention_mask_counterexample :
    pad_pipeline.vocab_.get_special_token_id SpecialTokenType.PAD = 0 ∧
      (encoding_or_empty (pad_pipeline.encode "[PAD]".toList
        (length_options 512 false true))).input_ids = [[1, 0, 2]] ∧
      (encoding_or_empty (pad_pipeline.encode "[PAD]".toList
        (length_options 512 false true))).attention_mask = [[1, 1, 1]] ∧
      ([1, 1, 1] : List Int).sum = 3 ∧
      (([1, 0, 2] : List Int).filter fun id => decide (id ≠ 0)).length = 2 := by
  decide

/-- C16, amended: for every pipeline and text, when an attention mask is requested and
`encode` returns, `input_ids` is one row and `attention_mask` is one row of ones of the same
length, so its entries sum to the length of the row; the sum is the number of ids that are
not the PAD id whenever the row does not hold the PAD id. -/
theorem attention_mask_all_ones (t : TokenizerAdvanced) (text : Str)
    (options : TokenizationOptions) (enc : BatchEncoding)
    (hmask : options.return_attention_mask = true)
    (henc : t.encode text options = Except.ok enc) :
    ∃ row mask, enc.input_ids = [row] ∧ enc.attention_mask = [mask] ∧
      mask = List.replicate row.length 1 ∧ mask.length = row.length ∧
      mask.sum = (row.length : Int) ∧
      ∀ pad : Int, pad ∉ row →
        mask.sum = ((row.filter fun id => decide (id ≠ pad)).length : Int) := by
  obtain ⟨row, rfl⟩ := encode_shape t text options enc henc
  refine ⟨row, List.replicate row.length 1, rfl, by simp [single_row_encoding, hmask], rfl,
    by simp, by simp, ?_⟩
  intro pad hpad
  have hfil : (row.filter fun id => decide (id ≠ pad)) = row := by
    apply List.filter_eq_self.mpr
    intro a ha
    have : a ≠ pad := fun e => hpad (e ▸ ha)
    simpa using this
  rw [hfil]
  simp

set_option maxRecDepth 100000 in
theorem attention_mask_all_ones_witness :
    ∃ row mask,
      (encoding_or_empty (pad_pipeline.encode "abcde".toList
        (length_options 512 false true))).input_ids = [row] ∧
      (encoding_or_empty (pad_pipeline.encode "abcde".toList
        (length_options 512 false true))).attention_mask = [mask] ∧
      mask = List.replicate row.length 1 ∧ mask.length = row.length ∧
      mask.sum = (row.length : Int) ∧
      ∀ pad : Int, pad ∉ row →
        mask.sum = ((row.filter fun id => decide (id ≠ pad)).length : Int) :=
  attention_mask_all_ones pad_pipeline "abcde".toList (length_options 512 false true)
    (encoding_or_empty (pad_pipeline.encode "abcde".toList (length_options 512 false true)))
    rfl (by decide)

/-! ## C17: `encode_batch` -/

theorem batch_push_single (options : TokenizationOptions) (acc : BatchEncoding)
    (row : List Int) :
    batch_push options acc (single_row_encoding options row) =
      { input_ids := acc.input_ids ++ [row]
        attention_mask := acc.attention_mask ++
          (if options.return_attention_mask then [List.replicate row.length 1] else [])
        token_type_ids := acc.token_type_ids
        offset_mapping := acc.offset_mapping
        length := acc.length ++ [row.length]
        overflowing_tokens := acc.overflowing_tokens } := by
  unfold batch_push single_row_encoding
  cases options.return_attention_mask <;> simp

theorem encode_batch_loop_spec (t : TokenizerAdvanced) (options : TokenizationOptions)
    (texts : List Str) :
    ∀ (acc enc : BatchEncoding), encode_batch_loop t options texts acc = Except.ok enc →
      ∃ rows : List (List Int),
        List.Forall₂ (fun text row => t.encode text options =
          Except.ok (single_row_encoding options row)) texts rows ∧
        enc.input_ids = acc.input_ids ++ rows ∧
        enc.attention_mask = acc.attention_mask ++
          (if options.return_attention_mask then rows.map fun row => List.replicate row.length 1
            else []) ∧
        enc.length = acc.length ++ rows.map List.length := by
  induction texts with
  | nil =>
    intro acc enc h
    simp only [encode_batch_loop] at h
    cases h
    exact ⟨[], List.Forall₂.nil, by simp, by simp, by simp⟩
  | cons text texts ih =>
    intro acc enc h
    simp only [encode_batch_loop] at h
    cases hsingle : t.encode text options with
    | error e => simp [hsingle] at h
    | ok single =>
      simp only [hsingle] at h
      obtain ⟨row, rfl⟩ := encode_shape t text options single hsingle
      rw [batch_push_single] at h
      obtain ⟨rows, hall, h1, h2, h3⟩ := ih _ enc h
      refine ⟨row :: rows, List.Forall₂.cons hsingle hall, ?_, ?_, ?_⟩
      · simpa using h1
      · rw [h2]
        cases options.return_attention_mask <;> simp
      · simpa using h3

theorem encode_batch_loop_total (t : TokenizerAdvanced) (options : TokenizationOptions)
    (texts : List Str) :
    ∀ acc : BatchEncoding,
      (∀ text ∈ texts, ∃ single, t.encode text options = Except.ok single) →
      ∃ enc, encode_batch_loop t options texts acc = Except.ok enc := by
  induction texts with
  | nil =>
    intro acc _
    exact ⟨acc, rfl⟩
  | cons text texts ih =>
    intro acc hall
    obtain ⟨single, hsingle⟩ := hall text (List.mem_cons_self _ _)
    obtain ⟨enc, henc⟩ := ih (batch_push options acc single)
      (fun u hu => hall u (List.mem_cons_of_mem _ hu))
    exact ⟨enc, by simp only [encode_batch_loop, hsingle]; exact henc⟩

theorem forall₂_getElem? {α β : Type} {R : α → β → Prop} {l1 : List α} {l2 : List β}
    (h : List.Forall₂ R l1 l2) :
    ∀ (i : Nat) (a : α), l1[i]? = some a → ∃ b, l2[i]? = some b ∧ R a b := by
  induction h with
  | nil =>
    intro i a hi
    simp at hi
  | cons hab _ ih =>
    intro i a hi
    cases i with
    | zero =>
      simp at hi
      subst hi
      exact ⟨_, by simp, hab⟩
    | succ i =>
      simp at hi
      obtain ⟨b, hb, hR⟩ := ih i a hi
      exact ⟨b, by simpa using hb, hR⟩

/-- C17: for every pipeline, list of texts and options, `encode_batch` returns whenever
`encode` returns for every text, and then it holds as many `input_ids` rows as there are
texts (and as many `attention_mask` rows when the mask is requested); row `i` is the single
row that `encode(texts[i], options)` returns, and row `i` of `attention_mask` is the single
mask row of that call. -/
theorem encode_batch_pointwise (t : TokenizerAdvanced) (texts : List Str)
    (options : TokenizationOptions) :
    ((∀ text ∈ texts, ∃ single, t.encode text options = Except.ok single) →
        ∃ enc, t.encode_batch texts options = Except.ok enc) ∧
      ∀ enc, t.encode_batch texts options = Except.ok enc →
        enc.input_ids.length = texts.length ∧
        (options.return_attention_mask = true → enc.attention_mask.length = texts.length) ∧
        ∀ (i : Nat) (text : Str), texts[i]? = some text →
          ∃ single row, t.encode text options = Except.ok single ∧
            single.input_ids = [row] ∧ enc.input_ids[i]? = some row ∧
            (options.return_attention_mask = true →
              ∃ mask, single.attention_mask = [mask] ∧ enc.attention_mask[i]? = some mask) := by
  refine ⟨encode_batch_loop_total t options texts _, ?_⟩
  intro enc henc
  obtain ⟨rows, hall, h1, h2, _⟩ := encode_batch_loop_spec t options texts _ enc henc
  simp only [List.nil_append] at h1 h2
  have hlen : rows.length = texts.length := (List.Forall₂.length_eq hall).symm
  refine ⟨by rw [h1, hlen], ?_, ?_⟩
  · intro hmask
    rw [h2]
    simp [hmask, hlen]
  · intro i text hi
    obtain ⟨row, hrow, hsingle⟩ := forall₂_getElem? hall i text hi
    refine ⟨single_row_encoding options row, row, hsingle, rfl, by rw [h1]; exact hrow, ?_⟩
    intro hmask
    refine ⟨List.replicate row.length 1, by simp [single_row_encoding, hmask], ?_⟩
    rw [h2]
    simp [hmask, hrow]

set_option maxRecDepth 100000 in
theorem encode_batch_pointwise_witness :
    (∃ enc, pad_pipeline.encode_batch ["abcde".toList, "a".toList]
        (length_options 512 false true) = Except.ok enc) ∧
      (encoding_or_empty (pad_pipeline.encode_batch ["abcde".toList, "a".toList]
        (length_options 512 false true))).input_ids = [[1, 10, 11, 12, 13, 14, 2], [1, 10, 2]] ∧
      (encoding_or_empty (pad_pipeline.encode_batch ["abcde".toList, "a".toList]
        (length_options 512 false true))).input_ids.length = 2 := by
  have h := encode_batch_pointwise pad_pipeline ["abcde".toList, "a".toList]
    (length_options 512 false true)
  refine ⟨h.1 ?_, by decide, (h.2 _ (by decide)).1⟩
  intro text ht
  simp only [List.mem_cons, List.mem_singleton, List.not_mem_nil, or_false] at ht
  rcases ht with rfl | rfl
  · exact ⟨encoding_or_empty (pad_pipeline.encode "abcde".toList
      (length_options 512 false true)), by decide⟩
  · exact ⟨encoding_or_empty (pad_pipeline.encode "a".toList
      (length_options 512 false true)), by decide⟩

/-! ## C18: `skip_special_tokens` in `decode` -/

theorem foldl_append_map_flatten {α : Type} (f : α → Str) (l : List α) (acc : Str) :
    l.foldl (fun result x => result ++ f x) acc = acc ++ (l.map f).flatten := by
  induction l generalizing acc with
  | nil => simp
  | cons x l ih => simp [ih]

theorem Vocab.has_token_add_token_mono (v : Vocab) (u : Str) (id : Int) (t : Str)
    (h : v.has_token t = true) : (v.add_token u id).has_token t = true := by
  rcases v.noop_or_absent u with hno | ⟨hu, habs⟩
  · rw [v.add_token_eq_of_noop u id hno]
    exact h
  · rw [v.add_token_eq_of_absent u id hu habs]
    unfold Vocab.has_token at h ⊢
    dsimp only
    rw [umFind_umSet]
    by_cases hk : u = t
    · simp [hk]
    · simpa [hk] using h

theorem Vocab.has_token_add_token_self (v : Vocab) (u : Str) (id : Int) (hu : u ≠ []) :
    (v.add_token u id).has_token u = true := by
  rcases v.noop_or_absent u with hno | ⟨_, habs⟩
  · rw [v.add_token_eq_of_noop u id hno]
    rcases hno with h | h
    · exact absurd h hu
    · exact h
  · rw [v.add_token_eq_of_absent u id hu habs]
    simp [Vocab.has_token, umFind_umSet]

theorem Vocab.has_token_add_special_token_mono (v : Vocab) (u : Str) (ty : SpecialTokenType)
    (t : Str) (h : v.has_token t = true) : (v.add_special_token u ty).has_token t = true := by
  rcases v.noop_or_absent u with hno | ⟨hu, habs⟩
  · rw [v.add_special_token_eq_of_noop u ty hno]
    exact h
  · rw [v.add_special_token_eq_of_absent u ty hu habs]
    unfold Vocab.has_token at h ⊢
    dsimp only
    rw [umFind_umSet]
    by_cases hk : u = t
    · simp [hk]
    · simpa [hk] using h

theorem has_token_foldl_add_token_mono {β : Type} (f : β → Int) (l : List (Str × β))
    (t : Str) : ∀ v : Vocab, v.has_token t = true →
      (l.foldl (fun v p => v.add_token p.1 (f p.2)) v).has_token t = true := by
  induction l with
  | nil => exact fun v h => h
  | cons p l ih => exact fun v h => ih _ (v.has_token_add_token_mono p.1 (f p.2) t h)

theorem has_token_foldl_add_token_mem {β : Type} (f : β → Int) (l : List (Str × β))
    (p : Str × β) (hp : p ∈ l) (hne : p.1 ≠ []) : ∀ v : Vocab,
      (l.foldl (fun v p => v.add_token p.1 (f p.2)) v).has_token p.1 = true := by
  induction l with
  | nil => simp at hp
  | cons q l ih =>
    intro v
    rcases List.mem_cons.mp hp with rfl | hmem
    · exact has_token_foldl_add_token_mono f l p.1 _ (v.has_token_add_token_self p.1 _ hne)
    · exact ih hmem _

theorem has_token_foldl_add_special_token_mono {β : Type} (l : List (Str × β))
    (ty : SpecialTokenType) (t : Str) : ∀ v : Vocab, v.has_token t = true →
      (l.foldl (fun v p => v.add_special_token p.1 ty) v).has_token t = true := by
  induction l with
  | nil => exact fun v h => h
  | cons p l ih => exact fun v h => ih _ (v.has_token_add_special_token_mono p.1 ty t h)

/-- The constructor of `TokenizerAdvanced` puts every non-empty token of the model into the
vocabulary of the pipeline. -/
theorem init_vocab_has_model_token (config : TokenizerConfig) (model_vocab : List (Str × Int))
    (model_scores : List (Str × Rat)) (p : Str × Int) (hp : p ∈ model_vocab) (hne : p.1 ≠ []) :
    (TokenizerAdvanced.init_vocab config model_vocab model_scores).has_token p.1 = true := by
  unfold TokenizerAdvanced.init_vocab
  apply has_token_foldl_add_special_token_mono
  apply has_token_foldl_add_token_mono (fun _ => (-1 : Int))
  exact has_token_foldl_add_token_mem (fun i => i) model_vocab p hp hne _

set_option maxRecDepth 100000 in
/-- C19 fails on the code: the constructor of the pipeline fills the vocabulary with every
byte, but `BPETokenizer::set_vocab` then clears it and keeps special tokens only. The
byte-level BPE pipeline therefore encodes the six bytes of `héllo` as six times the id of
`[UNK]` and decodes them to `[UNK][UNK][UNK][UNK][UNK][UNK]`, not to `héllo`. -/
theorem byte_level_round_trip_lost :
    (∀ n : Fin 256,
      (TokenizerAdvanced.init_vocab TokenizerConfig.default byte_vocab []).has_token
        [Char.ofNat n] = true) ∧
      (∀ (config : TokenizerConfig) (model_vocab : List (Str × Int))
        (model_scores : List (Str × Rat)) (model_merges : List Str)
        (normalize impl_normalize : Str → Str) (pre : Option (Str → List Str))
        (post : Vocab → Option (List Int → Except String (List Int))),
        (TokenizerAdvanced.make_bpe config model_vocab model_scores model_merges normalize
          impl_normalize pre post).vocab_ =
          BPETokenizer.initialize_special_tokens TokenizerConfig.default Vocab.empty) ∧
      (List.range 256).all (fun n => !byte_pipeline.vocab_.has_token [Char.ofNat n]) = true ∧
      encoded_ids (byte_pipeline.encode hello_utf8 TokenizationOptions.default)
        = Except.ok [[0, 0, 0, 0, 0, 0]] ∧
      byte_pipeline.decode [0, 0, 0, 0, 0, 0] true
        = Except.ok "[UNK][UNK][UNK][UNK][UNK][UNK]".toList ∧
      byte_pipeline.decode [0, 0, 0, 0, 0, 0] true ≠ Except.ok hello_utf8 := by
  refine ⟨?_, fun _ _ _ _ _ _ _ _ => rfl, by decide, by decide, by decide, by decide⟩
  intro n
  exact init_vocab_has_model_token TokenizerConfig.default byte_vocab []
    ([Char.ofNat n], ((n : Nat) : Int) + 7)
    (List.mem_map.mpr ⟨n, List.mem_range.mpr n.2, rfl⟩) (by simp)

/-! ## C20: the WordPiece round trip -/

theorem starts_with_take (n : Str) : ∀ (s : Str) (e : Nat),
    starts_with (s.take e) n = true → starts_with s n = true := by
  induction n with
  | nil =>
    intro s e _
    cases s <;> rfl
  | cons d n ih =>
    intro s e h
    cases s with
    | nil => simp [starts_with] at h
    | cons c s =>
      cases e with
      | zero => simp [starts_with] at h
      | succ e =>
        simp only [List.take_succ_cons, starts_with, Bool.and_eq_true] at h ⊢
        exact ⟨h.1, ih s e h.2⟩

theorem strip_continuation_vocab_form (w : Str) (s e : Nat)
    (hstart : s = 0 → starts_with w "##".toList = false) :
    strip_continuation (vocab_form w s e) = (w.drop s).take (e - s) := by
  unfold strip_continuation vocab_form
  by_cases hs : s = 0
  · subst hs
    have hno : starts_with (w.take e) "##".toList = false := by
      cases h : starts_with (w.take e) "##".toList with
      | false => rfl
      | true =>
        have := starts_with_take _ w e h
        rw [hstart rfl] at this
        cases this
    simp only [if_true, List.nil_append, List.drop_zero, Nat.sub_zero, hno]
    rfl
  · have hyes : starts_with ("##".toList ++ (w.drop s).take (e - s)) "##".toList = true := by
      show starts_with ('#' :: '#' :: (w.drop s).take (e - s)) ['#', '#'] = true
      simp only [starts_with, decide_True, Bool.true_and]
    simp only [hs, if_false, hyes, if_true]
    rfl

theorem longestMatchRun_le {vocab : List (Str × Int)} {w : Str} {s stop : Nat}
    {pieces : List Str} (h : LongestMatchRun vocab w s pieces stop) : s ≤ stop := by
  induction h with
  | done s => exact le_refl _
  | piece s e stop rest hlt _ _ _ _ ih => omega

theorem strip_run_flatten {vocab : List (Str × Int)} {w : Str} {s stop : Nat}
    {pieces : List Str} (h : LongestMatchRun vocab w s pieces stop)
    (hstart : s = 0 → starts_with w "##".toList = false) :
    (pieces.map strip_continuation).flatten = (w.drop s).take (stop - s) := by
  induction h with
  | done s => simp
  | piece s e stop rest hlt _ _ _ hrest ih =>
    have hle := longestMatchRun_le hrest
    have ih' := ih (fun h0 => by omega)
    simp only [List.map_cons, List.flatten_cons, ih', strip_continuation_vocab_form w s e hstart]
    have hsplit : stop - s = (e - s) + (stop - e) := by omega
    rw [hsplit, List.take_add, List.drop_drop]
    have : s + (e - s) = e := by omega
    rw [this]

theorem run_of_tokenize_without_unk (m : WordPieceModel) (w : Str)
    (h : m.unk_token_ ∉ m.tokenize w) :
    LongestMatchRun m.vocab_ w 0 (m.tokenize w) w.length := by
  obtain ⟨pieces, stop, hrun, hres⟩ := tokenize_spec m w
  rcases hres with ⟨hstop, htok⟩ | ⟨_, _, htok⟩
  · rw [htok, ← hstop]
    exact hrun
  · exact absurd (by rw [htok]; simp) h

/-- C20 as stated fails for a word that itself starts with `##`: over the vocabulary `{##a}`
the word `##a` is one piece, found without the unknown token, and decoding strips the `##` of
that piece: the round trip returns `a`. -/
theorem wordpiece_round_trip_counterexample :
    marker_tokenizer.normalizer_ "##a".toList = "##a".toList ∧
      WordPieceModel.tokenize
        { vocab_ := [("##a".toList, 0)], unk_token_ := "[UNK]".toList,
          max_input_chars_per_word_ := 100 } "##a".toList = ["##a".toList] ∧
      marker_tokenizer.vocab_.get_token (marker_tokenizer.vocab_.get_token_id "##a".toList)
        = "##a".toList ∧
      marker_tokenizer.round_trip "##a".toList = Except.ok "a".toList ∧
      marker_tokenizer.round_trip "##a".toList ≠ Except.ok "##a".toList := by
  decide

/-- C20, amended: for every word `w` that does not start with `##`, that the normalizer
leaves unchanged and that WordPiece segments completely by longest matches (no unknown token),
over a vocabulary in which the id of every piece names that piece,
`decode_from_ids(encode_to_ids(w))` equals `w`. -/
theorem wordpiece_round_trip (t : WordPieceTokenizer) (model : WordPieceModel) (w : Str)
    (pieces : List Str) (hmodel : t.wordpiece_model_ = some model)
    (hnorm : t.normalizer_ w = w)
    (hrun : LongestMatchRun model.vocab_ w 0 pieces w.length)
    (hinv : ∀ p ∈ pieces, t.vocab_.get_token (t.vocab_.get_token_id p) = p)
    (hstart : starts_with w "##".toList = false) :
    model.tokenize w = pieces ∧ t.round_trip w = Except.ok w := by
  have htok : model.tokenize w = pieces := by
    obtain ⟨pieces', stop', hrun', hres⟩ := tokenize_spec model w
    rcases hres with ⟨hstop, h⟩ | ⟨hstop, hno, h⟩
    · obtain ⟨hp, _⟩ := longestMatchRun_unique hrun hrun' (Or.inl (le_refl _))
        (Or.inl (by omega))
      rw [h, hp]
    · obtain ⟨_, hs⟩ := longestMatchRun_unique hrun hrun' (Or.inl (le_refl _)) (Or.inr hno)
      omega
  refine ⟨htok, ?_⟩
  unfold WordPieceTokenizer.round_trip WordPieceTokenizer.encode_to_ids
  simp only [hmodel, hnorm, htok]
  unfold WordPieceTokenizer.decode_from_ids
  rw [foldl_append_map_flatten, List.nil_append, List.map_map]
  have hmap : pieces.map ((fun id => strip_continuation (t.vocab_.get_token id)) ∘
      fun piece => t.vocab_.get_token_id piece) = pieces.map strip_continuation := by
    apply List.map_congr_left
    intro p hp
    simp [hinv p hp]
  rw [hmap, strip_run_flatten hrun (fun _ => hstart)]
  simp

theorem wordpiece_round_trip_witness :
    affable_model.tokenize "unaffable".toList = ["un".toList, "##aff".toList, "##able".toList] ∧
      affable_tokenizer.round_trip "unaffable".toList = Except.ok "unaffable".toList := by
  have hrun := run_of_tokenize_without_unk affable_model "unaffable".toList (by decide)
  have htok : affable_model.tokenize "unaffable".toList =
      ["un".toList, "##aff".toList, "##able".toList] := by decide
  rw [htok] at hrun
  exact wordpiece_round_trip affable_tokenizer affable_model "unaffable".toList
    ["un".toList, "##aff".toList, "##able".toList] rfl rfl hrun (by decide) (by decide)


/-! ## The fuel of the parsing loops suffices -/

theorem str_find_from_ge (needle : Str) : ∀ (hay : Str) (i j : Nat),
    str_find_from hay needle i = some j → i ≤ j := by
  intro hay
  induction hay with
  | nil =>
    intro i j h
    simp only [str_find_from] at h
    split_ifs at h
    cases h
    exact le_refl _
  | cons c hay ih =>
    intro i j h
    simp only [str_find_from] at h
    split_ifs at h
    · cases h
      exact le_refl _
    · exact le_trans (Nat.le_succ i) (ih (i + 1) j h)

theorem str_find_ge (s needle : Str) (pos j : Nat) (h : str_find s needle pos = some j) :
    pos ≤ j := by
  unfold str_find at h
  split_ifs at h
  exact str_find_from_ge needle _ pos j h

/-- The result of `from_string_loop` does not depend on the fuel once the fuel covers the
part of the string behind `pos`: the fuel `str.length` of `from_string` is never used up. -/
theorem from_string_loop_fuel (str : Str) : ∀ (fuel fuel' pos : Nat) (config : TokenizerConfig),
    str.length - pos ≤ fuel → str.length - pos ≤ fuel' →
      from_string_loop str fuel pos config = from_string_loop str fuel' pos config := by
  intro fuel
  induction fuel with
  | zero =>
    intro fuel' pos config h _
    have hpos : ¬ pos < str.length := by omega
    cases fuel' with
    | zero => rfl
    | succ fuel' => simp only [from_string_loop, hpos, if_false]
  | succ fuel ih =>
    intro fuel' pos config h h'
    cases fuel' with
    | zero =>
      have hpos : ¬ pos < str.length := by omega
      simp only [from_string_loop, hpos, if_false]
    | succ fuel' =>
      by_cases hpos : pos < str.length
      · simp only [from_string_loop, hpos, if_true]
        cases hs : str_find str ['='] pos with
        | none => rfl
        | some start =>
          have hge := str_find_ge _ _ _ _ hs
          have hnext : ∀ config', from_string_loop str fuel (start + 1) config'
              = from_string_loop str fuel' (start + 1) config' :=
            fun config' => ih fuel' (start + 1) config' (by omega) (by omega)
          simp only
          cases hk : str_rfind str ' ' start with
          | none => exact hnext config
          | some key_start =>
            simp only
            by_cases hks : key_start ≥ start
            · simp only [hks, if_true]
              exact hnext config
            · simp only [hks, if_false]
              cases hc : str_find str [','] start with
              | none =>
                simp only
                cases hb : str_find str ['}'] start with
                | none => rfl
                | some value_end =>
                  have hge' := str_find_ge _ _ _ _ hb
                  simp only
                  cases set_config_field config
                      (substr str (key_start + 1) (start - key_start - 1))
                      (strip_quotes (substr str (start + 1) (value_end - start - 1))) with
                  | error e => rfl
                  | ok config' =>
                    exact ih fuel' (value_end + 1) config' (by omega) (by omega)
              | some value_end =>
                have hge' := str_find_ge _ _ _ _ hc
                simp only
                cases set_config_field config
                    (substr str (key_start + 1) (start - key_start - 1))
                    (strip_quotes (substr str (start + 1) (value_end - start - 1))) with
                | error e => rfl
                | ok config' =>
                  exact ih fuel' (value_end + 1) config' (by omega) (by omega)
      · simp only [from_string_loop, hpos, if_false]

theorem placeholder_match_pos (s : Str) (len : Nat) (h : placeholder_match s = some len) :
    1 ≤ len := by
  unfold placeholder_match at h
  simp only at h
  repeat' split at h
  all_goals first
    | (injection h with h; omega)
    | cases h

theorem regex_search_from_ge : ∀ (s : Str) (i start len : Nat),
    regex_search_from s i = some (start, len) → i ≤ start ∧ 1 ≤ len := by
  intro s
  induction s with
  | nil =>
    intro i start len h
    simp [regex_search_from] at h
  | cons c s ih =>
    intro i start len h
    simp only [regex_search_from] at h
    cases hm : placeholder_match (c :: s) with
    | some l =>
      simp only [hm, Option.some.injEq, Prod.mk.injEq] at h
      obtain ⟨rfl, rfl⟩ := h
      exact ⟨le_refl _, placeholder_match_pos _ _ hm⟩
    | none =>
      simp only [hm] at h
      have := ih (i + 1) start len h
      omega

/-- The result of `parse_loop` does not depend on the fuel once the fuel covers the part of
the template behind `last_pos`: the fuel `template_string.length` of `parse` is never used
up. -/
theorem parse_loop_fuel (template_string : Str) :
    ∀ (fuel fuel' last_pos : Nat) (parsed : List TemplateSegment),
      template_string.length - last_pos ≤ fuel → template_string.length - last_pos ≤ fuel' →
        parse_loop template_string fuel last_pos parsed
          = parse_loop template_string fuel' last_pos parsed := by
  intro fuel
  induction fuel with
  | zero =>
    intro fuel' last_pos parsed h _
    have hdrop : template_string.drop last_pos = [] := List.drop_eq_nil_of_le (by omega)
    cases fuel' with
    | zero => rfl
    | succ fuel' => simp only [parse_loop, hdrop, regex_search_from]
  | succ fuel ih =>
    intro fuel' last_pos parsed h h'
    cases fuel' with
    | zero =>
      have hdrop : template_string.drop last_pos = [] := List.drop_eq_nil_of_le (by omega)
      simp only [parse_loop, hdrop, regex_search_from]
    | succ fuel' =>
      simp only [parse_loop]
      cases hs : regex_search_from (template_string.drop last_pos) last_pos with
      | none => rfl
      | some m =>
        obtain ⟨match_start, match_length⟩ := m
        obtain ⟨hge, hlen⟩ := regex_search_from_ge _ _ _ _ hs
        have hnext : ∀ parsed', parse_loop template_string fuel (match_start + match_length)
            parsed' = parse_loop template_string fuel' (match_start + match_length) parsed' :=
          fun parsed' => ih fuel' _ parsed' (by omega) (by omega)
        simp only
        split_ifs <;> first | exact hnext _ | rfl

/-! ## C21: the vocabulary of a BPE pipeline after construction -/

set_option maxRecDepth 100000 in
/-- C21 fails on the code: `BPETokenizer::set_vocab(v)` keeps no entry of `v`, because
`initialize_special_tokens` clears the vocabulary it is handed; what is left does not depend
on `v`. For a BPE model that maps `low` to `7` and `er` to `8` the constructor of the pipeline
first fills the vocabulary (`low` under `7`), and after the construction `token_to_id("low")`
is `-1` and `id_to_token(7)` is the empty string. -/
theorem set_vocab_drops_model_entries :
    (∀ (t : BPETokenizer) (config_ : TokenizerConfig) (v : Vocab),
      (t.set_vocab config_ v).vocab_
        = BPETokenizer.initialize_special_tokens config_ Vocab.empty) ∧
      (∀ (config : TokenizerConfig) (model_vocab : List (Str × Int))
        (model_scores : List (Str × Rat)) (model_merges : List Str)
        (normalize impl_normalize : Str → Str) (pre : Option (Str → List Str))
        (post : Vocab → Option (List Int → Except String (List Int))),
        (TokenizerAdvanced.make_bpe config model_vocab model_scores model_merges normalize
          impl_normalize pre post).vocab_ =
          ((BPETokenizer.with_rules
              (BPETokenizer.initialize_special_tokens TokenizerConfig.default Vocab.empty)
              (parse_merge_rules model_merges)).set_vocab TokenizerConfig.default
            (TokenizerAdvanced.init_vocab config model_vocab model_scores)).vocab_) ∧
      (TokenizerAdvanced.init_vocab TokenizerConfig.default low_model_vocab []).get_token_id
        "low".toList = 7 ∧
      (TokenizerAdvanced.init_vocab TokenizerConfig.default low_model_vocab []).get_token 7
        = "low".toList ∧
      low_pipeline.token_to_id "low".toList = -1 ∧
      low_pipeline.id_to_token 7 = [] ∧
      low_pipeline.token_to_id "er".toList = -1 ∧
      low_pipeline.id_to_token 8 = [] := by
  refine ⟨fun _ _ _ => rfl, fun _ _ _ _ _ _ _ _ => rfl, ?_, ?_, ?_, ?_, ?_, ?_⟩ <;> decide

/-! ## C22: saving and loading a vocabulary -/

/-- C22 fails on the code: the bodies of `Vocab::save` and `Vocab::load` are empty. `save`
writes no byte, `load` leaves the vocabulary as it was, so a fresh vocabulary that loads what
the vocabulary `a -> 0` saved is still empty: the id of `a` is `-1`, not `0`, and `next_id`
is `0`, not `1`. -/
theorem vocab_save_load_restores_nothing :
    (∀ (v : Vocab) (out : Str), v.save out = out) ∧
      (∀ (v fresh : Vocab), (fresh.load (v.save [])).1 = fresh) ∧
      plain_a_vocab.get_token_id "a".toList = 0 ∧
      plain_a_vocab.next_id_ = 1 ∧
      plain_a_vocab.save [] = [] ∧
      (Vocab.empty.load (plain_a_vocab.save [])).1 = Vocab.empty ∧
      (Vocab.empty.load (plain_a_vocab.save [])).1.get_token_id "a".toList = -1 ∧
      (Vocab.empty.load (plain_a_vocab.save [])).1.next_id_ = 0 ∧
      (Vocab.empty.load (plain_a_vocab.save [])).1 ≠ plain_a_vocab := by
  refine ⟨fun _ _ => rfl, fun _ _ => rfl, ?_, ?_, ?_, ?_, ?_, ?_, ?_⟩ <;> decide

/-! ## C23: the textual form of the configuration -/

set_option maxRecDepth 100000 in
/-- C23 fails on the code for `vocab_size`: `to_string` writes `vocab_size` right after the
opening brace, and `from_string` takes a key only when a blank stands before it, so the first
key is skipped and `vocab_size` keeps its default `30000`. For the default configuration with
`vocab_size = 1000` the result differs from the configuration in `vocab_size` alone; the same
holds for a configuration whose strings hold blanks and `=`. -/
theorem config_text_loses_vocab_size :
    TokenizerConfig.from_string thousand_config.to_string = Except.ok TokenizerConfig.default ∧
      TokenizerConfig.from_string thousand_config.to_string ≠ Except.ok thousand_config ∧
      TokenizerConfig.from_string busy_config.to_string
        = Except.ok { busy_config with vocab_size := 30000 } ∧
      TokenizerConfig.from_string TokenizerConfig.default.to_string
        = Except.ok TokenizerConfig.default := by
  refine ⟨?_, ?_, ?_, ?_⟩ <;> decide

/-! ## C25, C26: the template parser -/

set_option maxRecDepth 100000 in
/-- C25 fails on the code: `parse` takes a match of the placeholder pattern for a variable
only when it begins with two opening braces and a blank, so the placeholder `{{message}}` of
the documented template `<bos>{{message}}<eos>` reaches the last branch and `parse` throws.
With a blank after the braces the placeholder is a VARIABLE segment whose value begins with
that blank, between the two LITERAL segments. -/
theorem parse_documented_template_raises :
    TemplateParser.parse "<bos>\x7b\x7bmessage\x7d\x7d<eos>".toList
        = Except.error "Malformed template placeholder: \x7b\x7bmessage\x7d\x7d" ∧
      TemplateParser.parse "\x7b\x7bmessage\x7d\x7d".toList
        = Except.error "Malformed template placeholder: \x7b\x7bmessage\x7d\x7d" ∧
      TemplateParser.parse "<bos>\x7b\x7b message\x7d\x7d<eos>".toList
        = Except.ok [TemplateSegment.make SegmentType.LITERAL "<bos>".toList,
            TemplateSegment.make SegmentType.VARIABLE " message".toList,
            TemplateSegment.make SegmentType.LITERAL "<eos>".toList] := by
  refine ⟨?_, ?_, ?_⟩ <;> decide

set_option maxRecDepth 100000 in
/-- C26 fails on the code: the placeholder pattern matches closed placeholders only, so an
opening `{{` without a closing `}}` and an opening `[` without a closing `]` are never
matched; `parse` returns them as LITERAL text and throws nothing. -/
theorem parse_unclosed_placeholder_is_literal :
    TemplateParser.parse "<bos>\x7b\x7bmessage<eos>".toList
        = Except.ok [TemplateSegment.make SegmentType.LITERAL
            "<bos>\x7b\x7bmessage<eos>".toList] ∧
      TemplateParser.parse "\x7b\x7bmessage".toList
        = Except.ok [TemplateSegment.make SegmentType.LITERAL "\x7b\x7bmessage".toList] ∧
      TemplateParser.parse "[CLS".toList
        = Except.ok [TemplateSegment.make SegmentType.LITERAL "[CLS".toList] ∧
      TemplateParser.parse "[CLS\x7b\x7b message\x7d\x7d".toList
        = Except.ok [TemplateSegment.make SegmentType.LITERAL "[CLS".toList,
            TemplateSegment.make SegmentType.VARIABLE " message".toList] := by
  refine ⟨?_, ?_, ?_, ?_⟩ <;> decide

/-! ## C30: training on an empty corpus -/

/-- C30: with an empty corpus `BPETrainer::train` and `BPETokenizer::train` throw in their
first statement: the trainer, the vocabulary behind the pointer and the tokenizer (vocabulary,
merge rules and rank table) are after the call what they were before it. -/
theorem train_empty_corpus_keeps_state :
    (∀ (t : BPETrainer) (vocab : Vocab) (vocab_size : Nat),
      t.train_effect [] vocab vocab_size
          = (some "Empty corpus provided for training", t, vocab) ∧
        t.train [] vocab vocab_size = Except.error "Empty corpus provided for training") ∧
      (∀ (b : BPETokenizer) (config_ : TokenizerConfig) (normalizer : Str → Str)
        (vocab_size : Nat),
        b.train config_ normalizer [] vocab_size
          = (some "Empty corpus provided for training", b)) :=
  ⟨fun _ _ _ => ⟨rfl, rfl⟩, fun _ _ _ _ => rfl⟩

/-! ## C24: the BERT post-processor -/

theorem Vocab.Reachable.token_id_nonneg {v : Vocab} (hv : v.Reachable) (token : Str)
    (h : v.has_token token = true) : 0 ≤ v.get_token_id token := by
  unfold Vocab.get_token_id
  cases hf : umFind v.token_to_id_ token with
  | none => simp [Vocab.has_token, hf] at h
  | some i => exact (hv.idsBelowNext.2 token i hf).1

set_option maxRecDepth 100000 in
/-- C24 as stated fails once `next_id_` has overflowed: after `add_token("x", INT_MAX)`,
`add_special_token("[CLS]", CLS)` and `add_special_token("[SEP]", SEP)` the vocabulary contains
the configured CLS and SEP tokens under the ids `INT_MIN` and `INT_MIN + 1`; the tests
`cls_token_id_ >= 0` and `sep_token_id_ >= 0` of `process_ids` fail and the input ids are
returned as they are. -/
theorem bert_process_ids_negative_counterexample :
    (Vocab.empty.run negative_cls_sep_ops).has_token TokenizerConfig.default.cls_token = true ∧
      (Vocab.empty.run negative_cls_sep_ops).has_token TokenizerConfig.default.sep_token
        = true ∧
      (Vocab.empty.run negative_cls_sep_ops).get_token_id TokenizerConfig.default.cls_token
        = -2147483648 ∧
      (Vocab.empty.run negative_cls_sep_ops).get_token_id TokenizerConfig.default.sep_token
        = -2147483647 ∧
      (BertPostProcessor.make TokenizerConfig.default
        (Vocab.empty.run negative_cls_sep_ops)).process_ids [2, 3, 2] = [2, 3, 2] := by
  refine ⟨?_, ?_, ?_, ?_, ?_⟩ <;> decide

/-- C24, amended: for every id list and every vocabulary, built from the empty one by calls
of the methods of `Vocab` none of which assigns the id `INT_MAX`, that contains the configured
CLS and SEP tokens, `process_ids` of the BERT post-processor built from them returns the CLS
id, the input ids unchanged and in order, then the SEP id: the result is two longer than the
input. -/
theorem bert_process_ids_wraps (config : TokenizerConfig) (vocab : Vocab) (ids : List Int)
    (hv : vocab.Reachable) (hcls : vocab.has_token config.cls_token = true)
    (hsep : vocab.has_token config.sep_token = true) :
    (BertPostProcessor.make config vocab).process_ids ids
        = vocab.get_token_id config.cls_token :: (ids ++ [vocab.get_token_id config.sep_token]) ∧
      ((BertPostProcessor.make config vocab).process_ids ids).length = ids.length + 2 := by
  have h1 := hv.token_id_nonneg _ hcls
  have h2 := hv.token_id_nonneg _ hsep
  have h : (BertPostProcessor.make config vocab).process_ids ids
      = vocab.get_token_id config.cls_token :: (ids ++ [vocab.get_token_id config.sep_token]) := by
    simp [BertPostProcessor.process_ids, BertPostProcessor.make, h1, h2]
  rw [h]
  exact ⟨rfl, by simp⟩

theorem bert_process_ids_wraps_witness :
    cls_sep_vocab.Reachable ∧
      cls_sep_vocab.has_token TokenizerConfig.default.cls_token = true ∧
      cls_sep_vocab.has_token TokenizerConfig.default.sep_token = true ∧
      (BertPostProcessor.make TokenizerConfig.default cls_sep_vocab).process_ids [2, 3, 2]
        = [0, 2, 3, 2, 1] :=
  ⟨Vocab.reachable_run _ _ Vocab.Reachable.empty (by decide), by decide, by decide,
    (bert_process_ids_wraps TokenizerConfig.default cls_sep_vocab [2, 3, 2]
      (Vocab.reachable_run _ _ Vocab.Reachable.empty (by decide)) (by decide) (by decide)).1⟩

/-! ## C28: the pair that `train` selects -/

theorem best_pair_loop_of_le (l : List ((Str × Str) × Int)) :
    ∀ st : (Str × Str) × Int, (∀ x ∈ l, x.2 ≤ st.2) → best_pair_loop l st = st := by
  induction l with
  | nil => intro st _; rfl
  | cons x l ih =>
    intro st h
    obtain ⟨pair, freq⟩ := x
    have hx : ¬ freq > st.2 := not_lt.mpr (h (pair, freq) (List.mem_cons_self _ _))
    simp only [best_pair_loop, hx, if_false]
    exact ih st fun y hy => h y (List.mem_cons_of_mem _ hy)

theorem best_pair_loop_first_max (pre post : List ((Str × Str) × Int))
    (e : (Str × Str) × Int) (hpre : ∀ x ∈ pre, x.2 < e.2) (hpost : ∀ x ∈ post, x.2 ≤ e.2) :
    ∀ st : (Str × Str) × Int, st.2 < e.2 → best_pair_loop (pre ++ e :: post) st = e := by
  induction pre with
  | nil =>
    intro st hst
    obtain ⟨pair, freq⟩ := e
    have hgt : freq > st.2 := hst
    simp only [List.nil_append, best_pair_loop, hgt, if_true]
    exact best_pair_loop_of_le post _ hpost
  | cons x pre ih =>
    intro st hst
    obtain ⟨pair, freq⟩ := x
    have hx : freq < e.2 := hpre (pair, freq) (List.mem_cons_self _ _)
    have ih' := ih fun y hy => hpre y (List.mem_cons_of_mem _ hy)
    by_cases hgt : freq > st.2
    · simp only [List.cons_append, best_pair_loop, hgt, if_true]
      exact ih' (pair, freq) hx
    · simp only [List.cons_append, best_pair_loop, hgt, if_false]
      exact ih' st hst

set_option maxRecDepth 100000 in
/-- C28 as stated fails: the pair table of the first iteration on the seed corpus holds three
pairs of the maximal frequency 16; enumerated in insertion order the loop selects `(<, /)`,
enumerated in the reverse order it selects `(w, >)`. -/
theorem best_pair_order_counterexample :
    seed_pair_counts.reverse.Perm seed_pair_counts ∧
      best_pair_loop seed_pair_counts (([], []), 0) = (("<".toList, "/".toList), 16) ∧
      best_pair_loop seed_pair_counts.reverse (([], []), 0)
        = (("w".toList, ">".toList), 16) ∧
      (best_pair_loop seed_pair_counts.reverse (([], []), 0)).1
        ≠ (best_pair_loop seed_pair_counts (([], []), 0)).1 := by
  refine ⟨List.reverse_perm _, ?_, ?_, ?_⟩ <;> decide

/-- C28, amended: the selection loop of `train` returns the first entry, in the order of
enumeration, among the entries of maximal frequency (when that frequency is positive); and
when a single entry has the maximal frequency, every enumeration of the same entries selects
that entry. -/
theorem best_pair_first_maximum (pre post : List ((Str × Str) × Int))
    (e : (Str × Str) × Int) (hpos : 0 < e.2) (hpre : ∀ x ∈ pre, x.2 < e.2)
    (hpost : ∀ x ∈ post, x.2 ≤ e.2) :
    best_pair_loop (pre ++ e :: post) (([], []), 0) = e ∧
      ((∀ x ∈ post, x.2 < e.2) → ∀ l : List ((Str × Str) × Int),
        l.Perm (pre ++ e :: post) → best_pair_loop l (([], []), 0) = e) := by
  refine ⟨best_pair_loop_first_max pre post e hpre hpost _ hpos, ?_⟩
  intro hlt l hl
  have hmem : e ∈ l := hl.symm.subset (by simp)
  rcases best_pair_loop_spec l (([], []), 0) with ⟨_, h2⟩ | ⟨h1, _, h3⟩
  · exact absurd (h2 e hmem) (not_le.mpr hpos)
  · have hin := hl.subset h1
    have hle := h3 e hmem
    rcases List.mem_append.mp hin with hp | hp
    · exact absurd hle (not_le.mpr (hpre _ hp))
    · rcases List.mem_cons.mp hp with he | hp
      · exact he
      · exact absurd hle (not_le.mpr (hlt _ hp))

set_option maxRecDepth 100000 in
theorem best_pair_first_maximum_witness :
    (0 : Int) < 2 ∧
      best_pair_loop
          ([(("a".toList, "b".toList), 1)] ++ (("b".toList, "c".toList), 2) ::
            [(("c".toList, "d".toList), 2), (("d".toList, "e".toList), 1)])
          (([], []), 0) = (("b".toList, "c".toList), 2) :=
  ⟨by decide,
    (best_pair_first_maximum [(("a".toList, "b".toList), 1)]
      [(("c".toList, "d".toList), 2), (("d".toList, "e".toList), 1)]
      (("b".toList, "c".toList), 2) (by decide) (by decide) (by decide)).1⟩

/-! ## C27: the chat template post-processor -/

theorem Vocab.InOrder.has_token_iff {v : Vocab} {order : List Str} (h : v.InOrder order)
    (token : Str) : v.has_token token = true ↔ token ∈ order := by
  obtain ⟨_, _, hf⟩ := h
  unfold Vocab.has_token
  constructor
  · intro ht
    cases hu : umFind v.token_to_id_ token with
    | none => simp [hu] at ht
    | some i =>
      obtain ⟨j, hj, _⟩ := (hf token i).mp hu
      exact List.getElem?_mem hj
  · intro hm
    obtain ⟨j, hj⟩ := List.mem_iff_getElem?.mp hm
    rw [(hf token j).mpr ⟨j, hj, rfl⟩]
    rfl

theorem Vocab.inOrder_empty : Vocab.empty.InOrder [] := by
  refine ⟨rfl, List.nodup_nil, ?_⟩
  intro token i
  simp [Vocab.empty, umFind]

theorem inOrder_lookup_push (m : List (Str × Int)) (order : List Str) (token : Str)
    (hfresh : token ∉ order)
    (hf : ∀ (u : Str) (i : Int), umFind m u = some i ↔ ∃ j : Nat, order[j]? = some u ∧ i = j) :
    ∀ (u : Str) (i : Int), umFind (umSet m token (order.length : Int)) u = some i ↔
      ∃ j : Nat, (order ++ [token])[j]? = some u ∧ i = j := by
  intro u i
  rw [umFind_umSet]
  by_cases hk : token = u
  · subst hk
    simp only [if_true, Option.some.injEq]
    constructor
    · intro hi
      exact ⟨order.length, by simp, hi.symm⟩
    · rintro ⟨j, hj, rfl⟩
      rcases lt_trichotomy j order.length with hlt | heq | hgt
      · rw [List.getElem?_append_left hlt] at hj
        exact absurd (List.getElem?_mem hj) hfresh
      · rw [heq]
      · rw [List.getElem?_eq_none (by simp; omega)] at hj
        cases hj
  · simp only [hk, if_false]
    rw [hf u i]
    constructor
    · rintro ⟨j, hj, rfl⟩
      have hlt : j < order.length := (List.getElem?_eq_some_iff.mp hj).1
      exact ⟨j, by rw [List.getElem?_append_left hlt]; exact hj, rfl⟩
    · rintro ⟨j, hj, rfl⟩
      rcases lt_trichotomy j order.length with hlt | heq | hgt
      · rw [List.getElem?_append_left hlt] at hj
        exact ⟨j, hj, rfl⟩
      · subst heq
        simp at hj
        exact absurd hj hk
      · rw [List.getElem?_eq_none (by simp; omega)] at hj
        cases hj

theorem char_toNat_lt (c : Char) : c.toNat < 1114112 := by
  have h := c.valid
  unfold Char.toNat
  unfold UInt32.isValidChar Nat.isValidChar at h
  omega

theorem char_toNat_injective (c d : Char) (h : c.toNat = d.toNat) : c = d := by
  apply Char.ext
  apply UInt32.ext
  exact h

theorem nodup_nat_length_le (l : List Nat) (n : Nat) (hnd : l.Nodup) (hlt : ∀ x ∈ l, x < n) :
    l.length ≤ n := by
  have hsub : l ⊆ List.range n := fun x hx => List.mem_range.mpr (hlt x hx)
  have := (List.subperm_of_subset hnd hsub).length_le
  simpa using this

/-- There are at most `1114112` strings of one `char`. -/
theorem singleton_keys_length_le (l : List Str) (hnd : l.Nodup)
    (hs : ∀ k ∈ l, ∃ c : Char, k = [c]) : l.length ≤ 1114112 := by
  have hmap : (l.map fun k => (k.headD 'a').toNat).Nodup := by
    apply List.Nodup.map_on _ hnd
    intro x hx y hy hxy
    obtain ⟨c, rfl⟩ := hs x hx
    obtain ⟨d, rfl⟩ := hs y hy
    simp only [List.headD_cons] at hxy
    rw [char_toNat_injective c d hxy]
  have := nodup_nat_length_le _ 1114112 hmap (by
    intro x hx
    obtain ⟨k, _, rfl⟩ := List.mem_map.mp hx
    exact char_toNat_lt _)
  simpa using this

theorem push_token_length (order : List Str) (token : Str) :
    order.length ≤ (push_token order token).length ∧
      (push_token order token).length ≤ order.length + 1 := by
  unfold push_token
  split_ifs <;> simp

theorem in_range_of_inOrder {v : Vocab} {order : List Str} (h : v.InOrder order)
    (hlen : order.length < 2147483647) : 0 ≤ v.next_id_ ∧ v.next_id_ < 2147483647 := by
  rw [h.1]
  omega

theorem Vocab.InOrder.add_token {v : Vocab} {order : List Str} (h : v.InOrder order)
    (token : Str) (hlen : order.length < 2147483647) :
    (v.add_token token (-1)).InOrder (push_token order token) := by
  rcases v.noop_or_absent token with hno | ⟨hne, habs⟩
  · rw [v.add_token_eq_of_noop token (-1) hno]
    have : token = [] ∨ token ∈ order := hno.imp id (h.has_token_iff token).mp
    simpa [push_token, this] using h
  · have hfresh : token ∉ order := fun hm => by
      have := (h.has_token_iff token).mpr hm
      simp [habs] at this
    obtain ⟨h0, hlt⟩ := in_range_of_inOrder h hlen
    rw [v.add_token_eq_in_range token (-1) hne habs h0 (by simp [in_range_op, hlt])]
    have hp : push_token order token = order ++ [token] := by
      simp [push_token, hne, hfresh]
    rw [hp]
    obtain ⟨hn, hd, hf⟩ := h
    refine ⟨?_, ?_, ?_⟩
    · simp [hn]
    · exact List.Nodup.append hd (List.nodup_singleton _) (by simpa using hfresh)
    · have := inOrder_lookup_push v.token_to_id_ order token hfresh hf
      simpa [hn] using this

theorem Vocab.InOrder.add_special_token {v : Vocab} {order : List Str} (h : v.InOrder order)
    (token : Str) (type : SpecialTokenType) (hlen : order.length < 2147483647) :
    (v.add_special_token token type).InOrder (push_token order token) := by
  rcases v.noop_or_absent token with hno | ⟨hne, habs⟩
  · rw [v.add_special_token_eq_of_noop token type hno]
    have : token = [] ∨ token ∈ order := hno.imp id (h.has_token_iff token).mp
    simpa [push_token, this] using h
  · have hfresh : token ∉ order := fun hm => by
      have := (h.has_token_iff token).mpr hm
      simp [habs] at this
    obtain ⟨h0, hlt⟩ := in_range_of_inOrder h hlen
    rw [v.add_special_token_eq_in_range token type hne habs h0 (by simp [in_range_op, hlt])]
    have hp : push_token order token = order ++ [token] := by
      simp [push_token, hne, hfresh]
    rw [hp]
    obtain ⟨hn, hd, hf⟩ := h
    refine ⟨?_, ?_, ?_⟩
    · simp [hn]
    · exact List.Nodup.append hd (List.nodup_singleton _) (by simpa using hfresh)
    · have := inOrder_lookup_push v.token_to_id_ order token hfresh hf
      simpa [hn] using this

theorem Vocab.InOrder.add_special_if {v : Vocab} {order : List Str} (h : v.InOrder order)
    (token : Str) (type : SpecialTokenType) (hlen : order.length < 2147483647) :
    (if token ≠ [] then v.add_special_token token type else v).InOrder
      (push_token order token) := by
  by_cases ht : token = []
  · simpa [ht, push_token] using h
  · simpa [ht] using h.add_special_token token type hlen

theorem foldl_push_counts_length (min_frequency : Nat) (counts : List (Str × Int)) :
    ∀ order : List Str,
      order.length ≤ (counts.foldl
        (fun o tc => if tc.2.toNat ≥ min_frequency then push_token o tc.1 else o) order).length ∧
      (counts.foldl
        (fun o tc => if tc.2.toNat ≥ min_frequency then push_token o tc.1 else o) order).length
        ≤ order.length + counts.length := by
  induction counts with
  | nil => intro order; simp
  | cons tc counts ih =>
    intro order
    simp only [List.foldl_cons, List.length_cons]
    have h1 := ih (if tc.2.toNat ≥ min_frequency then push_token order tc.1 else order)
    have h2 := push_token_length order tc.1
    split_ifs at h1 ⊢ <;> omega

theorem inOrder_foldl_counts (min_frequency : Nat) (counts : List (Str × Int)) :
    ∀ (v : Vocab) (order : List Str), v.InOrder order →
      order.length + counts.length < 2147483647 →
      (counts.foldl (fun v tc => if tc.2.toNat ≥ min_frequency then v.add_token tc.1 (-1) else v)
        v).InOrder
        (counts.foldl (fun o tc => if tc.2.toNat ≥ min_frequency then push_token o tc.1 else o)
          order) := by
  induction counts with
  | nil => exact fun _ _ h _ => h
  | cons tc counts ih =>
    intro v order h hlen
    simp only [List.foldl_cons]
    simp only [List.length_cons] at hlen
    have hp := push_token_length order tc.1
    by_cases hc : tc.2.toNat ≥ min_frequency
    · simp only [hc, if_true]
      exact ih _ _ (h.add_token tc.1 (by omega)) (by omega)
    · simp only [hc, if_false]
      exact ih _ _ h (by omega)

theorem foldl_push_token_fresh (tokens : List Str) : ∀ done : List Str,
    (done ++ tokens.filter fun token => decide (token ≠ [])).Nodup →
      tokens.foldl push_token done = done ++ tokens.filter fun token => decide (token ≠ []) := by
  induction tokens with
  | nil => intro done _; simp
  | cons token tokens ih =>
    intro done hd
    simp only [List.foldl_cons]
    by_cases ht : token = []
    · have hp : push_token done token = done := by simp [push_token, ht]
      rw [hp]
      simp only [ht, ne_eq, not_true_eq_false, decide_False, Bool.false_eq_true,
        not_false_eq_true, List.filter_cons_of_neg] at hd ⊢
      exact ih done hd
    · have hfil : (token :: tokens).filter (fun token => decide (token ≠ []))
          = token :: tokens.filter fun token => decide (token ≠ []) := by
        simp [ht]
      rw [hfil] at hd ⊢
      have hfresh : token ∉ done := by
        intro hm
        have := (List.nodup_append.mp hd).2.2
        exact this hm (List.mem_cons_self _ _)
      have hp : push_token done token = done ++ [token] := by simp [push_token, ht, hfresh]
      rw [hp, ih (done ++ [token]) (by simpa using hd)]
      simp

theorem foldl_push_counts_prefix (min_frequency : Nat) (counts : List (Str × Int)) :
    ∀ order : List Str, ∃ extra : List Str,
      counts.foldl (fun o tc => if tc.2.toNat ≥ min_frequency then push_token o tc.1 else o)
        order = order ++ extra := by
  induction counts with
  | nil => exact fun order => ⟨[], by simp⟩
  | cons tc counts ih =>
    intro order
    simp only [List.foldl_cons]
    by_cases hc : tc.2.toNat ≥ min_frequency
    · simp only [hc, if_true]
      by_cases hp : tc.1 = [] ∨ tc.1 ∈ order
      · simpa [push_token, hp] using ih order
      · obtain ⟨extra, he⟩ := ih (order ++ [tc.1])
        have hpush : push_token order tc.1 = order ++ [tc.1] := by simp [push_token, hp]
        exact ⟨tc.1 :: extra, by rw [hpush, he]; simp⟩
    · simpa [hc] using ih order

theorem mem_foldl_push_counts (min_frequency : Nat) (counts : List (Str × Int)) (token : Str) :
    ∀ order : List Str,
      token ∈ counts.foldl
          (fun o tc => if tc.2.toNat ≥ min_frequency then push_token o tc.1 else o) order ↔
        token ∈ order ∨
          (token ≠ [] ∧ ∃ tc ∈ counts, tc.1 = token ∧ tc.2.toNat ≥ min_frequency) := by
  induction counts with
  | nil => intro order; simp
  | cons tc counts ih =>
    intro order
    simp only [List.foldl_cons]
    rw [ih]
    have hpush : token ∈ push_token order tc.1 ↔ token ∈ order ∨ (token ≠ [] ∧ tc.1 = token) := by
      unfold push_token
      by_cases hp : tc.1 = [] ∨ tc.1 ∈ order
      · simp only [hp, if_true]
        constructor
        · exact Or.inl
        · rintro (h | ⟨hne, rfl⟩)
          · exact h
          · rcases hp with hp | hp
            · exact absurd hp hne
            · exact hp
      · simp only [hp, if_false, List.mem_append, List.mem_singleton]
        push_neg at hp
        constructor
        · rintro (h | rfl)
          · exact Or.inl h
          · exact Or.inr ⟨hp.1, rfl⟩
        · rintro (h | ⟨_, rfl⟩)
          · exact Or.inl h
          · exact Or.inr rfl
    by_cases hc : tc.2.toNat ≥ min_frequency
    · simp only [hc, if_true, hpush, List.mem_cons, exists_eq_or_imp]
      tauto
    · simp only [hc, if_false, List.mem_cons, exists_eq_or_imp]
      tauto

theorem umFind_umAdd {K : Type} [DecidableEq K] (m : List (K × Int)) (k k' : K) (d : Int) :
    umFind (umAdd m k d) k'
      = if k = k' then some ((umFind m k).getD 0 + d) else umFind m k' := by
  induction m with
  | nil => simp [umAdd, umFind]
  | cons e m ih =>
    obtain ⟨k0, v0⟩ := e
    by_cases h : k0 = k
    · subst h
      by_cases h' : k0 = k' <;> simp [umAdd, umFind, h']
    · by_cases h' : k0 = k'
      · subst h'
        simp [umAdd, umFind, h, Ne.symm h]
      · simp [umAdd, umFind, h, h', ih]

theorem umAdd_keys {K : Type} [DecidableEq K] (m : List (K × Int)) (k : K) (d : Int) :
    (umAdd m k d).map Prod.fst
      = if k ∈ m.map Prod.fst then m.map Prod.fst else m.map Prod.fst ++ [k] := by
  induction m with
  | nil => simp [umAdd]
  | cons e m ih =>
    obtain ⟨k0, v0⟩ := e
    by_cases h : k0 = k
    · subst h
      simp [umAdd]
    · have h' : ¬ k = k0 := fun e => h e.symm
      simp only [umAdd, h, if_false, List.map_cons, ih, List.mem_cons, h', false_or]
      split_ifs <;> simp

theorem umAdd_keys_nodup {K : Type} [DecidableEq K] (m : List (K × Int)) (k : K) (d : Int)
    (h : (m.map Prod.fst).Nodup) : ((umAdd m k d).map Prod.fst).Nodup := by
  rw [umAdd_keys]
  split_ifs with hk
  · exact h
  · exact List.Nodup.append h (List.nodup_singleton _) (by simpa using hk)

theorem mem_iff_umFind {K V : Type} [DecidableEq K] (m : List (K × V))
    (h : (m.map Prod.fst).Nodup) (k : K) (v : V) : (k, v) ∈ m ↔ umFind m k = some v := by
  induction m with
  | nil => simp [umFind]
  | cons e m ih =>
    obtain ⟨k0, v0⟩ := e
    simp only [List.map_cons, List.nodup_cons] at h
    by_cases hk : k0 = k
    · subst hk
      simp only [umFind, if_true, List.mem_cons, Prod.mk.injEq, true_and, Option.some.injEq]
      constructor
      · rintro (rfl | hm)
        · rfl
        · exact absurd (List.mem_map_of_mem Prod.fst hm) h.1
      · intro e
        exact Or.inl e.symm
    · have hk' : ¬ k = k0 := fun e => hk e.symm
      simp only [umFind, hk, if_false, List.mem_cons, Prod.mk.injEq, hk', false_and, false_or]
      exact ih h.2

theorem umFind_count_word (w : Str) (n : Int) (c : Char) : ∀ m : List (Str × Int),
    umFind (w.foldl (fun counts c' => umAdd counts [c'] n) m) [c]
      = if c ∈ w then some ((umFind m [c]).getD 0 + (w.count c : Int) * n)
        else umFind m [c] := by
  induction w with
  | nil => intro m; simp
  | cons c' w ih =>
    intro m
    simp only [List.foldl_cons]
    rw [ih, umFind_umAdd]
    by_cases hc : c' = c
    · subst hc
      simp only [if_true, Option.getD_some, List.mem_cons, true_or, List.count_cons_self]
      by_cases hw : c' ∈ w
      · simp only [hw, if_true, Option.some.injEq]
        push_cast
        ring
      · simp only [hw, if_false, Option.some.injEq, List.count_eq_zero_of_not_mem hw]
        push_cast
        ring
    · have h1 : ¬ [c'] = [c] := fun e => hc (List.cons.inj e).1
      have h2 : ¬ c = c' := fun e => hc e.symm
      simp only [h1, if_false, List.mem_cons, h2, false_or]
      rw [List.count_cons_of_ne h2]

theorem keys_nodup_count_word (w : Str) (n : Int) : ∀ m : List (Str × Int),
    (m.map Prod.fst).Nodup →
      ((w.foldl (fun counts c' => umAdd counts [c'] n) m).map Prod.fst).Nodup := by
  induction w with
  | nil => exact fun _ h => h
  | cons c' w ih => exact fun m h => ih _ (umAdd_keys_nodup m [c'] n h)

theorem initial_vocab_counts_keys_nodup (word_counts : List (Str × Int)) :
    ((initial_vocab_counts word_counts).map Prod.fst).Nodup := by
  unfold initial_vocab_counts
  suffices h : ∀ m : List (Str × Int), (m.map Prod.fst).Nodup →
      ((word_counts.foldl (fun counts wc =>
        wc.1.foldl (fun counts c => umAdd counts [c] wc.2) counts) m).map Prod.fst).Nodup from
    h [] List.nodup_nil
  induction word_counts with
  | nil => exact fun _ h => h
  | cons wc wcs ih => exact fun m h => ih _ (keys_nodup_count_word wc.1 wc.2 m h)

theorem char_count_eq_zero (word_counts : List (Str × Int)) (c : Char)
    (h : ¬ ∃ wc ∈ word_counts, c ∈ wc.1) : char_count word_counts c = 0 := by
  induction word_counts with
  | nil => rfl
  | cons wc wcs ih =>
    have h1 : c ∉ wc.1 := fun hm => h ⟨wc, List.mem_cons_self _ _, hm⟩
    have h2 : ¬ ∃ wc' ∈ wcs, c ∈ wc'.1 := fun ⟨wc', hm, hc⟩ =>
      h ⟨wc', List.mem_cons_of_mem _ hm, hc⟩
    have := ih h2
    simp only [char_count, List.map_cons, List.sum_cons] at this ⊢
    rw [this, List.count_eq_zero_of_not_mem h1]
    simp

theorem umFind_initial_vocab_counts (word_counts : List (Str × Int)) (c : Char) :
    umFind (initial_vocab_counts word_counts) [c]
      = if ∃ wc ∈ word_counts, c ∈ wc.1 then some (char_count word_counts c) else none := by
  unfold initial_vocab_counts
  suffices h : ∀ m : List (Str × Int),
      umFind (word_counts.foldl (fun counts wc =>
        wc.1.foldl (fun counts c => umAdd counts [c] wc.2) counts) m) [c]
        = if ∃ wc ∈ word_counts, c ∈ wc.1 then
            some ((umFind m [c]).getD 0 + char_count word_counts c)
          else umFind m [c] by
    have := h []
    simpa [umFind] using this
  induction word_counts with
  | nil => intro m; simp
  | cons wc wcs ih =>
    intro m
    simp only [List.foldl_cons]
    rw [ih, umFind_count_word]
    have hcc : char_count (wc :: wcs) c = (wc.1.count c : Int) * wc.2 + char_count wcs c := by
      simp [char_count]
    by_cases h1 : c ∈ wc.1
    · have hex : ∃ wc' ∈ wc :: wcs, c ∈ wc'.1 := ⟨wc, List.mem_cons_self _ _, h1⟩
      simp only [h1, if_true, Option.getD_some, hex, hcc]
      split_ifs with h2
      · congr 1
        ring
      · rw [char_count_eq_zero wcs c h2, add_zero]
    · have h0 : (wc.1.count c : Int) = 0 := by
        rw [List.count_eq_zero_of_not_mem h1]
        rfl
      simp only [h1, if_false, hcc, h0, zero_mul, zero_add, List.mem_cons, exists_eq_or_imp,
        false_or]

theorem umAdd_one_pos {K : Type} [DecidableEq K] (m : List (K × Int)) (k : K)
    (h : ∀ e ∈ m, 1 ≤ e.2) : ∀ e ∈ umAdd m k 1, 1 ≤ e.2 := by
  induction m with
  | nil =>
    intro e he
    simp only [umAdd, List.mem_singleton] at he
    rw [he]
  | cons e0 m ih =>
    obtain ⟨k0, v0⟩ := e0
    have h0 : 1 ≤ v0 := h (k0, v0) (List.mem_cons_self _ _)
    have hm : ∀ e ∈ m, 1 ≤ e.2 := fun e he => h e (List.mem_cons_of_mem _ he)
    intro e he
    by_cases hk : k0 = k
    · simp only [umAdd, hk, if_true, List.mem_cons] at he
      rcases he with rfl | he
      · show 1 ≤ v0 + 1
        omega
      · exact hm e he
    · simp only [umAdd, hk, if_false, List.mem_cons] at he
      rcases he with rfl | he
      · exact h0
      · exact ih hm e he

theorem get_word_counts_pos (t : BPETrainer) (corpus : List Str) :
    ∀ wc ∈ t.get_word_counts corpus, 1 ≤ wc.2 := by
  unfold BPETrainer.get_word_counts
  suffices h : ∀ m : List (Str × Int), (∀ e ∈ m, 1 ≤ e.2) →
      ∀ wc ∈ corpus.foldl (fun counts text =>
        (split_ws (if t.config_.lowercase then (t.normalizer_ text).map Char.toLower
          else t.normalizer_ text)).foldl
          (fun counts word => umAdd counts (word ++ end_of_word) 1) counts) m, 1 ≤ wc.2 from
    h [] (by simp)
  induction corpus with
  | nil => exact fun m h => h
  | cons text corpus ih =>
    intro m h
    simp only [List.foldl_cons]
    apply ih
    generalize split_ws (if t.config_.lowercase then (t.normalizer_ text).map Char.toLower
      else t.normalizer_ text) = words
    clear ih
    induction words generalizing m with
    | nil => exact h
    | cons word words ihw => exact ihw _ (umAdd_one_pos m _ h)

theorem char_count_nonneg (word_counts : List (Str × Int)) (h : ∀ wc ∈ word_counts, 1 ≤ wc.2)
    (c : Char) : 0 ≤ char_count word_counts c := by
  unfold char_count
  apply List.sum_nonneg
  intro x hx
  obtain ⟨wc, hwc, rfl⟩ := List.mem_map.mp hx
  have := h wc hwc
  positivity

theorem keys_singleton_count_word (w : Str) (n : Int) : ∀ m : List (Str × Int),
    (∀ k ∈ m.map Prod.fst, ∃ c : Char, k = [c]) →
      ∀ k ∈ (w.foldl (fun counts c' => umAdd counts [c'] n) m).map Prod.fst,
        ∃ c : Char, k = [c] := by
  induction w with
  | nil => exact fun _ h => h
  | cons c' w ih =>
    intro m h
    simp only [List.foldl_cons]
    apply ih
    intro k hk
    rw [umAdd_keys] at hk
    split_ifs at hk
    · exact h k hk
    · rcases List.mem_append.mp hk with hk | hk
      · exact h k hk
      · exact ⟨c', by simpa using hk⟩

theorem initial_vocab_counts_keys_singleton (word_counts : List (Str × Int)) :
    ∀ k ∈ (initial_vocab_counts word_counts).map Prod.fst, ∃ c : Char, k = [c] := by
  unfold initial_vocab_counts
  suffices h : ∀ m : List (Str × Int), (∀ k ∈ m.map Prod.fst, ∃ c : Char, k = [c]) →
      ∀ k ∈ (word_counts.foldl (fun counts wc =>
        wc.1.foldl (fun counts c => umAdd counts [c] wc.2) counts) m).map Prod.fst,
        ∃ c : Char, k = [c] from
    h [] (by simp)
  induction word_counts with
  | nil => exact fun _ h => h
  | cons wc wcs ih => exact fun m h => ih _ (keys_singleton_count_word wc.1 wc.2 m h)

/-- The table of `char` counts has at most one entry for each `char`. -/
theorem initial_vocab_counts_length_le (word_counts : List (Str × Int)) :
    (initial_vocab_counts word_counts).length ≤ 1114112 := by
  have := singleton_keys_length_le _ (initial_vocab_counts_keys_nodup word_counts)
    (initial_vocab_counts_keys_singleton word_counts)
  simpa using this

theorem seed_vocab_inOrder (t : BPETrainer) (corpus : List Str) (vocab : Vocab) :
    (t.seed_vocab corpus vocab).InOrder
      ((initial_vocab_counts (t.get_word_counts corpus)).foldl
        (fun o tc => if tc.2.toNat ≥ t.min_frequency_ then push_token o tc.1 else o)
        ([t.config_.unk_token, t.config_.pad_token, t.config_.bos_token, t.config_.eos_token,
          t.config_.mask_token, t.config_.sep_token, t.config_.cls_token].foldl push_token [])) := by
  have l1 := (push_token_length [] t.config_.unk_token).2
  have l2 := (push_token_length (push_token [] t.config_.unk_token) t.config_.pad_token).2
  have h1 := Vocab.inOrder_empty.add_special_if t.config_.unk_token SpecialTokenType.UNK
    (by simp)
  have h2 := h1.add_special_if t.config_.pad_token SpecialTokenType.PAD
    (by simp only [List.length_nil] at l1; omega)
  have l3 := (push_token_length _ t.config_.bos_token).2.trans
    (Nat.add_le_add_right l2 1)
  have h3 := h2.add_special_if t.config_.bos_token SpecialTokenType.BOS
    (by simp only [List.length_nil] at l1; omega)
  have l4 := (push_token_length _ t.config_.eos_token).2.trans
    (Nat.add_le_add_right l3 1)
  have h4 := h3.add_special_if t.config_.eos_token SpecialTokenType.EOS
    (by simp only [List.length_nil] at l1; omega)
  have l5 := (push_token_length _ t.config_.mask_token).2.trans
    (Nat.add_le_add_right l4 1)
  have h5 := h4.add_special_if t.config_.mask_token SpecialTokenType.MASK
    (by simp only [List.length_nil] at l1; omega)
  have l6 := (push_token_length _ t.config_.sep_token).2.trans
    (Nat.add_le_add_right l5 1)
  have h6 := h5.add_special_if t.config_.sep_token SpecialTokenType.SEP
    (by simp only [List.length_nil] at l1; omega)
  have l7 := (push_token_length _ t.config_.cls_token).2.trans
    (Nat.add_le_add_right l6 1)
  have h7 := h6.add_special_if t.config_.cls_token SpecialTokenType.CLS
    (by simp only [List.length_nil] at l1; omega)
  have hlen := initial_vocab_counts_length_le (t.get_word_counts corpus)
  exact inOrder_foldl_counts _ _ _ _ h7
    (by simp only [List.length_nil, List.foldl_cons, List.foldl_nil] at l1 ⊢; omega)

set_option maxRecDepth 100000 in
/-- C29 as stated fails for `min_frequency = 0`: on the corpus `aaa` the `char` `z` has the
occurrence count `0`, which is at least `min_frequency`, but the seeding step adds only the
`char`s of its count table, and `z` is not in the vocabulary. -/
theorem seed_vocab_zero_frequency_counterexample :
    (['z'] : Str) ∉ configured_specials zero_frequency_config ∧
      ((BPETrainer.make zero_frequency_config id).min_frequency_ : Int)
        ≤ char_count ((BPETrainer.make zero_frequency_config id).get_word_counts aaa_corpus) 'z' ∧
      ((BPETrainer.make zero_frequency_config id).seed_vocab aaa_corpus Vocab.empty).has_token
        ['z'] = false ∧
      ¬ (((BPETrainer.make zero_frequency_config id).seed_vocab aaa_corpus Vocab.empty).has_token
          ['z'] = true ↔
        ((BPETrainer.make zero_frequency_config id).min_frequency_ : Int)
          ≤ char_count ((BPETrainer.make zero_frequency_config id).get_word_counts aaa_corpus)
              'z') := by
  refine ⟨?_, ?_, ?_, ?_⟩ <;> decide

/-- C29, amended: after the seeding step of `train`, when the configured non-empty special
tokens are pairwise distinct, they hold the ids `0, 1, ...` in the order UNK, PAD, BOS, EOS,
MASK, SEP, CLS and every other text of the vocabulary has a greater id; and a string of one
`char` that is not one of them is in the vocabulary if and only if the `char` occurs in a
word of the word table (each word with its marker) and its occurrence count, weighted by the
counts of the words, is at least `min_frequency`. The seeded vocabulary is the one that the
merge loop of `train` starts from. -/
theorem seed_vocab_contents (t : BPETrainer) (corpus : List Str) (vocab : Vocab)
    (hd : (configured_specials t.config_).Nodup) :
    (∀ (j : Nat) (token : Str), (configured_specials t.config_)[j]? = some token →
        (t.seed_vocab corpus vocab).get_token_id token = j) ∧
      (∀ token : Str, (t.seed_vocab corpus vocab).has_token token = true →
        token ∉ configured_specials t.config_ →
        ((configured_specials t.config_).length : Int)
          ≤ (t.seed_vocab corpus vocab).get_token_id token) ∧
      (∀ c : Char, [c] ∉ configured_specials t.config_ →
        ((t.seed_vocab corpus vocab).has_token [c] = true ↔
          (∃ wc ∈ t.get_word_counts corpus, c ∈ wc.1) ∧
            (t.min_frequency_ : Int) ≤ char_count (t.get_word_counts corpus) c)) ∧
      (∀ vocab_size : Nat, corpus ≠ [] →
        t.train corpus vocab vocab_size
          = Except.ok (train_loop (vocab_size - (t.seed_vocab corpus vocab).size)
              ({ t with word_counts_ := t.get_word_counts corpus },
                t.seed_vocab corpus vocab))) := by
  have hord := seed_vocab_inOrder t corpus vocab
  have hspecials : [t.config_.unk_token, t.config_.pad_token, t.config_.bos_token,
      t.config_.eos_token, t.config_.mask_token, t.config_.sep_token,
      t.config_.cls_token].foldl push_token [] = configured_specials t.config_ := by
    have := foldl_push_token_fresh [t.config_.unk_token, t.config_.pad_token,
      t.config_.bos_token, t.config_.eos_token, t.config_.mask_token, t.config_.sep_token,
      t.config_.cls_token] [] (by simpa [configured_specials] using hd)
    simpa [configured_specials] using this
  rw [hspecials] at hord
  obtain ⟨extra, hextra⟩ := foldl_push_counts_prefix t.min_frequency_
    (initial_vocab_counts (t.get_word_counts corpus)) (configured_specials t.config_)
  have hmem := fun token => mem_foldl_push_counts t.min_frequency_
    (initial_vocab_counts (t.get_word_counts corpus)) token (configured_specials t.config_)
  have hhas := hord.has_token_iff
  rw [hextra] at hord
  obtain ⟨_, _, hfind⟩ := hord
  refine ⟨?_, ?_, ?_, ?_⟩
  · intro j token hj
    have hlt : j < (configured_specials t.config_).length := (List.getElem?_eq_some_iff.mp hj).1
    have : umFind (t.seed_vocab corpus vocab).token_to_id_ token = some (j : Int) :=
      (hfind token j).mpr ⟨j, by rw [List.getElem?_append_left hlt]; exact hj, rfl⟩
    simp [Vocab.get_token_id, this]
  · intro token hin hns
    unfold Vocab.get_token_id
    cases hu : umFind (t.seed_vocab corpus vocab).token_to_id_ token with
    | none => simp [Vocab.has_token, hu] at hin
    | some i =>
      obtain ⟨j, hj, rfl⟩ := (hfind token i).mp hu
      simp only
      by_contra hlt
      have hlt' : j < (configured_specials t.config_).length := by omega
      rw [List.getElem?_append_left hlt'] at hj
      exact hns (List.getElem?_mem hj)
  · intro c hns
    rw [hhas, hmem]
    have hpos := get_word_counts_pos t corpus
    have hnn := char_count_nonneg _ hpos c
    have hnodup := initial_vocab_counts_keys_nodup (t.get_word_counts corpus)
    have hlook := umFind_initial_vocab_counts (t.get_word_counts corpus) c
    constructor
    · rintro (h | ⟨_, tc, htc, hkey, hfreq⟩)
      · exact absurd h hns
      · obtain ⟨key, n⟩ := tc
        simp only at hkey hfreq
        subst hkey
        have hf := (mem_iff_umFind _ hnodup [c] n).mp htc
        rw [hlook] at hf
        split_ifs at hf with hocc
        · refine ⟨hocc, ?_⟩
          cases hf
          omega
    · rintro ⟨hocc, hfreq⟩
      right
      refine ⟨by simp, ([c], char_count (t.get_word_counts corpus) c), ?_, rfl, ?_⟩
      · rw [mem_iff_umFind _ hnodup, hlook]
        simp [hocc]
      · show (char_count (t.get_word_counts corpus) c).toNat ≥ t.min_frequency_
        omega
  · intro vocab_size hne
    unfold BPETrainer.train
    rw [if_neg hne]
    rfl

set_option maxRecDepth 100000 in
theorem seed_vocab_contents_witness :
    (configured_specials seed_config).Nodup ∧
      ((BPETrainer.make seed_config id).seed_vocab aaa_corpus Vocab.empty).get_token_id
        "[UNK]".toList = 0 ∧
      (['a'] : Str) ∉ configured_specials seed_config ∧
      ((BPETrainer.make seed_config id).seed_vocab aaa_corpus Vocab.empty).has_token ['a']
        = true :=
  ⟨by decide,
    (seed_vocab_contents (BPETrainer.make seed_config id) aaa_corpus Vocab.empty (by decide)).1
      0 "[UNK]".toList (by decide),
    by decide,
    ((seed_vocab_contents (BPETrainer.make seed_config id) aaa_corpus Vocab.empty
      (by decide)).2.2.1 'a' (by decide)).mpr ⟨by decide, by decide⟩⟩

/-! ## C31: the length guard of the WordPiece model -/

theorem tokenize_loop_guard (m : WordPieceModel) (k : Int) (word : Str) :
    ∀ (fuel start : Nat) (output_tokens : List Str),
      tokenize_loop { m with max_input_chars_per_word_ := k } word fuel start output_tokens
        = tokenize_loop m word fuel start output_tokens := by
  intro fuel
  induction fuel with
  | zero => intro start output_tokens; rfl
  | succ fuel ih =>
    intro start output_tokens
    simp only [tokenize_loop]
    split_ifs
    · cases find_chunk m.vocab_ word start word.length with
      | none => rfl
      | some r => exact ih _ _
    · rfl

set_option maxRecDepth 100000 in
/-- C31 fails on the code: `tokenize` never reads `max_input_chars_per_word_`, so its result
is the same for every value of the guard. With the default guard `100` a word of 101 `char`s
that is in the vocabulary is returned as that one piece, and with the guard `3` the word
`abcd` is cut into `ab` and `##cd`; neither result is the unknown token alone. -/
theorem wordpiece_ignores_max_input_chars :
    (∀ (m : WordPieceModel) (k : Int) (word : Str),
      WordPieceModel.tokenize { m with max_input_chars_per_word_ := k } word = m.tokenize word) ∧
      long_word.length = 101 ∧
      long_word_model.max_input_chars_per_word_ = 100 ∧
      long_word_model.tokenize long_word = [long_word] ∧
      long_word_model.tokenize long_word ≠ [long_word_model.unk_token_] ∧
      short_guard_model.tokenize "abcd".toList = ["ab".toList, "##cd".toList] ∧
      short_guard_model.tokenize "abcd".toList ≠ [short_guard_model.unk_token_] := by
  refine ⟨?_, by decide, by decide, by decide, by decide, by decide, by decide⟩
  intro m k word
  unfold WordPieceModel.tokenize
  split_ifs
  · rfl
  · exact tokenize_loop_guard m k word _ _ _

/-! ## C33: batches of texts -/

theorem foldl_push_map {α β : Type} (f : α → β) (l : List α) (acc : List β) :
    l.foldl (fun result s => result ++ [f s]) acc = acc ++ l.map f := by
  induction l generalizing acc with
  | nil => simp
  | cons x l ih => simp [ih]

theorem foldl_append_flatten {α : Type} (parts : List (List α)) (acc : List α) :
    parts.foldl (fun result part => result ++ part) acc = acc ++ parts.flatten := by
  induction parts generalizing acc with
  | nil => simp
  | cons p parts ih => simp [ih]

/-- The tasks of `batchNormalize` cover the texts from index `i` on, in order, once the fuel
covers them and the chunks are not empty. -/
theorem batch_futures_flatten (normalize : Str → Str) (texts : List Str) (chunk_size : Nat)
    (hc : 1 ≤ chunk_size) : ∀ (fuel i : Nat), texts.length - i ≤ fuel →
      (batch_futures normalize texts chunk_size fuel i).flatten
        = (texts.drop i).map normalize := by
  intro fuel
  induction fuel with
  | zero =>
    intro i h
    have : texts.drop i = [] := List.drop_eq_nil_of_le (by omega)
    simp [batch_futures, this]
  | succ fuel ih =>
    intro i h
    by_cases hi : i < texts.length
    · simp only [batch_futures, hi, if_true, List.flatten_cons]
      rw [ih (i + chunk_size) (by omega), ← List.map_append, ← List.drop_drop,
        List.take_append_drop]
    · have : texts.drop i = [] := List.drop_eq_nil_of_le (by omega)
      simp [batch_futures, hi, this]

/-- C33: for every list of texts and every value of `hardware_concurrency` (zero counts as
one worker), `batchNormalize` returns the list of `normalize(texts[i])` in the order of the
input, in the sequential branch and in the chunked branch alike; the output is as long as the
input. -/
theorem batchNormalize_eq_map (icu : ICU) (n : UnicodeNormalizer) (hardware_concurrency : Nat)
    (texts : List Str) :
    n.batchNormalize icu hardware_concurrency texts = texts.map (n.normalize icu) ∧
      (n.batchNormalize icu hardware_concurrency texts).length = texts.length ∧
      ∀ i : Nat, (n.batchNormalize icu hardware_concurrency texts)[i]?
        = texts[i]?.map (n.normalize icu) := by
  have h : n.batchNormalize icu hardware_concurrency texts = texts.map (n.normalize icu) := by
    unfold UnicodeNormalizer.batchNormalize
    by_cases he : texts = []
    · simp [he]
    · rw [if_neg he]
      by_cases hbig : texts.length > 1000
      · rw [if_pos hbig]
        simp only
        rw [foldl_append_flatten, List.nil_append]
        have hc : 1 ≤ (texts.length + max 1 hardware_concurrency - 1)
            / max 1 hardware_concurrency := by
          apply Nat.div_pos
          · omega
          · exact lt_of_lt_of_le Nat.zero_lt_one (le_max_left 1 hardware_concurrency)
        rw [batch_futures_flatten _ _ _ hc _ _ (by omega)]
        simp
      · rw [if_neg hbig, foldl_push_map, List.nil_append]
  rw [h]
  exact ⟨rfl, by simp, fun i => by simp⟩

/-! ## C35: the nested vector conversions -/

theorem rows_loop_spec {α : Type} (vecs : List (List α)) :
    ∀ (before : List α) (result : List (List α)),
      rows_loop (before ++ vecs.flatten) (vecs.map List.length) before.length result
        = result ++ vecs := by
  induction vecs with
  | nil => intro before result; simp [rows_loop]
  | cons v vecs ih =>
    intro before result
    simp only [List.map_cons, List.flatten_cons, rows_loop]
    have hrow : ((before ++ (v ++ vecs.flatten)).drop before.length).take v.length = v := by
      simp
    rw [hrow]
    have := ih (before ++ v) (result ++ [v])
    simp only [List.append_assoc, List.length_append, List.singleton_append] at this
    exact this

theorem foldl_push_length {α : Type} (vecs : List (List α)) (acc : List Nat) :
    vecs.foldl (fun lengths v => lengths ++ [v.length]) acc = acc ++ vecs.map List.length :=
  foldl_push_map List.length vecs acc

/-- C35: the nested conversions round-trip. For every list of id lists `v`, rows of any
length and empty rows included, `from_id_vec_vec(to_id_vec_vec(v)) = v`, and for every list of
string lists `w`, `from_string_vec_vec(to_string_vec_vec(w)) = w`; the bridge value holds the
flattened rows and the length of every row. -/
theorem vec_vec_round_trip :
    (∀ v : List (List Int), from_id_vec_vec (to_id_vec_vec v) = v ∧
      (to_id_vec_vec v).data = v.flatten ∧ (to_id_vec_vec v).lengths = v.map List.length) ∧
      (∀ w : List (List Str), from_string_vec_vec (to_string_vec_vec w) = w ∧
        (to_string_vec_vec w).data = w.flatten ∧
        (to_string_vec_vec w).lengths = w.map List.length) := by
  constructor
  · intro v
    have hd : (to_id_vec_vec v).data = v.flatten := by
      simp [to_id_vec_vec, foldl_append_flatten]
    have hl : (to_id_vec_vec v).lengths = v.map List.length := by
      simp [to_id_vec_vec, foldl_push_length]
    refine ⟨?_, hd, hl⟩
    unfold from_id_vec_vec
    rw [hd, hl]
    simpa using rows_loop_spec v [] []
  · intro w
    have hd : (to_string_vec_vec w).data = w.flatten := by
      simp [to_string_vec_vec, foldl_append_flatten]
    have hl : (to_string_vec_vec w).lengths = w.map List.length := by
      simp [to_string_vec_vec, foldl_push_length]
    refine ⟨?_, hd, hl⟩
    unfold from_string_vec_vec
    rw [hd, hl]
    simpa using rows_loop_spec w [] []

/-! ## C36, C37: the merge loop of `encode_bpe` -/

theorem scan_pairs_index (ranks : List (Str × Int)) (l : List Str) :
    ∀ (i : Nat) (st : Int × Int),
      (scan_pairs ranks l i st).2 = st.2 ∨
        ((i : Int) ≤ (scan_pairs ranks l i st).2 ∧
          (scan_pairs ranks l i st).2 + 1 < (i : Int) + l.length) := by
  induction l with
  | nil => intro i st; left; simp [scan_pairs]
  | cons a l ih =>
    intro i st
    cases l with
    | nil => left; simp [scan_pairs]
    | cons b rest =>
      simp only [scan_pairs]
      generalize hst' : (match umFind ranks (pair_key a b) with
        | some r => if st.1 = -1 ∨ r < st.1 then (r, (i : Int)) else st
        | none => st) = st'
      have hcase : st'.2 = st.2 ∨ st'.2 = (i : Int) := by
        rw [← hst']
        cases umFind ranks (pair_key a b) with
        | none => left; rfl
        | some r =>
          simp only
          split_ifs
          · right; rfl
          · left; rfl
      rcases ih (i + 1) st' with h | ⟨h1, h2⟩
      · rcases hcase with hc | hc
        · left
          rw [h, hc]
        · right
          rw [h, hc]
          simp only [List.length_cons]
          constructor <;> omega
      · right
        simp only [List.length_cons] at h2 ⊢
        push_cast at h1 h2 ⊢
        constructor <;> omega

theorem merge_at_length : ∀ (l : List Str) (n : Nat), n + 1 < l.length →
    (merge_at l n).length + 1 = l.length := by
  intro l
  induction l with
  | nil => intro n h; simp at h
  | cons a l ih =>
    intro n h
    cases n with
    | zero =>
      cases l with
      | nil => simp at h
      | cons b rest => simp [merge_at]
    | succ n =>
      cases l with
      | nil => simp at h
      | cons b rest =>
        have := ih n (by simpa using h)
        simp only [merge_at, List.length_cons] at this ⊢
        omega

theorem merge_at_flatten : ∀ (l : List Str) (n : Nat), (merge_at l n).flatten = l.flatten := by
  intro l
  induction l with
  | nil => intro n; cases n <;> rfl
  | cons a l ih =>
    intro n
    cases n with
    | zero =>
      cases l with
      | nil => rfl
      | cons b rest => simp [merge_at]
    | succ n =>
      cases l with
      | nil => rfl
      | cons b rest =>
        have := ih n
        simp only [merge_at, List.flatten_cons] at this ⊢
        rw [this]

theorem flatten_map_single (word : Str) : (word.map fun c => [c]).flatten = word := by
  induction word with
  | nil => rfl
  | cons c word ih => simp [ih]

theorem merge_loop_flatten (ranks : List (Str × Int)) : ∀ (fuel : Nat) (parts : List Str),
    (merge_loop ranks fuel parts).flatten = parts.flatten := by
  intro fuel
  induction fuel with
  | zero => intro parts; rfl
  | succ fuel ih =>
    intro parts
    simp only [merge_loop]
    split_ifs
    · rfl
    · rw [ih, merge_at_flatten]
    · rfl

/-- With fuel for one round less than there are symbols, `merge_loop` computes a complete run
of the loop: it is left by its own condition, after `k` merging rounds, each of which makes
the symbol list one shorter. -/
theorem merge_loop_run (ranks : List (Str × Int)) : ∀ (fuel : Nat) (parts : List Str),
    parts.length ≤ fuel + 1 →
      ∃ k, MergeRun ranks parts k (merge_loop ranks fuel parts) ∧
        (merge_loop ranks fuel parts).length + k = parts.length ∧
        (1 ≤ parts.length → 1 ≤ (merge_loop ranks fuel parts).length) := by
  intro fuel
  induction fuel with
  | zero =>
    intro parts h
    exact ⟨0, MergeRun.size parts (by simpa using h), rfl, fun h1 => h1⟩
  | succ fuel ih =>
    intro parts h
    by_cases hlen : parts.length > 1
    · by_cases hidx : (scan_pairs ranks parts 0 (-1, -1)).2 = -1
      · have hstep : merge_loop ranks (fuel + 1) parts = parts := by
          simp only [merge_loop, hlen, if_true, hidx]
        rw [hstep]
        exact ⟨0, MergeRun.no_rule parts hlen hidx, rfl, fun h1 => h1⟩
      · have hstep : merge_loop ranks (fuel + 1) parts
            = merge_loop ranks fuel
                (merge_at parts (scan_pairs ranks parts 0 (-1, -1)).2.toNat) := by
          simp only [merge_loop, hlen, if_true, hidx, if_false]
        have hvalid : (scan_pairs ranks parts 0 (-1, -1)).2.toNat + 1 < parts.length := by
          rcases scan_pairs_index ranks parts 0 (-1, -1) with h0 | ⟨h1, h2⟩
          · exact absurd h0 hidx
          · push_cast at h1 h2
            omega
        have hshort := merge_at_length parts _ hvalid
        obtain ⟨k, hrun, hk, hpos⟩ := ih
          (merge_at parts (scan_pairs ranks parts 0 (-1, -1)).2.toNat) (by omega)
        rw [hstep]
        exact ⟨k + 1, MergeRun.merge parts k _ hlen hidx hrun, by omega,
          fun _ => hpos (by omega)⟩
    · have hstep : merge_loop ranks (fuel + 1) parts = parts := by
        simp only [merge_loop, hlen, if_false]
      rw [hstep]
      exact ⟨0, MergeRun.size parts (by omega), rfl, fun h1 => h1⟩

/-- C36: for every word of `n >= 1` bytes and every tokenizer (merge rules, rank table,
vocabulary), the merge loop of `encode_bpe` is left after `k` merging rounds with
`k <= n - 1`; every round makes the symbol list one shorter, so `n - k` symbols remain, and
`encode_bpe` returns between 1 and `n` tokens. -/
theorem encode_bpe_merge_bound (t : BPETokenizer) (word : Str) (hn : 1 ≤ word.length) :
    ∃ k, k ≤ word.length - 1 ∧
      MergeRun t.merge_ranks_ (word.map fun c => [c]) k (bpe_parts t word) ∧
      (bpe_parts t word).length = word.length - k ∧
      (t.encode_bpe word).length = word.length - k ∧
      1 ≤ (t.encode_bpe word).length ∧ (t.encode_bpe word).length ≤ word.length := by
  obtain ⟨k, hrun, hk, hpos⟩ := merge_loop_run t.merge_ranks_ word.length
    (word.map fun c => [c]) (by simp)
  have hne : word ≠ [] := by
    intro h
    simp [h] at hn
  have hlen : (t.encode_bpe word).length = (bpe_parts t word).length := by
    simp [BPETokenizer.encode_bpe, hne]
  have h1 := hpos (by simpa using hn)
  simp only [List.length_map] at hk
  refine ⟨k, ?_, hrun, ?_, ?_, ?_, ?_⟩
  · unfold bpe_parts at *
    omega
  · unfold bpe_parts at *
    omega
  · rw [hlen]
    unfold bpe_parts at *
    omega
  · rw [hlen]
    exact h1
  · rw [hlen]
    unfold bpe_parts at *
    omega

set_option maxRecDepth 100000 in
theorem encode_bpe_merge_bound_witness :
    1 ≤ "abc".toList.length ∧
      (∃ k, k ≤ "abc".toList.length - 1 ∧
        MergeRun (BPETokenizer.with_rules small_vocab dup_rules).merge_ranks_
          ("abc".toList.map fun c => [c]) k
          (bpe_parts (BPETokenizer.with_rules small_vocab dup_rules) "abc".toList) ∧
        (bpe_parts (BPETokenizer.with_rules small_vocab dup_rules) "abc".toList).length
          = "abc".toList.length - k ∧
        ((BPETokenizer.with_rules small_vocab dup_rules).encode_bpe "abc".toList).length
          = "abc".toList.length - k ∧
        1 ≤ ((BPETokenizer.with_rules small_vocab dup_rules).encode_bpe "abc".toList).length ∧
        ((BPETokenizer.with_rules small_vocab dup_rules).encode_bpe "abc".toList).length
          ≤ "abc".toList.length) ∧
      ((BPETokenizer.with_rules small_vocab dup_rules).encode_bpe "abc".toList).length = 2 :=
  ⟨by decide,
    encode_bpe_merge_bound (BPETokenizer.with_rules small_vocab dup_rules) "abc".toList
      (by decide),
    by decide⟩

/-- C37: BPE segmentation neither adds nor drops bytes. For every word, every tokenizer
(merge rules, rank table, vocabulary), the texts of the tokens that `encode_bpe` returns
concatenate to the word; a symbol that is not in the vocabulary keeps its text and gets the
id of the UNK role. -/
theorem encode_bpe_texts_concat (t : BPETokenizer) (word : Str) :
    ((t.encode_bpe word).map Token.text).flatten = word ∧
      ∀ token ∈ t.encode_bpe word, t.vocab_.get_token_id token.text < 0 →
        token.id = t.vocab_.get_special_token_id SpecialTokenType.UNK := by
  constructor
  · by_cases hw : word = []
    · simp [BPETokenizer.encode_bpe, hw]
    · have htext : ((bpe_parts t word).map (bpe_token t.vocab_)).map Token.text
          = bpe_parts t word := by
        rw [List.map_map]
        have : (Token.text ∘ bpe_token t.vocab_) = id := by
          funext p
          simp [bpe_token, Token.make]
        rw [this, List.map_id]
      simp only [BPETokenizer.encode_bpe, hw, if_false, htext]
      unfold bpe_parts
      rw [merge_loop_flatten, flatten_map_single]
  · intro token htok hneg
    by_cases hw : word = []
    · simp [BPETokenizer.encode_bpe, hw] at htok
    · simp only [BPETokenizer.encode_bpe, hw, if_false, List.mem_map] at htok
      obtain ⟨p, _, rfl⟩ := htok
      have hneg' : ¬ t.vocab_.get_token_id p ≥ 0 := by
        simpa [bpe_token, Token.make] using hneg
      simp [bpe_token, Token.make, hneg']

/-! ## C38: the rules that `train` learns -/

theorem keys_umAdd_of {K : Type} [DecidableEq K] (P : K → Prop) (m : List (K × Int)) (k : K)
    (d : Int) (hm : ∀ x ∈ m.map Prod.fst, P x) (hk : P k) :
    ∀ x ∈ (umAdd m k d).map Prod.fst, P x := by
  rw [umAdd_keys]
  split_ifs
  · exact hm
  · intro x hx
    rcases List.mem_append.mp hx with h | h
    · exact hm x h
    · rw [List.mem_singleton.mp h]
      exact hk

theorem count_word_pairs_keys (count : Int) : ∀ (symbols : List Str)
    (counts : List ((Str × Str) × Int)),
    (∀ s ∈ symbols, s.length = 1) →
    (∀ k ∈ counts.map Prod.fst, k.1.length = 1 ∧ k.2.length = 1) →
      ∀ k ∈ (count_word_pairs symbols count counts).map Prod.fst,
        k.1.length = 1 ∧ k.2.length = 1 := by
  intro symbols
  induction symbols with
  | nil => intro counts _ h; simpa [count_word_pairs] using h
  | cons a symbols ih =>
    intro counts hs h
    cases symbols with
    | nil => simpa [count_word_pairs] using h
    | cons b rest =>
      simp only [count_word_pairs]
      apply ih _ (fun s hs' => hs s (List.mem_cons_of_mem _ hs'))
      exact keys_umAdd_of (fun k : Str × Str => k.1.length = 1 ∧ k.2.length = 1) counts (a, b)
        count h ⟨hs a (List.mem_cons_self _ _),
          hs b (List.mem_cons_of_mem _ (List.mem_cons_self _ _))⟩

/-- Every key of the pair table is a pair of single `char`s. -/
theorem get_pair_counts_keys (word_counts : List (Str × Int)) :
    ∀ e ∈ get_pair_counts word_counts, e.1.1.length = 1 ∧ e.1.2.length = 1 := by
  have h : ∀ k ∈ (get_pair_counts word_counts).map Prod.fst,
      k.1.length = 1 ∧ k.2.length = 1 := by
    unfold get_pair_counts
    suffices hs : ∀ counts : List ((Str × Str) × Int),
        (∀ k ∈ counts.map Prod.fst, k.1.length = 1 ∧ k.2.length = 1) →
        ∀ k ∈ (word_counts.foldl (fun counts wc =>
          count_word_pairs (wc.1.map fun c => [c]) wc.2 counts) counts).map Prod.fst,
          k.1.length = 1 ∧ k.2.length = 1 from hs [] (by simp)
    induction word_counts with
    | nil => exact fun _ h => h
    | cons wc wcs ih =>
      intro counts hc
      simp only [List.foldl_cons]
      apply ih
      apply count_word_pairs_keys _ _ _ _ hc
      intro s hs
      obtain ⟨c, _, rfl⟩ := List.mem_map.mp hs
      rfl
  intro e he
  exact h e.1 (List.mem_map_of_mem Prod.fst he)

theorem starts_with_mem : ∀ (s needle : Str), starts_with s needle = true →
    ∀ c ∈ needle, c ∈ s := by
  intro s
  induction s with
  | nil =>
    intro needle h c hc
    cases needle with
    | nil => simp at hc
    | cons d needle => simp [starts_with] at h
  | cons x s ih =>
    intro needle h c hc
    cases needle with
    | nil => simp at hc
    | cons d needle =>
      simp only [starts_with, Bool.and_eq_true, decide_eq_true_eq] at h
      rcases List.mem_cons.mp hc with rfl | hc
      · rw [← h.1]
        exact List.mem_cons_self _ _
      · exact List.mem_cons_of_mem _ (ih needle h.2 c hc)

theorem str_find_from_none (needle : Str) (hsp : ' ' ∈ needle) : ∀ (hay : Str) (i : Nat),
    ' ' ∉ hay → str_find_from hay needle i = none := by
  intro hay
  induction hay with
  | nil =>
    intro i _
    have : needle ≠ [] := fun h => by simp [h] at hsp
    simp [str_find_from, this]
  | cons c hay ih =>
    intro i hno
    have hstart : ¬ starts_with (c :: hay) needle = true := fun h =>
      hno (starts_with_mem _ _ h ' ' hsp)
    simp only [str_find_from, hstart, if_false]
    exact ih (i + 1) fun h => hno (List.mem_cons_of_mem _ h)

/-- A word without a blank is not rewritten: the search key of the rewriting loop holds a
blank. -/
theorem rewrite_word_id (first second new_token : Str) (fuel : Nat) (word : Str)
    (hno : ' ' ∉ word) : rewrite_word (pair_key first second) new_token fuel word 0 = word := by
  cases fuel with
  | zero => rfl
  | succ fuel =>
    have hfind : str_find word (pair_key first second) 0 = none := by
      unfold str_find
      simp only [Nat.not_lt_zero, if_false, List.drop_zero]
      exact str_find_from_none _ (by simp [pair_key]) word 0 hno
    simp only [rewrite_word, hfind]

theorem umSet_of_absent {K V : Type} [DecidableEq K] (m : List (K × V)) (k : K) (v : V)
    (h : k ∉ m.map Prod.fst) : umSet m k v = m ++ [(k, v)] := by
  induction m with
  | nil => rfl
  | cons e m ih =>
    obtain ⟨k0, v0⟩ := e
    simp only [List.map_cons, List.mem_cons, not_or] at h
    have hk : ¬ k0 = k := fun e => h.1 e.symm
    simp only [umSet, hk, if_false, List.cons_append, ih h.2]

theorem foldl_umSet_id (f : Str × Int → Str) : ∀ (l acc : List (Str × Int)),
    (∀ wc ∈ l, f wc = wc.1) → ((acc ++ l).map Prod.fst).Nodup →
      l.foldl (fun next wc => umSet next (f wc) wc.2) acc = acc ++ l := by
  intro l
  induction l with
  | nil => intro acc _ _; simp
  | cons wc l ih =>
    intro acc hf hd
    simp only [List.foldl_cons]
    rw [hf wc (List.mem_cons_self _ _)]
    have hfresh : wc.1 ∉ acc.map Prod.fst := by
      intro hm
      rw [List.map_append, List.map_cons] at hd
      exact (List.nodup_append.mp hd).2.2 hm (List.mem_cons_self _ _)
    rw [umSet_of_absent acc wc.1 wc.2 hfresh]
    rw [ih (acc ++ [(wc.1, wc.2)]) (fun x hx => hf x (List.mem_cons_of_mem _ hx))
      (by simpa using hd)]
    simp

/-- The loop that fills `next_word_counts` copies a word table whose words hold no blank. -/
theorem rewrite_words_id (best_pair : Str × Str) (word_counts : List (Str × Int))
    (hd : (word_counts.map Prod.fst).Nodup) (hno : ∀ wc ∈ word_counts, ' ' ∉ wc.1) :
    rewrite_words best_pair word_counts = word_counts := by
  unfold rewrite_words
  have := foldl_umSet_id (fun wc => rewrite_word (pair_key best_pair.1 best_pair.2)
    (best_pair.1 ++ best_pair.2) wc.1.length wc.1 0) word_counts []
    (fun wc hwc => rewrite_word_id _ _ _ _ _ (hno wc hwc)) (by simpa using hd)
  simpa using this

theorem split_ws_aux_no_space : ∀ (text cur : Str), (∀ c ∈ cur, is_space c = false) →
    ∀ w ∈ split_ws_aux text cur, ∀ c ∈ w, is_space c = false := by
  intro text
  induction text with
  | nil =>
    intro cur hcur w hw
    simp only [split_ws_aux] at hw
    split_ifs at hw
    · simp at hw
    · rw [List.mem_singleton.mp hw]
      exact hcur
  | cons x text ih =>
    intro cur hcur w hw
    simp only [split_ws_aux] at hw
    split_ifs at hw with hx hc
    · exact ih [] (by simp) w hw
    · rcases List.mem_cons.mp hw with rfl | hw
      · exact hcur
      · exact ih [] (by simp) w hw
    · apply ih (cur ++ [x]) _ w hw
      intro c hc
      rcases List.mem_append.mp hc with h | h
      · exact hcur c h
      · rw [List.mem_singleton.mp h]
        simpa using hx

/-- The word table of `get_word_counts` has pairwise distinct words, none with a blank. -/
theorem get_word_counts_keys (t : BPETrainer) (corpus : List Str) :
    ((t.get_word_counts corpus).map Prod.fst).Nodup ∧
      ∀ wc ∈ t.get_word_counts corpus, ' ' ∉ wc.1 := by
  have h : ((t.get_word_counts corpus).map Prod.fst).Nodup ∧
      ∀ k ∈ (t.get_word_counts corpus).map Prod.fst, ' ' ∉ k := by
    unfold BPETrainer.get_word_counts
    suffices hs : ∀ m : List (Str × Int),
        ((m.map Prod.fst).Nodup ∧ ∀ k ∈ m.map Prod.fst, ' ' ∉ k) →
        (((corpus.foldl (fun counts text =>
          (split_ws (if t.config_.lowercase then (t.normalizer_ text).map Char.toLower
            else t.normalizer_ text)).foldl
            (fun counts word => umAdd counts (word ++ end_of_word) 1) counts) m).map
              Prod.fst).Nodup ∧
          ∀ k ∈ (corpus.foldl (fun counts text =>
            (split_ws (if t.config_.lowercase then (t.normalizer_ text).map Char.toLower
              else t.normalizer_ text)).foldl
              (fun counts word => umAdd counts (word ++ end_of_word) 1) counts) m).map Prod.fst,
            ' ' ∉ k) from hs [] ⟨List.nodup_nil, by simp⟩
    induction corpus with
    | nil => exact fun _ h => h
    | cons text corpus ih =>
      intro m hm
      simp only [List.foldl_cons]
      apply ih
      have hwords : ∀ w ∈ split_ws (if t.config_.lowercase then
          (t.normalizer_ text).map Char.toLower else t.normalizer_ text),
          ∀ c ∈ w, is_space c = false :=
        split_ws_aux_no_space _ [] (by simp)
      generalize split_ws (if t.config_.lowercase then (t.normalizer_ text).map Char.toLower
        else t.normalizer_ text) = words at hwords
      clear ih
      induction words generalizing m with
      | nil => exact hm
      | cons word words ihw =>
        simp only [List.foldl_cons]
        apply ihw _ _ (fun w hw => hwords w (List.mem_cons_of_mem _ hw))
        refine ⟨umAdd_keys_nodup m _ 1 hm.1, ?_⟩
        apply keys_umAdd_of (fun k : Str => ' ' ∉ k) m _ 1 hm.2
        intro hmem
        rcases List.mem_append.mp hmem with h | h
        · have := hwords word (List.mem_cons_self _ _) ' ' h
          simp [is_space] at this
        · simp [end_of_word] at h
  refine ⟨h.1, fun wc hwc => h.2 wc.1 (List.mem_map_of_mem Prod.fst hwc)⟩

/-- The merge loop of `train` keeps the word table and appends pairs of single `char`s. -/
theorem train_loop_rules : ∀ (n : Nat) (t : BPETrainer) (vocab : Vocab),
    (t.word_counts_.map Prod.fst).Nodup → (∀ wc ∈ t.word_counts_, ' ' ∉ wc.1) →
    (∀ rule ∈ t.merge_rules_, rule.1.length = 1 ∧ rule.2.length = 1) →
      (train_loop n (t, vocab)).1.word_counts_ = t.word_counts_ ∧
        ∀ rule ∈ (train_loop n (t, vocab)).1.merge_rules_,
          rule.1.length = 1 ∧ rule.2.length = 1 := by
  intro n
  induction n with
  | zero => intro t vocab _ _ hr; exact ⟨rfl, hr⟩
  | succ n ih =>
    intro t vocab hd hno hr
    simp only [train_loop]
    split_ifs with hempty hzero
    · exact ⟨rfl, hr⟩
    · exact ⟨rfl, hr⟩
    · have hrw := rewrite_words_id
        (best_pair_loop (get_pair_counts t.word_counts_) (([], []), 0)).1 t.word_counts_ hd hno
      have hbest : best_pair_loop (get_pair_counts t.word_counts_) (([], []), 0)
          ∈ get_pair_counts t.word_counts_ := by
        rcases best_pair_loop_spec (get_pair_counts t.word_counts_) (([], []), 0) with
          ⟨h1, _⟩ | ⟨h1, _, _⟩
        · rw [h1] at hzero
          exact absurd rfl hzero
        · exact h1
      have hkeys := get_pair_counts_keys t.word_counts_ _ hbest
      have := ih
        { t with
          pair_counts_ := get_pair_counts t.word_counts_
          merge_rules_ := t.merge_rules_ ++
            [((best_pair_loop (get_pair_counts t.word_counts_) (([], []), 0)).1.1,
              (best_pair_loop (get_pair_counts t.word_counts_) (([], []), 0)).1.2)]
          word_counts_ := rewrite_words
            (best_pair_loop (get_pair_counts t.word_counts_) (([], []), 0)).1 t.word_counts_ }
        (vocab.add_token
          ((best_pair_loop (get_pair_counts t.word_counts_) (([], []), 0)).1.1 ++
            (best_pair_loop (get_pair_counts t.word_counts_) (([], []), 0)).1.2) (-1))
        (by simpa [hrw] using hd) (by simpa [hrw] using hno)
        (by
          intro rule hrule
          simp only [List.mem_append, List.mem_singleton] at hrule
          rcases hrule with h | rfl
          · exact hr rule h
          · exact hkeys)
      simp only [hrw] at this ⊢
      exact this

/-- C38: for every configuration, corpus with at least one line and target vocabulary size,
`train` of a fresh trainer returns, and every merge rule it has learned is a pair of single
`char`s: neither side is a merged symbol. The pair table is rebuilt from single `char`s in
every round, and the rewriting step leaves the word table as `get_word_counts` built it. -/
theorem train_rules_single_chars (config : TokenizerConfig) (normalizer : Str → Str)
    (corpus : List Str) (vocab : Vocab) (vocab_size : Nat) (hne : corpus ≠ []) :
    ∃ result : BPETrainer × Vocab,
      (BPETrainer.make config normalizer).train corpus vocab vocab_size = Except.ok result ∧
      (∀ rule ∈ result.1.merge_rules_, rule.1.length = 1 ∧ rule.2.length = 1) ∧
      result.1.word_counts_ = (BPETrainer.make config normalizer).get_word_counts corpus := by
  unfold BPETrainer.train
  rw [if_neg hne]
  refine ⟨_, rfl, ?_⟩
  have hk := get_word_counts_keys (BPETrainer.make config normalizer) corpus
  have := train_loop_rules
    (vocab_size - (BPETrainer.initialize_vocab
      { BPETrainer.make config normalizer with
        word_counts_ := (BPETrainer.make config normalizer).get_word_counts corpus } vocab
      (initial_vocab_counts ((BPETrainer.make config normalizer).get_word_counts corpus))).size)
    { BPETrainer.make config normalizer with
      word_counts_ := (BPETrainer.make config normalizer).get_word_counts corpus }
    (BPETrainer.initialize_vocab
      { BPETrainer.make config normalizer with
        word_counts_ := (BPETrainer.make config normalizer).get_word_counts corpus } vocab
      (initial_vocab_counts ((BPETrainer.make config normalizer).get_word_counts corpus)))
    hk.1 hk.2 (by simp [BPETrainer.make])
  exact ⟨this.2, this.1⟩

set_option maxRecDepth 100000 in
theorem train_rules_single_chars_witness :
    seed_corpus ≠ [] ∧
      ∃ result : BPETrainer × Vocab,
        (BPETrainer.make seed_config id).train seed_corpus Vocab.empty 20 = Except.ok result ∧
        (∀ rule ∈ result.1.merge_rules_, rule.1.length = 1 ∧ rule.2.length = 1) ∧
        result.1.word_counts_ = (BPETrainer.make seed_config id).get_word_counts seed_corpus :=
  ⟨by decide, train_rules_single_chars seed_config id seed_corpus Vocab.empty 20 (by decide)⟩

/-! ## C39: the character-level tokenizer after training -/

theorem normalize_eq_steps (icu : ICU) (n : UnicodeNormalizer) (text : Str) :
    n.normalize icu text
      = if text = [] then [] else (n.steps icu).foldl (fun out step => step out) text := by
  unfold UnicodeNormalizer.normalize UnicodeNormalizer.steps
  split_ifs <;> simp [List.foldl_append]

theorem foldl_steps_fixed (steps : List (Str → Str)) (y : Str)
    (h : ∀ step ∈ steps, step y = y) : steps.foldl (fun out step => step out) y = y := by
  induction steps with
  | nil => rfl
  | cons step steps ih =>
    simp only [List.foldl_cons]
    rw [h step (List.mem_cons_self _ _)]
    exact ih fun s hs => h s (List.mem_cons_of_mem _ hs)

set_option maxRecDepth 100000 in
/-- C32 as stated fails: a custom transformation is an arbitrary function. With the
transformation that appends `!`, on ASCII text that ICU leaves unchanged, `normalize("a")` is
`a!` and `normalize("a!")` is `a!!`. -/
theorem normalize_not_idempotent_counterexample :
    bang_normalizer.normalize ascii_icu "a".toList = "a!".toList ∧
      bang_normalizer.normalize ascii_icu (bang_normalizer.normalize ascii_icu "a".toList)
        = "a!!".toList ∧
      bang_normalizer.normalize ascii_icu (bang_normalizer.normalize ascii_icu "a".toList)
        ≠ bang_normalizer.normalize ascii_icu "a".toList := by
  refine ⟨?_, ?_, ?_⟩ <;> decide

/-- A text that the step `f` leaves unchanged stays so under steps that keep such texts. -/
theorem foldl_keeps_fixed (f : Str → Str) (rest : List (Str → Str))
    (hk : ∀ g ∈ rest, ∀ s, f s = s → f (g s) = g s) :
    ∀ z, f z = z → f (rest.foldl (fun out step => step out) z)
      = rest.foldl (fun out step => step out) z := by
  induction rest with
  | nil => exact fun _ h => h
  | cons g rest ih =>
    intro z hz
    simp only [List.foldl_cons]
    exact ih (fun h hh => hk h (List.mem_cons_of_mem _ hh)) (g z)
      (hk g (List.mem_cons_self _ _) z hz)

/-- The result of a pipeline of idempotent steps, each of which keeps what the steps before it
have normalized, is left unchanged by every step. -/
theorem foldl_steps_stable (steps : List (Str → Str))
    (hidem : ∀ step ∈ steps, ∀ s, step (step s) = step s)
    (hkeep : steps.Pairwise fun f g => ∀ s, f s = s → f (g s) = g s) :
    ∀ x, ∀ f ∈ steps, f (steps.foldl (fun out step => step out) x)
      = steps.foldl (fun out step => step out) x := by
  induction steps with
  | nil => intro x f hf; cases hf
  | cons g rest ih =>
    intro x f hf
    simp only [List.foldl_cons]
    rw [List.pairwise_cons] at hkeep
    rcases List.mem_cons.mp hf with rfl | hf
    · exact foldl_keeps_fixed f rest hkeep.1 (f x) (hidem f (List.mem_cons_self _ _) x)
    · exact ih (fun step hs => hidem step (List.mem_cons_of_mem _ hs)) hkeep.2 (g x) f hf

/-- C32, amended: for every normalizer configuration in which every step that `normalize`
applies (the ICU normalization to the configured form, every custom transformation, accent
stripping when requested, lowercasing when requested) is idempotent, and every step returns a
text that an earlier step leaves unchanged whenever it is given such a text, `normalize` is
idempotent: `normalize(normalize(x)) = normalize(x)` for every text `x`. -/
theorem normalize_idempotent_of_stable (icu : ICU) (n : UnicodeNormalizer)
    (hidem : ∀ step ∈ n.steps icu, ∀ s, step (step s) = step s)
    (hkeep : (n.steps icu).Pairwise fun f g => ∀ s, f s = s → f (g s) = g s) (x : Str) :
    n.normalize icu (n.normalize icu x) = n.normalize icu x := by
  rw [normalize_eq_steps icu n (n.normalize icu x)]
  split_ifs with he
  · exact he.symm
  · rw [normalize_eq_steps icu n x] at he ⊢
    split_ifs at he ⊢ with hx
    · exact absurd rfl he
    · exact foldl_steps_fixed _ _ (foldl_steps_stable _ hidem hkeep x)

theorem filter_keeps_fixed (p q : Char → Bool) (s : Str) (h : s.filter p = s) :
    (s.filter q).filter p = s.filter q := by
  rw [List.filter_eq_self] at h ⊢
  intro a ha
  exact h a (List.mem_filter.mp ha).1

theorem map_keeps_filter_fixed (p : Char → Bool) (l : Char → Char)
    (hl : ∀ c, p c = true → p (l c) = true) (s : Str) (h : s.filter p = s) :
    (s.map l).filter p = s.map l := by
  rw [List.filter_eq_self] at h ⊢
  intro a ha
  obtain ⟨c, hc, rfl⟩ := List.mem_map.mp ha
  exact hl c (h c hc)

theorem strip_lower_steps_eq :
    strip_lower_normalizer.steps marks_icu
      = [fun out => out, fun out => out.filter fun c => c != '!',
          fun out => out.filter fun c => c != '~',
          fun out => out.map fun c => if c = 'A' then 'a' else c] := rfl

theorem strip_lower_steps_idempotent :
    ∀ step ∈ strip_lower_normalizer.steps marks_icu, ∀ s, step (step s) = step s := by
  intro step hstep s
  rw [strip_lower_steps_eq] at hstep
  simp only [List.mem_cons, List.mem_singleton, List.not_mem_nil, or_false] at hstep
  rcases hstep with rfl | rfl | rfl | rfl
  · rfl
  · simp
  · simp
  · simp only [List.map_map]
    apply List.map_congr_left
    intro c _
    by_cases hc : c = 'A'
    · simp [hc]
    · simp [hc]

theorem strip_lower_steps_keep :
    (strip_lower_normalizer.steps marks_icu).Pairwise
      fun f g => ∀ s, f s = s → f (g s) = g s := by
  rw [strip_lower_steps_eq]
  refine List.Pairwise.cons ?_ (List.Pairwise.cons ?_ (List.Pairwise.cons ?_
    (List.Pairwise.cons ?_ List.Pairwise.nil)))
  · intro g _ s _
    rfl
  · intro g hg s hs
    simp only [List.mem_cons, List.mem_singleton, List.not_mem_nil, or_false] at hg
    rcases hg with rfl | rfl
    · exact filter_keeps_fixed _ _ s hs
    · apply map_keeps_filter_fixed _ _ _ s hs
      intro c hc
      by_cases h : c = 'A'
      · simp [h]
      · simpa [h] using hc
  · intro g hg s hs
    simp only [List.mem_singleton] at hg
    subst hg
    apply map_keeps_filter_fixed _ _ _ s hs
    intro c hc
    by_cases h : c = 'A'
    · simp [h]
    · simpa [h] using hc
  · intro g hg
    cases hg

theorem normalize_idempotent_of_stable_witness :
    (∀ step ∈ strip_lower_normalizer.steps marks_icu, ∀ s, step (step s) = step s) ∧
      ((strip_lower_normalizer.steps marks_icu).Pairwise
        fun f g => ∀ s, f s = s → f (g s) = g s) ∧
      strip_lower_normalizer.normalize marks_icu "A!~b".toList = "ab".toList ∧
      strip_lower_normalizer.normalize marks_icu
          (strip_lower_normalizer.normalize marks_icu "A!~b".toList)
        = strip_lower_normalizer.normalize marks_icu "A!~b".toList :=
  ⟨strip_lower_steps_idempotent, strip_lower_steps_keep, by decide,
    normalize_idempotent_of_stable marks_icu strip_lower_normalizer
      strip_lower_steps_idempotent strip_lower_steps_keep "A!~b".toList⟩

/-! ## C34: the regex pre-tokenizer -/

theorem regex_search_ge (r : Regex) (text : Str) (not_null : Bool) :
    ∀ (fuel pos position length : Nat),
      regex_search r text not_null fuel pos = some (position, length) → pos ≤ position := by
  intro fuel
  induction fuel with
  | zero => intro pos position length h; simp [regex_search] at h
  | succ fuel ih =>
    intro pos position length h
    simp only [regex_search] at h
    cases hm : r.match_at text pos not_null with
    | some len =>
      simp only [hm, Option.some.injEq, Prod.mk.injEq] at h
      exact le_of_eq h.1
    | none =>
      simp only [hm] at h
      exact le_trans (Nat.le_succ pos) (ih _ _ _ h)

theorem regex_next_ge (r : Regex) (text : Str) (position length p l : Nat)
    (h : regex_next r text position length = some (p, l)) : position + length ≤ p := by
  unfold regex_next at h
  simp only at h
  split_ifs at h with h0 hend
  · cases hm : r.match_at text (position + length) true with
    | some len =>
      simp only [hm, Option.some.injEq, Prod.mk.injEq] at h
      exact le_of_eq h.1
    | none =>
      simp only [hm] at h
      exact le_trans (Nat.le_succ _) (regex_search_ge _ _ _ _ _ _ _ h)
  · exact regex_search_ge _ _ _ _ _ _ _ h

theorem regex_search_lt (r : Regex) (text : Str) (not_null : Bool) :
    ∀ (fuel pos position length : Nat),
      regex_search r text not_null fuel pos = some (position, length) →
        position < pos + fuel := by
  intro fuel
  induction fuel with
  | zero => intro pos position length h; simp [regex_search] at h
  | succ fuel ih =>
    intro pos position length h
    simp only [regex_search] at h
    cases hm : r.match_at text pos not_null with
    | some len =>
      simp only [hm, Option.some.injEq, Prod.mk.injEq] at h
      omega
    | none =>
      simp only [hm] at h
      have := ih _ _ _ h
      omega

/-- After a match inside the text the iterator stands on a match inside the text with a
smaller bound, or at the end; `hnn` is the meaning of `match_not_null`. -/
theorem regex_next_left (r : Regex) (text : Str)
    (hnn : ∀ (s : Str) (pos len : Nat), r.match_at s pos true = some len → 1 ≤ len)
    (position length : Nat) (hp : position ≤ text.length) :
    matches_left text (regex_next r text position length)
        < matches_left text (some (position, length)) ∧
      ∀ p l, regex_next r text position length = some (p, l) → p ≤ text.length := by
  unfold regex_next
  simp only
  by_cases h0 : length = 0
  · subst h0
    simp only [if_true, Nat.add_zero]
    by_cases hend : position = text.length
    · simp [hend, matches_left]
    · simp only [hend, if_false]
      cases hm : r.match_at text position true with
      | some len =>
        have hlen := hnn text position len hm
        have hne : len ≠ 0 := by omega
        simp only [matches_left, hne, if_false, if_true]
        refine ⟨by omega, ?_⟩
        intro p l h
        simp only [Option.some.injEq, Prod.mk.injEq] at h
        omega
      | none =>
        simp only
        cases hs : regex_search r text false (text.length - position) (position + 1) with
        | none => simp [matches_left]
        | some m =>
          obtain ⟨q, len⟩ := m
          have hge := regex_search_ge _ _ _ _ _ _ _ hs
          have hlt := regex_search_lt _ _ _ _ _ _ _ hs
          simp only [matches_left, if_true]
          refine ⟨?_, ?_⟩
          · split_ifs <;> omega
          · intro p l h
            simp only [Option.some.injEq, Prod.mk.injEq] at h
            omega
  · simp only [h0, if_false]
    cases hs : regex_search r text false (text.length + 1 - (position + length))
        (position + length) with
    | none => simp [matches_left, h0]
    | some m =>
      obtain ⟨q, len⟩ := m
      have hge := regex_search_ge _ _ _ _ _ _ _ hs
      have hlt := regex_search_lt _ _ _ _ _ _ _ hs
      simp only [matches_left, h0, if_false]
      refine ⟨?_, ?_⟩
      · split_ifs <;> omega
      · intro p l h
        simp only [Option.some.injEq, Prod.mk.injEq] at h
        omega

/-- The matches that `regex_matches` lists do not depend on the fuel once the fuel reaches
the bound `matches_left`: the fuel `2 * text.length + 2` of `split_by_pattern` is never used
up, whatever the pattern. -/
theorem regex_matches_fuel (r : Regex) (text : Str)
    (hnn : ∀ (s : Str) (pos len : Nat), r.match_at s pos true = some len → 1 ≤ len) :
    ∀ (fuel fuel' : Nat) (current : Option (Nat × Nat)),
      matches_left text current ≤ fuel → matches_left text current ≤ fuel' →
      (∀ p l, current = some (p, l) → p ≤ text.length) →
        regex_matches r text fuel current = regex_matches r text fuel' current := by
  intro fuel
  induction fuel with
  | zero =>
    intro fuel' current h _ _
    cases current with
    | none => cases fuel' <;> rfl
    | some m =>
      obtain ⟨p, l⟩ := m
      simp only [matches_left] at h
      split_ifs at h <;> omega
  | succ fuel ih =>
    intro fuel' current h h' hp
    cases current with
    | none => cases fuel' <;> rfl
    | some m =>
      obtain ⟨p, l⟩ := m
      obtain ⟨hlt, hin⟩ := regex_next_left r text hnn p l (hp p l rfl)
      cases fuel' with
      | zero =>
        simp only [matches_left] at h'
        split_ifs at h' <;> omega
      | succ fuel' =>
        simp only [regex_matches]
        rw [ih fuel' _ (by omega) (by omega) hin]

theorem regex_first_left (r : Regex) (text : Str) :
    matches_left text (regex_search r text false (text.length + 1) 0)
        ≤ 2 * text.length + 2 ∧
      ∀ p l, regex_search r text false (text.length + 1) 0 = some (p, l) →
        p ≤ text.length := by
  cases hs : regex_search r text false (text.length + 1) 0 with
  | none => simp [matches_left]
  | some m =>
    obtain ⟨q, len⟩ := m
    have hlt := regex_search_lt _ _ _ _ _ _ _ hs
    refine ⟨?_, ?_⟩
    · simp only [matches_left]
      split_ifs <;> omega
    · intro p l h
      simp only [Option.some.injEq, Prod.mk.injEq] at h
      omega

/-- The matches of the iterator go from left to right without overlap. -/
theorem regex_matches_ordered (r : Regex) (text : Str) :
    ∀ (fuel : Nat) (current : Option (Nat × Nat)) (last_pos : Nat),
      (∀ p l, current = some (p, l) → last_pos ≤ p) →
        matches_ordered (regex_matches r text fuel current) last_pos := by
  intro fuel
  induction fuel with
  | zero => intro current last_pos _; simp [regex_matches, matches_ordered]
  | succ fuel ih =>
    intro current last_pos h
    cases current with
    | none => simp [regex_matches, matches_ordered]
    | some m =>
      obtain ⟨position, length⟩ := m
      simp only [regex_matches, matches_ordered]
      exact ⟨h position length rfl, ih _ _ fun p l hp => regex_next_ge r text _ _ p l hp⟩

theorem take_append_substr (text : Str) (a b : Nat) (h : a ≤ b) :
    text.take a ++ substr text a (b - a) = text.take b := by
  unfold substr
  have : b = a + (b - a) := by omega
  conv_rhs => rw [this, List.take_add]

/-- The loop over the matches keeps `temp_tokens` a partition of the text before
`last_pos`. -/
theorem split_matches_flatten (text : Str) : ∀ (ms : List (Nat × Nat)) (temp_tokens : List Str)
    (last_pos : Nat), matches_ordered ms last_pos →
    temp_tokens.flatten = text.take last_pos →
      (split_matches text ms temp_tokens last_pos).1.flatten
        = text.take (split_matches text ms temp_tokens last_pos).2 := by
  intro ms
  induction ms with
  | nil => intro temp_tokens last_pos _ h; exact h
  | cons m ms ih =>
    intro temp_tokens last_pos hord h
    obtain ⟨position, length⟩ := m
    simp only [matches_ordered] at hord
    simp only [split_matches]
    apply ih _ _ hord.2
    have hgap : (if position > last_pos then
        temp_tokens ++ [substr text last_pos (position - last_pos)]
        else temp_tokens).flatten = text.take position := by
      split_ifs with hgt
      · rw [List.flatten_append, h]
        simp only [List.flatten_cons, List.flatten_nil, List.append_nil]
        exact take_append_substr text last_pos position hord.1
      · have : position = last_pos := by omega
        rw [h, this]
    rw [List.flatten_append, hgap]
    simp only [List.flatten_cons, List.flatten_nil, List.append_nil]
    have := take_append_substr text position (position + length) (Nat.le_add_right _ _)
    simpa using this

/-- One pattern cuts the text into tokens that concatenate to the text. -/
theorem split_by_pattern_flatten (pattern : Regex) (text : Str) :
    (split_by_pattern pattern text).flatten = text := by
  unfold split_by_pattern
  have hord := regex_matches_ordered pattern text (2 * text.length + 2)
    (regex_search pattern text false (text.length + 1) 0) 0 (fun _ _ _ => Nat.zero_le _)
  have hfl := split_matches_flatten text _ [] 0 hord (by simp)
  simp only
  split_ifs with hlt
  · rw [List.flatten_append, hfl]
    simp
  · rw [hfl]
    exact List.take_of_length_le (by omega)

theorem apply_patterns_flatten : ∀ (patterns rest : List Regex) (pattern : Regex)
    (s : List Str × Str), patterns = pattern :: rest →
      (apply_patterns patterns s).1.flatten = s.2 := by
  intro patterns
  induction patterns with
  | nil => intro rest pattern s h; cases h
  | cons p ps ih =>
    intro rest pattern s _
    obtain ⟨tokens, current_text⟩ := s
    simp only [apply_patterns]
    have hfl := split_by_pattern_flatten p current_text
    have hcur : (split_by_pattern p current_text).foldl (fun text t => text ++ t) []
        = current_text := by
      rw [foldl_append_eq_flatten, List.nil_append, hfl]
    rw [hcur]
    cases ps with
    | nil => simpa [apply_patterns] using hfl
    | cons q qs => exact ih qs q _ rfl

set_option maxRecDepth 100000 in
/-- C34 fails on the code. The fragments always concatenate to the text, but a match is
pushed whether it is empty or not: with the pattern `a*` the text `ab` is cut into `a`, the
empty match before `b`, `b`, and the empty match at the end. Only the gaps and the tail are
tested for emptiness (and, without patterns, the tokens of the whitespace split). -/
theorem pre_tokenize_keeps_empty_matches :
    (∀ (pattern : Regex) (patterns : List Regex) (text : Str),
      (RegexPreTokenizer.pre_tokenize (pattern :: patterns) text).flatten = text) ∧
      RegexPreTokenizer.pre_tokenize [star_a] "ab".toList = ["a".toList, [], "b".toList, []] ∧
      ([] : Str) ∈ RegexPreTokenizer.pre_tokenize [star_a] "ab".toList ∧
      RegexPreTokenizer.pre_tokenize [star_a] [] = [[]] ∧
      RegexPreTokenizer.pre_tokenize [] " a  b ".toList = ["a".toList, "b".toList] := by
  refine ⟨?_, by decide, by decide, by decide, by decide⟩
  intro pattern patterns text
  unfold RegexPreTokenizer.pre_tokenize
  simp only
  have hfinal : ∀ tokens : List Str,
      tokens.foldl (fun final_tokens token => final_tokens ++ handle_special_cases token) []
        = tokens := by
    intro tokens
    have := foldl_push_map (fun t : Str => t) tokens []
    simpa [handle_special_cases] using this
  rw [hfinal]
  exact apply_patterns_flatten _ patterns pattern ([], text) rfl

/-! ## C40: the UTF-8 check -/

theorem utf8.sequence_length_le (lead : Nat) : utf8.sequence_length lead ≤ 4 := by
  unfold utf8.sequence_length
  split_ifs <;> omega

/-- The result of `utf8_loop` does not depend on the fuel once the fuel covers the bytes
behind `i`: the fuel `utf8_str.length` of `utf8_to_codepoints` is never used up. -/
theorem utf8.utf8_loop_fuel (utf8_str : Str) :
    ∀ (fuel fuel' i : Nat) (codepoints : List Nat),
      utf8_str.length - i ≤ fuel → utf8_str.length - i ≤ fuel' →
        utf8.utf8_loop utf8_str fuel i codepoints
          = utf8.utf8_loop utf8_str fuel' i codepoints := by
  intro fuel
  induction fuel with
  | zero =>
    intro fuel' i codepoints h _
    have hi : ¬ i < utf8_str.length := by omega
    cases fuel' with
    | zero => rfl
    | succ fuel' => simp only [utf8.utf8_loop, hi, if_false]
  | succ fuel ih =>
    intro fuel' i codepoints h h'
    cases fuel' with
    | zero =>
      have hi : ¬ i < utf8_str.length := by omega
      simp only [utf8.utf8_loop, hi, if_false]
    | succ fuel' =>
      by_cases hi : i < utf8_str.length
      · simp only [utf8.utf8_loop, hi, if_true]
        by_cases h0 : utf8.sequence_length (utf8.byte_at utf8_str i) = 0
        · simp only [h0, if_true]
        · have hnext : ∀ cps, utf8.utf8_loop utf8_str fuel
              (i + utf8.sequence_length (utf8.byte_at utf8_str i)) cps
              = utf8.utf8_loop utf8_str fuel'
                (i + utf8.sequence_length (utf8.byte_at utf8_str i)) cps :=
            fun cps => ih fuel' _ cps (by omega) (by omega)
          simp only [h0, if_false]
          split_ifs <;> first | rfl | exact hnext _
      · simp only [utf8.utf8_loop, hi, if_false]
set_option maxRecDepth 100000 in
/-- C40 fails on the code: `is_valid_utf8` checks only that every lead byte below `F8` is
followed by as many continuation bytes as `sequence_length` announces. It accepts a
continuation byte in lead position (`80 80`, which `sequence_length` takes for a two-byte
lead), the overlong form `C0 80`, the surrogate `ED A0 80` and `F7 BF BF BF`, a code point
above U+10FFFF; none of them is well-formed UTF-8. It agrees with the standard on the
well-formed `68 C3 A9 6C 6C 6F` and on the truncated `C3` and the lead byte `F8`. -/
theorem is_valid_utf8_accepts_ill_formed :
    utf8.is_valid_utf8 (str_of_bytes [0x80, 0x80]) = true ∧
      well_formed_utf8 (bytes_of (str_of_bytes [0x80, 0x80])) = false ∧
      utf8.is_valid_utf8 (str_of_bytes [0xC0, 0x80]) = true ∧
      well_formed_utf8 (bytes_of (str_of_bytes [0xC0, 0x80])) = false ∧
      utf8.is_valid_utf8 (str_of_bytes [0xED, 0xA0, 0x80]) = true ∧
      well_formed_utf8 (bytes_of (str_of_bytes [0xED, 0xA0, 0x80])) = false ∧
      utf8.is_valid_utf8 (str_of_bytes [0xF7, 0xBF, 0xBF, 0xBF]) = true ∧
      well_formed_utf8 (bytes_of (str_of_bytes [0xF7, 0xBF, 0xBF, 0xBF])) = false ∧
      utf8.utf8_to_codepoints (str_of_bytes [0xC0, 0x80]) = Except.ok [0] ∧
      utf8.utf8_to_codepoints (str_of_bytes [0xED, 0xA0, 0x80]) = Except.ok [0xD800] ∧
      utf8.utf8_to_codepoints (str_of_bytes [0xF7, 0xBF, 0xBF, 0xBF]) = Except.ok [0x1FFFFF] ∧
      utf8.is_valid_utf8 hello_utf8 = true ∧
      well_formed_utf8 (bytes_of hello_utf8) = true ∧
      utf8.is_valid_utf8 (str_of_bytes [0xC3]) = false ∧
      well_formed_utf8 (bytes_of (str_of_bytes [0xC3])) = false ∧
      utf8.is_valid_utf8 (str_of_bytes [0xF8]) = false ∧
      well_formed_utf8 (bytes_of (str_of_bytes [0xF8])) = false := by
  refine ⟨?_, ?_, ?_, ?_, ?_, ?_, ?_, ?_, ?_, ?_, ?_, ?_, ?_, ?_, ?_, ?_, ?_⟩ <;> decide

theorem drop_cons_getD {α : Type} (d : α) : ∀ (s : List α) (i : Nat) (c : α) (rest : List α),
    s.drop i = c :: rest → s.getD i d = c ∧ s.drop (i + 1) = rest ∧ i < s.length := by
  intro s
  induction s with
  | nil => intro i c rest h; simp at h
  | cons x s ih =>
    intro i c rest h
    cases i with
    | zero =>
      simp only [List.drop_zero, List.cons.injEq] at h
      obtain ⟨rfl, rfl⟩ := h
      simp
    | succ i =>
      simp only [List.drop_succ_cons] at h
      have := ih i c rest h
      simpa using this

theorem utf8.continuation_of_range (b : Nat) (h : in_range b 0x80 0xBF = true) :
    utf8.is_continuation_byte b = true := by
  simp only [in_range, decide_eq_true_eq] at h
  obtain ⟨h1, h2⟩ := h
  unfold utf8.is_continuation_byte
  interval_cases b <;> rfl

/-- Every well-formed UTF-8 string passes the loop of `utf8_to_codepoints`. -/
theorem utf8.well_formed_accepted (s : Str) : ∀ (fuel i : Nat) (cps : List Nat),
    s.length - i ≤ fuel → well_formed_utf8 (bytes_of (s.drop i)) = true →
      ∃ out, utf8.utf8_loop s fuel i cps = Except.ok out := by
  intro fuel
  induction fuel with
  | zero => intro i cps _ _; exact ⟨cps, rfl⟩
  | succ fuel ih =>
    intro i cps hf hw
    by_cases hi : i < s.length
    swap
    · exact ⟨cps, by simp only [utf8.utf8_loop, hi, if_false]⟩
    cases hd : s.drop i with
    | nil =>
      have := congrArg List.length hd
      simp at this
      omega
    | cons c0 rest =>
      obtain ⟨hg0, hr0, _⟩ := drop_cons_getD (Char.ofNat 0) s i c0 rest hd
      have hb0 : utf8.byte_at s i = utf8.byte c0 := by unfold utf8.byte_at; rw [hg0]
      rw [hd] at hw
      by_cases h1 : utf8.byte c0 ≤ 0x7F
      · have hw' : well_formed_utf8 (bytes_of rest) = true := by
          simp only [bytes_of, List.map_cons] at hw
          unfold well_formed_utf8 at hw
          simpa [bytes_of, h1] using hw
        have hlen : utf8.sequence_length (utf8.byte_at s i) = 1 := by
          rw [hb0]
          unfold utf8.sequence_length
          split_ifs <;> omega
        obtain ⟨out, hout⟩ := ih (i + 1) (cps ++ [utf8.byte_at s i]) (by omega)
          (by rw [hr0]; exact hw')
        refine ⟨out, ?_⟩
        have hle : ¬ i + 1 > s.length := by omega
        simp only [utf8.utf8_loop, hi, if_true, hlen, hle, if_false, Nat.one_ne_zero]
        exact hout
      · cases hrest : rest with
        | nil =>
          rw [hrest] at hw
          simp only [bytes_of, List.map_cons, List.map_nil] at hw
          unfold well_formed_utf8 at hw
          simp [h1] at hw
        | cons c1 rest1 =>
          rw [hrest] at hw hr0
          obtain ⟨hg1, hr1, hi1⟩ := drop_cons_getD (Char.ofNat 0) s (i + 1) c1 rest1 hr0
          have hb1 : utf8.byte_at s (i + 1) = utf8.byte c1 := by unfold utf8.byte_at; rw [hg1]
          by_cases h2 : in_range (utf8.byte c0) 0xC2 0xDF = true
          · have hw' : in_range (utf8.byte c1) 0x80 0xBF = true ∧
                well_formed_utf8 (bytes_of rest1) = true := by
              simp only [bytes_of, List.map_cons] at hw
              unfold well_formed_utf8 at hw
              simpa [bytes_of, h1, h2] using hw
            have hlen : utf8.sequence_length (utf8.byte_at s i) = 2 := by
              rw [hb0]
              simp only [in_range, decide_eq_true_eq] at h2
              unfold utf8.sequence_length
              split_ifs <;> omega
            have hc1 := utf8.continuation_of_range _ hw'.1
            obtain ⟨out, hout⟩ := ih (i + 2)
              (cps ++ [((utf8.byte_at s i &&& 0x1F) <<< 6) |||
                (utf8.byte_at s (i + 1) &&& 0x3F)]) (by omega) (by rw [hr1]; exact hw'.2)
            refine ⟨out, ?_⟩
            have hle : ¬ i + 2 > s.length := by omega
            simp only [utf8.utf8_loop, hi, if_true, hlen, hle, if_false, hb1, hc1]
            simp only [hb1] at hout
            simpa using hout
          · cases hrest1 : rest1 with
            | nil =>
              rw [hrest1] at hw
              simp only [bytes_of, List.map_cons, List.map_nil] at hw
              unfold well_formed_utf8 at hw
              simp [h1, h2] at hw
            | cons c2 rest2 =>
              rw [hrest1] at hw hr1
              obtain ⟨hg2, hr2, hi2⟩ := drop_cons_getD (Char.ofNat 0) s (i + 2) c2 rest2 hr1
              have hb2 : utf8.byte_at s (i + 2) = utf8.byte c2 := by
                unfold utf8.byte_at; rw [hg2]
              by_cases h3 : in_range (utf8.byte c0) 0xE0 0xEF = true
              · have hw' : (in_range (utf8.byte c1)
                    (if utf8.byte c0 = 0xE0 then 0xA0 else 0x80)
                    (if utf8.byte c0 = 0xED then 0x9F else 0xBF) = true ∧
                    in_range (utf8.byte c2) 0x80 0xBF = true) ∧
                    well_formed_utf8 (bytes_of rest2) = true := by
                  simp only [bytes_of, List.map_cons] at hw
                  unfold well_formed_utf8 at hw
                  simpa [bytes_of, h1, h2, h3] using hw
                have hlen : utf8.sequence_length (utf8.byte_at s i) = 3 := by
                  rw [hb0]
                  simp only [in_range, decide_eq_true_eq] at h3
                  unfold utf8.sequence_length
                  split_ifs <;> omega
                have hr1' : in_range (utf8.byte c1) 0x80 0xBF = true := by
                  have := hw'.1.1
                  simp only [in_range, decide_eq_true_eq] at this ⊢
                  split_ifs at this <;> omega
                have hc1 := utf8.continuation_of_range _ hr1'
                have hc2 := utf8.continuation_of_range _ hw'.1.2
                obtain ⟨out, hout⟩ := ih (i + 3)
                  (cps ++ [((utf8.byte_at s i &&& 0x0F) <<< 12) |||
                    ((utf8.byte_at s (i + 1) &&& 0x3F) <<< 6) |||
                    (utf8.byte_at s (i + 2) &&& 0x3F)]) (by omega)
                  (by rw [hr2]; exact hw'.2)
                refine ⟨out, ?_⟩
                have hle : ¬ i + 3 > s.length := by omega
                simp only [utf8.utf8_loop, hi, if_true, hlen, hle, if_false, hb1, hb2, hc1, hc2]
                simp only [hb1, hb2] at hout
                simpa using hout
              · cases hrest2 : rest2 with
                | nil =>
                  rw [hrest2] at hw
                  simp only [bytes_of, List.map_cons, List.map_nil] at hw
                  unfold well_formed_utf8 at hw
                  simp [h1, h2, h3] at hw
                | cons c3 rest3 =>
                  rw [hrest2] at hw hr2
                  obtain ⟨hg3, hr3, hi3⟩ :=
                    drop_cons_getD (Char.ofNat 0) s (i + 3) c3 rest3 hr2
                  have hb3 : utf8.byte_at s (i + 3) = utf8.byte c3 := by
                    unfold utf8.byte_at; rw [hg3]
                  have hw' : in_range (utf8.byte c0) 0xF0 0xF4 = true ∧
                      ((in_range (utf8.byte c1)
                        (if utf8.byte c0 = 0xF0 then 0x90 else 0x80)
                        (if utf8.byte c0 = 0xF4 then 0x8F else 0xBF) = true ∧
                      in_range (utf8.byte c2) 0x80 0xBF = true) ∧
                      in_range (utf8.byte c3) 0x80 0xBF = true) ∧
                      well_formed_utf8 (bytes_of rest3) = true := by
                    simp only [bytes_of, List.map_cons] at hw
                    unfold well_formed_utf8 at hw
                    simpa [bytes_of, h1, h2, h3] using hw
                  have hlen : utf8.sequence_length (utf8.byte_at s i) = 4 := by
                    rw [hb0]
                    have := hw'.1
                    simp only [in_range, decide_eq_true_eq] at this
                    unfold utf8.sequence_length
                    split_ifs <;> omega
                  have hr1' : in_range (utf8.byte c1) 0x80 0xBF = true := by
                    have := hw'.2.1.1.1
                    simp only [in_range, decide_eq_true_eq] at this ⊢
                    split_ifs at this <;> omega
                  have hc1 := utf8.continuation_of_range _ hr1'
                  have hc2 := utf8.continuation_of_range _ hw'.2.1.1.2
                  have hc3 := utf8.continuation_of_range _ hw'.2.1.2
                  obtain ⟨out, hout⟩ := ih (i + 4)
                    (cps ++ [((utf8.byte_at s i &&& 0x07) <<< 18) |||
                      ((utf8.byte_at s (i + 1) &&& 0x3F) <<< 12) |||
                      ((utf8.byte_at s (i + 2) &&& 0x3F) <<< 6) |||
                      (utf8.byte_at s (i + 3) &&& 0x3F)]) (by omega)
                    (by rw [hr3]; exact hw'.2.2)
                  refine ⟨out, ?_⟩
                  have hle : ¬ i + 4 > s.length := by omega
                  simp only [utf8.utf8_loop, hi, if_true, hlen, hle, if_false, hb1, hb2, hb3,
                    hc1, hc2, hc3]
                  simp only [hb1, hb2, hb3] at hout
                  simpa using hout

/-- The check accepts every well-formed UTF-8 string: it errs on one side only. -/
theorem utf8.is_valid_of_well_formed (s : Str) (h : well_formed_utf8 (bytes_of s) = true) :
    utf8.is_valid_utf8 s = true := by
  obtain ⟨out, hout⟩ := utf8.well_formed_accepted s s.length 0 [] (by omega) (by simpa using h)
  simp [utf8.is_valid_utf8, utf8.utf8_to_codepoints, hout]
end AuraTokenizer
